import Mathlib

/-!
AvlTree: an ordered map backed by a height-balanced binary search tree.

A verification development for `include/avl_tree.hpp` (`at::AvlTree<Key, T, Compare>`).

The embedding:

* A `Node*` is a value of `Node K V`: `Node.nil` is `nullptr`, `Node.node` is a live node
  together with the record stored in it.  The owning links `left` / `right` always form a
  tree, so the children are inlined.  Every node carries the address it lives at (`addr`);
  the non-owning back reference `parent` is such an address (`none` is `nullptr`).
* `new` hands out addresses that were never used before (`AvlTree.heapTop` is the lowest
  such address).  A parent link that names a node which has been passed to `delete` is
  dangling: it names no node of the tree any more.
* The comparator `Compare` is a parameter `lt : K → K → Bool`
  (`AT_CMPKEY(a, b)` is `lt a b`).
* A function that dereferences an absent node has no defined result there: the embedded
  function returns `none`.  The iterator walk, which follows `parent` links, returns an
  `Outcome`.
* `ssize_type` heights are `Int`, `size_type` counts are `Nat`; a tree cannot hold enough
  nodes for either to leave its machine range.
-/

namespace Avl

/-! ## Data model -/

/-- A `Node*`: `nil` is `nullptr`; `node addr key value parent left right height` is the
node living at address `addr` with the fields of `struct Node`. -/
inductive Node (K V : Type) where
  | nil : Node K V
  | node (addr : Nat) (key : K) (value : V) (parent : Option Nat)
      (left right : Node K V) (height : Int) : Node K V
  deriving DecidableEq

/-- What an iterator step produces: a value, the exception thrown, or nothing defined
(a read through a pointer that names no live node).  `diverged` marks an exhausted loop
bound of the embedding. -/
inductive Outcome (α : Type) where
  | ok (a : α) : Outcome α
  | thrown (what : String) : Outcome α
  | undefined : Outcome α
  | diverged : Outcome α
  deriving DecidableEq

/-- The class `AvlTree::iterator`: the current node (`none` is the end position) and the
root of the tree it came from, both as addresses. -/
structure iterator where
  m_node : Option Nat
  m_root : Option Nat
  deriving DecidableEq

/-- The class `AvlTree`: `m_root`, `m_nodeCount`, and the allocator state `heapTop`
(every address handed out so far is below it). -/
structure AvlTree (K V : Type) where
  m_root : Node K V
  m_nodeCount : Nat
  heapTop : Nat
  deriving DecidableEq

section Defs

variable {K V : Type}

/-- The numeric value of a `Node*`. -/
def addrOf : Node K V → Option Nat
  | Node.nil => none
  | Node.node a _ _ _ _ _ _ => some a

/-- The member `keyValuePair` of the node (`none` on `nullptr`). -/
def keyValuePair : Node K V → Option (K × V)
  | Node.nil => none
  | Node.node _ k v _ _ _ _ => some (k, v)

/-- The member `parent` of the node (`nullptr` is `none`). -/
def parentOf : Node K V → Option Nat
  | Node.nil => none
  | Node.node _ _ _ p _ _ _ => p

/-- The member `left` of the node. -/
def leftOf : Node K V → Node K V
  | Node.nil => Node.nil
  | Node.node _ _ _ _ l _ _ => l

/-- The member `right` of the node. -/
def rightOf : Node K V → Node K V
  | Node.nil => Node.nil
  | Node.node _ _ _ _ _ r _ => r

/-- The assignment `x->parent = p`; undefined on `nullptr`. -/
def setParent (p : Option Nat) : Node K V → Option (Node K V)
  | Node.nil => none
  | Node.node a k v _ l r h => some (Node.node a k v p l r h)

/-- The guarded assignment `if (x != nullptr) x->parent = p`. -/
def setParentIfPresent (p : Option Nat) : Node K V → Node K V
  | Node.nil => Node.nil
  | Node.node a k v _ l r h => Node.node a k v p l r h

/-- Source `heightOf`: the cached height, 0 for `nullptr`. -/
def heightOf : Node K V → Int
  | Node.nil => 0
  | Node.node _ _ _ _ _ _ h => h

/-- Source `calculateBalanceFactor`: cached left height minus cached right height, 0 for
`nullptr`. -/
def calculateBalanceFactor : Node K V → Int
  | Node.nil => 0
  | Node.node _ _ _ _ l r _ => heightOf l - heightOf r

/-- Source `rotateRight`. -/
def rotateRight : Node K V → Option (Node K V)
  | Node.node a k v _ (Node.node la lk lv lp ll leftRight _) r _ =>
    let nodeLeft := setParentIfPresent (some a) leftRight
    let node1 := Node.node a k v (some la) nodeLeft r (max (heightOf r) (heightOf nodeLeft) + 1)
    some (Node.node la lk lv lp ll node1 (max (heightOf node1) (heightOf ll) + 1))
  | _ => none

/-- Source `rotateLeft`. -/
def rotateLeft : Node K V → Option (Node K V)
  | Node.node a k v _ l (Node.node ra rk rv rp rightLeft rr _) _ =>
    let nodeRight := setParentIfPresent (some a) rightLeft
    let node1 := Node.node a k v (some ra) l nodeRight (max (heightOf nodeRight) (heightOf l) + 1)
    some (Node.node ra rk rv rp node1 rr (max (heightOf rr) (heightOf node1) + 1))
  | _ => none

/-- Source `balance`. -/
def balance : Node K V → Option (Node K V)
  | Node.nil => some Node.nil
  | Node.node a k v p l r h =>
    let balanceFactor := calculateBalanceFactor (Node.node a k v p l r h)
    if balanceFactor = -2 ∧ calculateBalanceFactor r = -1 then
      rotateLeft (Node.node a k v p l r h)
    else if balanceFactor = 2 ∧ calculateBalanceFactor l = 1 then
      rotateRight (Node.node a k v p l r h)
    else if balanceFactor = -2 ∧ calculateBalanceFactor r = 1 then
      (rotateRight r).bind fun r1 =>
      (setParent (some a) r1).bind fun r2 =>
      rotateLeft (Node.node a k v p l r2 h)
    else if balanceFactor = 2 ∧ calculateBalanceFactor l = -1 then
      (rotateLeft l).bind fun l1 =>
      (setParent (some a) l1).bind fun l2 =>
      rotateRight (Node.node a k v p l2 r h)
    else
      some (Node.node a k v p l r h)

/-- Source `insertImpl`.  `fresh` is the address `new` returns.  The result is the returned
subtree together with the out-parameters `*insertedOrPreventedInsertion` and
`*didInsert`. -/
def insertImpl (lt : K → K → Bool) (key : K) (value : V) (fresh : Nat)
    (shouldReplace : Bool) : Node K V → Option (Node K V × Option Nat × Bool)
  | Node.nil => some (Node.node fresh key value none Node.nil Node.nil 1, some fresh, true)
  | Node.node a k v p l r h =>
    if lt k key then
      (insertImpl lt key value fresh shouldReplace r).bind fun res =>
      (setParent (some a) res.1).bind fun r1 =>
      (balance (Node.node a k v p l r1 (max (heightOf r1) (heightOf l) + 1))).bind fun b =>
      some (b, res.2)
    else if lt key k then
      (insertImpl lt key value fresh shouldReplace l).bind fun res =>
      (setParent (some a) res.1).bind fun l1 =>
      (balance (Node.node a k v p l1 r (max (heightOf r) (heightOf l1) + 1))).bind fun b =>
      some (b, res.2)
    else
      some (Node.node a k (if shouldReplace then value else v) p l r h, some a, false)

/-- Source `detachLeftmostNode`: walks to the leftmost node (`leftmostNode`) and calls
`detachNode` on it, which takes the no-child or the one-child branch there.  Returns the
detached node and what is left in the slot. -/
def detachLeftmostNode : Node K V → Option (Node K V × Node K V)
  | Node.nil => none
  | Node.node a k v p Node.nil Node.nil h =>
    some (Node.node a k v p Node.nil Node.nil h, Node.nil)
  | Node.node a k v p Node.nil r h =>
    (setParent p r).bind fun child => some (Node.node a k v p Node.nil r h, child)
  | Node.node a k v p l r h =>
    (detachLeftmostNode l).bind fun res => some (res.1, Node.node a k v p res.2 r h)

/-- Source `detachNode`: returns the detached node and what is left in the slot `node`. -/
def detachNode : Node K V → Option (Node K V × Node K V)
  | Node.nil => none
  | Node.node a k v p Node.nil Node.nil h =>
    some (Node.node a k v p Node.nil Node.nil h, Node.nil)
  | Node.node a k v p Node.nil r h =>
    (setParent p r).bind fun child => some (Node.node a k v p Node.nil r h, child)
  | Node.node a k v p l Node.nil h =>
    (setParent p l).bind fun child => some (Node.node a k v p l Node.nil h, child)
  | Node.node a k v p l r h =>
    (detachLeftmostNode r).bind fun res =>
      match res.1 with
      | Node.nil => none
      | Node.node ra rk rv _ _ _ rh =>
        some (Node.node a k v p l res.2 h, Node.node ra rk rv p l res.2 rh)

/-- The node living at address `a` among the nodes owned by `heap`. -/
def nodeAt (a : Nat) : Node K V → Option (Node K V)
  | Node.nil => none
  | Node.node b k v p l r h =>
    match nodeAt a l with
    | some n => some n
    | none => if b = a then some (Node.node b k v p l r h) else nodeAt a r

/-- The number of nodes owned by a subtree. -/
def numNodes : Node K V → Nat
  | Node.nil => 0
  | Node.node _ _ _ _ l r _ => numNodes l + 1 + numNodes r

/-- The loop `while (node->left != nullptr) node = node->left`, started at a live node. -/
def leftmostAddr (a : Nat) : Node K V → Nat
  | Node.nil => a
  | Node.node b _ _ _ l _ _ => leftmostAddr b l

/-- The loop `while (parent != nullptr && node == parent->right)` of `increment`, with the
final `node = parent`. -/
def iterator.climbRight (heap : Node K V) : Nat → Nat → Option Nat → Outcome (Option Nat)
  | _, _, none => Outcome.ok none
  | 0, _, some _ => Outcome.diverged
  | fuel + 1, node, some p =>
    match nodeAt p heap with
    | none => Outcome.undefined
    | some pn =>
      if addrOf (rightOf pn) = some node then iterator.climbRight heap fuel p (parentOf pn)
      else Outcome.ok (some p)

/-- Source `iterator::increment`, on the node at address `node`. -/
def iterator.increment (heap : Node K V) (node : Nat) : Outcome (Option Nat) :=
  match nodeAt node heap with
  | none => Outcome.undefined
  | some (Node.node _ _ _ _ _ (Node.node ra _ _ _ rl _ _) _) =>
    Outcome.ok (some (leftmostAddr ra rl))
  | some n => iterator.climbRight heap (numNodes heap) node (parentOf n)

/-- Source `iterator::operator++()` (prefix increment). -/
def iterator.preIncrement (heap : Node K V) (it : iterator) : Outcome iterator :=
  match it.m_node with
  | none => Outcome.thrown "AvlTree::iterator: prefix increment called on end iterator!"
  | some previous =>
    match iterator.increment heap previous with
    | Outcome.ok m => Outcome.ok (iterator.mk (if m = some previous then none else m) it.m_root)
    | Outcome.thrown w => Outcome.thrown w
    | Outcome.undefined => Outcome.undefined
    | Outcome.diverged => Outcome.diverged

/-- Source `iterator::operator*`: the pair stored in the current node. -/
def iterator.deref (heap : Node K V) (it : iterator) : Option (K × V) :=
  match it.m_node with
  | none => none
  | some a => (nodeAt a heap).bind keyValuePair

/-- Source `eraseImpl`.  `heap` is the whole tree as it is when `erase` is entered; the
successor step `++(*next)` runs on it, before anything is detached.  `next` and
`m_nodeCount` are threaded through; `next` holds the outcome of the successor step.  A step
that reads through a dangling parent link has no defined behaviour, and from there on neither
has the call: the result then carries `Outcome.undefined`, and the tree that comes with it is
what the remaining statements compute, not something the program is bound to return.
`erase` calls this with a positive count only, so `--m_nodeCount` does not wrap. -/
def eraseImpl (lt : K → K → Bool) (heap : Node K V) (key : K) :
    Node K V → Outcome iterator → Nat → Option (Node K V × Outcome iterator × Nat)
  | Node.nil, next, m_nodeCount => some (Node.nil, next, m_nodeCount)
  | Node.node a k v p l r h, next, m_nodeCount =>
    if lt k key then
      (eraseImpl lt heap key r next m_nodeCount).bind fun res =>
      let r1 := setParentIfPresent (some a) res.1
      (balance (Node.node a k v p l r1 (max (heightOf r1) (heightOf l) + 1))).bind fun b =>
      some (b, res.2)
    else if lt key k then
      (eraseImpl lt heap key l next m_nodeCount).bind fun res =>
      let l1 := setParentIfPresent (some a) res.1
      (balance (Node.node a k v p l1 r (max (heightOf r) (heightOf l1) + 1))).bind fun b =>
      some (b, res.2)
    else
      let next1 := iterator.preIncrement heap (iterator.mk (some a) (addrOf heap))
      (detachNode (Node.node a k v p l r h)).bind fun res =>
      match res.2 with
      | Node.nil => some (Node.nil, next1, m_nodeCount - 1)
      | Node.node a1 k1 v1 p1 l1 r1 _ =>
        (balance (Node.node a1 k1 v1 p1 l1 r1 (max (heightOf r1) (heightOf l1) + 1))).bind
          fun b => some (b, next1, m_nodeCount - 1)

/-- The loop of source `find`: the address of the node found, `none` when the descent falls
off the tree. -/
def findLoop (lt : K → K → Bool) (key : K) : Node K V → Option Nat
  | Node.nil => none
  | Node.node a k _ _ l r _ =>
    if lt key k then findLoop lt key l
    else if lt k key then findLoop lt key r
    else some a

namespace AvlTree

/-- Source default constructor `AvlTree()`. -/
def empty (top : Nat) : AvlTree K V := AvlTree.mk Node.nil 0 top

/-- Source `size`. -/
def size (t : AvlTree K V) : Nat := t.m_nodeCount

/-- Source `empty()`: `size() == 0`. -/
def isEmpty (t : AvlTree K V) : Bool := t.size == 0

/-- Source `end()`. -/
def «end» (t : AvlTree K V) : iterator := iterator.mk none (addrOf t.m_root)

/-- Source `clear`: every node is released. -/
def clear (t : AvlTree K V) : AvlTree K V := AvlTree.mk Node.nil 0 t.heapTop

/-- The common body of source `insert(key, value)` and `insert_or_assign(key, value)`. -/
def insertWith (lt : K → K → Bool) (shouldReplace : Bool) (t : AvlTree K V) (key : K)
    (value : V) : Option (AvlTree K V × iterator × Bool) :=
  (insertImpl lt key value t.heapTop shouldReplace t.m_root).bind fun res =>
  (setParent none res.1).bind fun root =>
  some (AvlTree.mk root (if res.2.2 then t.m_nodeCount + 1 else t.m_nodeCount)
          (if res.2.2 then t.heapTop + 1 else t.heapTop),
        iterator.mk res.2.1 (addrOf root), res.2.2)

/-- Source `insert(key, value)`. -/
def insert (lt : K → K → Bool) (t : AvlTree K V) (key : K) (value : V) :
    Option (AvlTree K V × iterator × Bool) :=
  insertWith lt false t key value

/-- Source `insert_or_assign(key, value)`. -/
def insert_or_assign (lt : K → K → Bool) (t : AvlTree K V) (key : K) (value : V) :
    Option (AvlTree K V × iterator × Bool) :=
  insertWith lt true t key value

/-- Source `erase(key)`: the tree afterwards and the outcome held by the returned
iterator.  The call returns when that outcome is `Outcome.ok`; with `Outcome.undefined` (the
successor step has read through a dangling parent link) the call has no defined behaviour. -/
def erase (lt : K → K → Bool) (t : AvlTree K V) (key : K) :
    Option (AvlTree K V × Outcome iterator) :=
  if t.isEmpty then some (t, Outcome.ok t.end)
  else
    (eraseImpl lt t.m_root key t.m_root (Outcome.ok t.end) t.m_nodeCount).bind fun res =>
    let root := setParentIfPresent none res.1
    some (AvlTree.mk root res.2.2 t.heapTop,
      match res.2.1 with
      | Outcome.ok next => Outcome.ok (iterator.mk next.m_node (addrOf root))
      | o => o)

/-- Source `find(key)`. -/
def find (lt : K → K → Bool) (t : AvlTree K V) (key : K) : iterator :=
  match findLoop lt key t.m_root with
  | some a => iterator.mk (some a) (addrOf t.m_root)
  | none => t.end

end AvlTree


/-! ## Specification vocabulary -/

/-- Two keys are equivalent when neither is less than the other under the comparator. -/
def Equiv (lt : K → K → Bool) (a b : K) : Prop := lt a b = false ∧ lt b a = false

/-- The in-order sequence of a subtree: for each node its address, key and value. -/
def inorder : Node K V → List (Nat × K × V)
  | Node.nil => []
  | Node.node a k v _ l r _ => inorder l ++ (a, k, v) :: inorder r

/-- The in-order sequence of (key, value) pairs. -/
def toList (n : Node K V) : List (K × V) := (inorder n).map Prod.snd

/-- The in-order key sequence. -/
def keys (n : Node K V) : List K := (inorder n).map fun x => x.2.1

/-- The addresses of the nodes of a subtree, in in-order. -/
def addrs (n : Node K V) : List Nat := (inorder n).map Prod.fst

/-- BST ordering: at every node, all keys in the left subtree are less than the node's key
and all keys in the right subtree are greater. -/
def BST (lt : K → K → Bool) : Node K V → Prop
  | Node.nil => True
  | Node.node _ k _ _ l r _ =>
    (∀ x ∈ keys l, lt x k = true) ∧ (∀ x ∈ keys r, lt k x = true) ∧ BST lt l ∧ BST lt r

/-- Every node's cached height is at least 1. -/
def HPos : Node K V → Prop
  | Node.nil => True
  | Node.node _ _ _ _ l r h => 1 ≤ h ∧ HPos l ∧ HPos r

/-- The true height of a subtree: 0 for an absent child, 1 for a leaf. -/
def trueHeight : Node K V → Nat
  | Node.nil => 0
  | Node.node _ _ _ _ l r _ => max (trueHeight l) (trueHeight r) + 1

/-- AVL balance: at every node the true heights of the two subtrees differ by at most 1. -/
def AVLBalanced : Node K V → Bool
  | Node.nil => true
  | Node.node _ _ _ _ l r _ =>
    decide (trueHeight l ≤ trueHeight r + 1) && decide (trueHeight r ≤ trueHeight l + 1)
      && AVLBalanced l && AVLBalanced r

/-- What the callers of `balance` rely on: the result is defined, is a node, owns the same
nodes in the same in-order sequence, and keeps every cached height at least 1. -/
structure Rebalanced (n m : Node K V) : Prop where
  inorder_eq : inorder m = inorder n
  hpos : HPos m
  ne_nil : m ≠ Node.nil

/-- The in-order sequence `ys` after `insertImpl` has run on a subtree with in-order
sequence `xs`, with the two out-parameters: either a new entry at address `fresh` stands
between the entries with a smaller and those with a greater key, or the entry with an
equivalent key is the node reported and, when `shouldReplace` is set, holds the new value. -/
inductive Inserted (lt : K → K → Bool) (key : K) (value : V) (fresh : Nat)
    (shouldReplace : Bool) (xs ys : List (Nat × K × V)) : Option Nat → Bool → Prop where
  | added (L R : List (Nat × K × V)) (hx : xs = L ++ R)
      (hy : ys = L ++ (fresh, key, value) :: R)
      (hL : ∀ x ∈ L, lt x.2.1 key = true) (hR : ∀ x ∈ R, lt key x.2.1 = true) :
      Inserted lt key value fresh shouldReplace xs ys (some fresh) true
  | found (L R : List (Nat × K × V)) (a : Nat) (k0 : K) (v0 : V)
      (hx : xs = L ++ (a, k0, v0) :: R)
      (hy : ys = L ++ (a, k0, if shouldReplace then value else v0) :: R)
      (he : Equiv lt key k0)
      (hL : ∀ x ∈ L, lt x.2.1 key = true) (hR : ∀ x ∈ R, lt key x.2.1 = true) :
      Inserted lt key value fresh shouldReplace xs ys (some a) false

/-- The in-order sequence `ys` after `eraseImpl` has run on a subtree with in-order
sequence `xs`, with the threaded `next` and `m_nodeCount`: either no entry has a key
equivalent to `key` and nothing changes, or the entry with the equivalent key is gone, the
count is one less and `next` holds the outcome of the successor step taken from it. -/
inductive Erased (lt : K → K → Bool) (key : K) (heap : Node K V)
    (xs ys : List (Nat × K × V)) (next : Outcome iterator) (m_nodeCount : Nat) :
    Outcome iterator → Nat → Prop where
  | absent (hy : ys = xs) (hn : ∀ x ∈ xs, ¬ Equiv lt key x.2.1) :
      Erased lt key heap xs ys next m_nodeCount next m_nodeCount
  | removed (L R : List (Nat × K × V)) (a : Nat) (k0 : K) (v0 : V)
      (hx : xs = L ++ (a, k0, v0) :: R) (hy : ys = L ++ R) (he : Equiv lt key k0) :
      Erased lt key heap xs ys next m_nodeCount
        (iterator.preIncrement heap (iterator.mk (some a) (addrOf heap))) (m_nodeCount - 1)

/-- The operations of the public interface that change a tree. -/
inductive Op (K V : Type) where
  | insert (key : K) (value : V) : Op K V
  | insert_or_assign (key : K) (value : V) : Op K V
  | erase (key : K) : Op K V
  | clear : Op K V

/-- One call of the public interface. -/
def step (lt : K → K → Bool) (t : AvlTree K V) : Op K V → Option (AvlTree K V)
  | Op.insert key value => (AvlTree.insert lt t key value).map Prod.fst
  | Op.insert_or_assign key value => (AvlTree.insert_or_assign lt t key value).map Prod.fst
  | Op.erase key => (AvlTree.erase lt t key).map Prod.fst
  | Op.clear => some t.clear

/-- A sequence of calls, first call first. -/
def run (lt : K → K → Bool) (t : AvlTree K V) : List (Op K V) → Option (AvlTree K V)
  | [] => some t
  | op :: ops => (step lt t op).bind fun t1 => run lt t1 ops

/-- A tree reachable from the empty tree by a sequence of insert, insert_or_assign, erase
and clear. -/
def Reachable (lt : K → K → Bool) (t : AvlTree K V) : Prop :=
  ∃ top ops, run lt (AvlTree.empty top) ops = some t

/-- The representation invariant the public operations maintain: BST ordering, every
cached height at least 1, distinct node addresses all below the allocator mark, and an
element count equal to the number of nodes. -/
structure Inv (lt : K → K → Bool) (t : AvlTree K V) : Prop where
  bst : BST lt t.m_root
  hpos : HPos t.m_root
  nodup : (addrs t.m_root).Nodup
  below : ∀ a ∈ addrs t.m_root, a < t.heapTop
  count : t.m_nodeCount = numNodes t.m_root

/-- The value bound in an in-order sequence to the first entry whose key is equivalent to
`key`. -/
def assoc (lt : K → K → Bool) (key : K) (xs : List (Nat × K × V)) : Option V :=
  (xs.find? fun x => !lt key x.2.1 && !lt x.2.1 key).map fun x => x.2.2

/-- The value `find(key)` leads to: `none` when `find` returns `end`. -/
def AvlTree.lookup (lt : K → K → Bool) (t : AvlTree K V) (key : K) : Option V :=
  ((t.find lt key).deref t.m_root).map Prod.snd

/-- The value last assigned to `key` by a history of calls (`none`: never assigned, or
erased since): `insert` assigns only when the key has no value, `insert_or_assign` always
assigns, `erase` and `clear` remove. -/
def lastAssigned (lt : K → K → Bool) (key : K) : Option V → List (Op K V) → Option V
  | cur, [] => cur
  | cur, Op.insert k v :: ops =>
    lastAssigned lt key
      (if lt key k = false ∧ lt k key = false then (if cur.isSome then cur else some v) else cur)
      ops
  | cur, Op.insert_or_assign k v :: ops =>
    lastAssigned lt key (if lt key k = false ∧ lt k key = false then some v else cur) ops
  | cur, Op.erase k :: ops =>
    lastAssigned lt key (if lt key k = false ∧ lt k key = false then none else cur) ops
  | _, Op.clear :: ops => lastAssigned lt key none ops

/-- The requirement the standard library puts on `Compare`: a strict weak ordering. -/
structure StrictWeakOrder (lt : K → K → Bool) : Prop where
  irrefl : ∀ a, lt a a = false
  trans : ∀ a b c, lt a b = true → lt b c = true → lt a c = true
  incomp_trans : ∀ a b c, Equiv lt a b → Equiv lt b c → Equiv lt a c

/-- The default comparator `std::less` on natural-number keys. -/
def ltNat (a b : Nat) : Bool := decide (a < b)

/-! ## Iterators: decrement, the reverse adaptor, traversal -/

/-- Sequencing of outcomes: the first one that is not a value ends the computation. -/
def Outcome.bind {α β : Type} (o : Outcome α) (f : α → Outcome β) : Outcome β :=
  match o with
  | Outcome.ok a => f a
  | Outcome.thrown w => Outcome.thrown w
  | Outcome.undefined => Outcome.undefined
  | Outcome.diverged => Outcome.diverged

/-- The loop `while (node->right != nullptr) node = node->right`, started at a live node. -/
def rightmostAddr (a : Nat) : Node K V → Nat
  | Node.nil => a
  | Node.node b _ _ _ _ r _ => rightmostAddr b r

/-- The loop `while (parent != nullptr && node == parent->left)` of `decrement`, with the
final `node = parent`. -/
def iterator.climbLeft (heap : Node K V) : Nat → Nat → Option Nat → Outcome (Option Nat)
  | _, _, none => Outcome.ok none
  | 0, _, some _ => Outcome.diverged
  | fuel + 1, node, some p =>
    match nodeAt p heap with
    | none => Outcome.undefined
    | some pn =>
      if addrOf (leftOf pn) = some node then iterator.climbLeft heap fuel p (parentOf pn)
      else Outcome.ok (some p)

/-- Source `iterator::decrement`, on the node at address `node`. -/
def iterator.decrement (heap : Node K V) (node : Nat) : Outcome (Option Nat) :=
  match nodeAt node heap with
  | none => Outcome.undefined
  | some (Node.node _ _ _ _ (Node.node la _ _ _ _ lr _) _ _) =>
    Outcome.ok (some (rightmostAddr la lr))
  | some n => iterator.climbLeft heap (numNodes heap) node (parentOf n)

/-- Source `iterator::operator--()` (prefix decrement): from the end position it walks from
the stored root to the rightmost node. -/
def iterator.preDecrement (heap : Node K V) (it : iterator) : Outcome iterator :=
  match it.m_node with
  | none =>
    match it.m_root with
    | none => Outcome.undefined
    | some root =>
      match nodeAt root heap with
      | none => Outcome.undefined
      | some n => Outcome.ok (iterator.mk (some (rightmostAddr root (rightOf n))) it.m_root)
  | some previous =>
    match iterator.decrement heap previous with
    | Outcome.ok m => Outcome.ok (iterator.mk (if m = some previous then none else m) it.m_root)
    | Outcome.thrown w => Outcome.thrown w
    | Outcome.undefined => Outcome.undefined
    | Outcome.diverged => Outcome.diverged

/-- Source `iterator::operator++(int)` (postfix increment): the value returned (a copy of the
iterator as it was) and the iterator afterwards. -/
def iterator.postIncrement (heap : Node K V) (it : iterator) : Outcome (iterator × iterator) :=
  (iterator.preIncrement heap it).bind fun it1 => Outcome.ok (it, it1)

/-- Source `iterator::operator--(int)` (postfix decrement): the value returned and the
iterator afterwards. -/
def iterator.postDecrement (heap : Node K V) (it : iterator) : Outcome (iterator × iterator) :=
  (iterator.preDecrement heap it).bind fun it1 => Outcome.ok (it, it1)

/-- Source `operator==` on iterators: equality of the current node alone. -/
def iterator.eq (a b : iterator) : Bool := a.m_node == b.m_node

/-- The iterator object after a call of `++` or `--` on it with outcome `o`: at the new
position when the call returned, as it was when the call threw (the `throw` comes before
every assignment). -/
def iterator.after (it : iterator) : Outcome iterator → Option iterator
  | Outcome.ok it1 => some it1
  | Outcome.thrown _ => some it
  | Outcome.undefined => none
  | Outcome.diverged => none

/-- Source `begin()`: `end()` when `empty()`, else the leftmost node (`leftmostNode`, which
dereferences the root). -/
def AvlTree.begin (t : AvlTree K V) : Option iterator :=
  if t.isEmpty then some t.end
  else
    match t.m_root with
    | Node.nil => none
    | Node.node a _ _ _ l _ _ => some (iterator.mk (some (leftmostAddr a l)) (some a))

/-- The loop `for (it = first; it != last; ++it)` visiting `*it`: the elements visited. -/
def iterator.collect (heap : Node K V) : Nat → iterator → iterator → Outcome (List (K × V))
  | 0, _, _ => Outcome.diverged
  | fuel + 1, it, last =>
    if it.eq last then Outcome.ok []
    else
      match it.deref heap with
      | none => Outcome.undefined
      | some kv =>
        (iterator.preIncrement heap it).bind fun it1 =>
        (iterator.collect heap fuel it1 last).bind fun rest => Outcome.ok (kv :: rest)

/-- Modelled from the spec: `std::reverse_iterator<iterator>`, the standard adaptor named by
`using reverse_iterator`; it stores a base position `current`. -/
structure reverse_iterator where
  current : iterator
  deriving DecidableEq

/-- Modelled from the spec: dereferencing the adaptor yields the element one step before the
stored base position (`tmp = current; return *--tmp`). -/
def reverse_iterator.deref (heap : Node K V) (r : reverse_iterator) : Outcome (K × V) :=
  (iterator.preDecrement heap r.current).bind fun tmp =>
    match tmp.deref heap with
    | some kv => Outcome.ok kv
    | none => Outcome.undefined

/-- Modelled from the spec: advancing the adaptor decrements the base. -/
def reverse_iterator.preIncrement (heap : Node K V) (r : reverse_iterator) :
    Outcome reverse_iterator :=
  (iterator.preDecrement heap r.current).bind fun c => Outcome.ok (reverse_iterator.mk c)

/-- Modelled from the spec: retreating the adaptor increments the base. -/
def reverse_iterator.preDecrement (heap : Node K V) (r : reverse_iterator) :
    Outcome reverse_iterator :=
  (iterator.preIncrement heap r.current).bind fun c => Outcome.ok (reverse_iterator.mk c)

/-- Modelled from the spec: postfix advance of the adaptor: the value returned and the
adaptor afterwards. -/
def reverse_iterator.postIncrement (heap : Node K V) (r : reverse_iterator) :
    Outcome (reverse_iterator × reverse_iterator) :=
  (reverse_iterator.preIncrement heap r).bind fun r1 => Outcome.ok (r, r1)

/-- Modelled from the spec: postfix retreat of the adaptor: the value returned and the
adaptor afterwards. -/
def reverse_iterator.postDecrement (heap : Node K V) (r : reverse_iterator) :
    Outcome (reverse_iterator × reverse_iterator) :=
  (reverse_iterator.preDecrement heap r).bind fun r1 => Outcome.ok (r, r1)

/-- Modelled from the spec: two adaptors are equal when their base positions are. -/
def reverse_iterator.eq (a b : reverse_iterator) : Bool := a.current.eq b.current

/-- Source `rbegin()`: the adaptor over `end()`. -/
def AvlTree.rbegin (t : AvlTree K V) : reverse_iterator := reverse_iterator.mk t.end

/-- Source `rend()`: the adaptor over `begin()`. -/
def AvlTree.rend (t : AvlTree K V) : Option reverse_iterator :=
  t.begin.map reverse_iterator.mk

/-- The loop `for (it = first; it != last; ++it)` over reverse iterators visiting `*it`: the
elements visited. -/
def reverse_iterator.collect (heap : Node K V) :
    Nat → reverse_iterator → reverse_iterator → Outcome (List (K × V))
  | 0, _, _ => Outcome.diverged
  | fuel + 1, it, last =>
    if it.eq last then Outcome.ok []
    else
      (reverse_iterator.deref heap it).bind fun kv =>
      (reverse_iterator.preIncrement heap it).bind fun it1 =>
      (reverse_iterator.collect heap fuel it1 last).bind fun rest => Outcome.ok (kv :: rest)

/-- Parent coherence of a subtree held by the node at `p` (`none`: the subtree is the whole
tree): the parent link of its root is `p`, and every child's parent link names the node that
holds it. -/
def ParentOK : Option Nat → Node K V → Prop
  | _, Node.nil => True
  | p, Node.node a _ _ q l r _ => q = p ∧ ParentOK (some a) l ∧ ParentOK (some a) r

/-- A well-formed tree: BST ordering, nodes at distinct addresses, coherent parent links, and
an element count equal to the number of nodes. -/
structure WellFormed (lt : K → K → Bool) (t : AvlTree K V) : Prop where
  bst : BST lt t.m_root
  nodup : (addrs t.m_root).Nodup
  parents : ParentOK none t.m_root
  count : t.m_nodeCount = numNodes t.m_root

/-- The address of the last entry of a sequence, `lo` for the empty sequence. -/
def lastAddrOr (lo : Option Nat) (xs : List (Nat × K × V)) : Option Nat :=
  match xs.getLast? with
  | some x => some x.1
  | none => lo

/-- The in-order predecessor of the node at address `y` inside a subtree, read off the
structure: `none` when the subtree has no such node; `lo` is the position just before the
subtree. -/
def predIn (lo : Option Nat) : Node K V → Nat → Option (Option Nat)
  | Node.nil, _ => none
  | Node.node a _ _ _ l r _, y =>
    match predIn lo l y with
    | some res => some res
    | none => if a = y then some (lastAddrOr lo (inorder l)) else predIn (some a) r y

/-! ## Textual rendering -/

/-- The largest value of the type `int` of `depth` (32 bits). -/
def INT_MAX : Int := 2147483647

/-- The marker loop of `printTree`: `depth` characters, the first `'|'`, the others `'='`. -/
def printMarker (depth : Int) : List Char :=
  (List.range depth.toNat).map fun i => if i = 0 then '|' else '='

/-- Source `printTree`: the characters written to the stream, `showK` and `showV` being the
stream insertion of a key and of a value.  Nothing is defined when `depth + 6` leaves the
range of `int`. -/
def printTree (showK : K → String) (showV : V → String) :
    Node K V → Int → Option (List Char)
  | Node.nil, _ => some []
  | Node.node _ k v _ l r _, depth =>
    if depth + 6 ≤ INT_MAX then
      (printTree showK showV l (depth + 6)).bind fun left =>
      (printTree showK showV r (depth + 6)).bind fun right =>
      some (left ++ (printMarker depth ++ (showK k).data ++ " => ".data ++ (showV v).data
        ++ "\n|\n|\n".data) ++ right)
    else none

/-- The loop `for (int i{0}; i < n; ++i) string.pop_back()`; `pop_back` is undefined on an
empty string. -/
def popBackTimes : Nat → List Char → Option (List Char)
  | 0, s => some s
  | _ + 1, [] => none
  | n + 1, c :: cs => popBackTimes n (List.dropLast (c :: cs))

/-- Source `operator<<(std::ostream&, const AvlTree&)`: the text written for a tree. -/
def AvlTree.render (showK : K → String) (showV : V → String) (t : AvlTree K V) :
    Option String :=
  if t.isEmpty then some "Empty AvlTree"
  else ((printTree showK showV t.m_root 0).bind (popBackTimes 5)).map String.mk

/-- The nodes of a subtree in in-order, each with its depth below the root of the tree (the
root of the subtree is at depth `d`), its key and its value. -/
def inorderDepth : Node K V → Nat → List (Nat × K × V)
  | Node.nil, _ => []
  | Node.node _ k v _ l r _, d => inorderDepth l (d + 1) ++ (d, k, v) :: inorderDepth r (d + 1)

/-- The reference marker: empty at depth 0, else one `'|'` followed by `6 * d - 1`
characters `'='`. -/
def specPrefix (d : Nat) : List Char :=
  if d = 0 then [] else '|' :: List.replicate (6 * d - 1) '='

/-- The reference text of one entry: marker, key, `" => "`, value. -/
def specEntry (showK : K → String) (showV : V → String) (e : Nat × K × V) : List Char :=
  specPrefix e.1 ++ (showK e.2.1).data ++ " => ".data ++ (showV e.2.2).data

/-- Entries with `sep` between consecutive ones and nothing after the last. -/
def joinWith (sep : List Char) : List (List Char) → List Char
  | [] => []
  | [x] => x
  | x :: y :: rest => x ++ sep ++ joinWith sep (y :: rest)

/-- Entries each followed by `sep`: what `printTree` writes, the separator after the last
entry included. -/
def joinTrailing (sep : List Char) : List (List Char) → List Char
  | [] => []
  | x :: rest => x ++ sep ++ joinTrailing sep rest

/-- The reference rendering: `"Empty AvlTree"` for the empty tree, else the entries in
in-order separated by newline, `'|'`, newline, `'|'`, newline. -/
def renderSpec (showK : K → String) (showV : V → String) : Node K V → String
  | Node.nil => "Empty AvlTree"
  | Node.node a k v p l r h =>
    String.mk (joinWith "\n|\n|\n".data
      ((inorderDepth (Node.node a k v p l r h) 0).map (specEntry showK showV)))

/-! ## Bulk construction, copy, and the vocabulary of the scenarios -/

/-- Source range `insert(first, last)` and `insert(initializer_list)`: `insert(*first)` on
every pair of the sequence, in order (`insert(pair)` is `insert(pair.first, pair.second)`). -/
def AvlTree.insertRange (lt : K → K → Bool) (t : AvlTree K V) :
    List (K × V) → Option (AvlTree K V)
  | [] => some t
  | kv :: rest => (t.insert lt kv.1 kv.2).bind fun res => AvlTree.insertRange lt res.1 rest

/-- Source constructors `AvlTree(first, last)` and `AvlTree(initializer_list)`: the empty
tree, then `insert(*first)` on every pair. -/
def AvlTree.ofRange (lt : K → K → Bool) (top : Nat) (xs : List (K × V)) :
    Option (AvlTree K V) :=
  AvlTree.insertRange lt (AvlTree.empty top) xs

/-- Source `operator=(initializer_list)`: `clear()`, then `insert` on every pair. -/
def AvlTree.assignList (lt : K → K → Bool) (t : AvlTree K V) (xs : List (K × V)) :
    Option (AvlTree K V) :=
  AvlTree.insertRange lt t.clear xs

/-- The loop of source `copy(other)`: `for (const value_type& kv : other) insert(kv)`, the
traversal running over the nodes of `other` and the inserts going into `this`, a different
tree. -/
def AvlTree.copyLoop (lt : K → K → Bool) (other : AvlTree K V) :
    Nat → iterator → AvlTree K V → Outcome (AvlTree K V)
  | 0, _, _ => Outcome.diverged
  | fuel + 1, it, this =>
    if it.eq other.end then Outcome.ok this
    else
      match it.deref other.m_root with
      | none => Outcome.undefined
      | some kv =>
        match this.insert lt kv.1 kv.2 with
        | none => Outcome.undefined
        | some res =>
          (iterator.preIncrement other.m_root it).bind fun it1 =>
            AvlTree.copyLoop lt other fuel it1 res.1

/-- Source `copy(other)`, for `this` and `other` different trees. -/
def AvlTree.copy (lt : K → K → Bool) (this other : AvlTree K V) : Outcome (AvlTree K V) :=
  match other.begin with
  | none => Outcome.undefined
  | some b => AvlTree.copyLoop lt other (numNodes other.m_root + 1) b this

/-- Source copy constructor `AvlTree(const AvlTree& other)`: the empty tree, then
`copy(other)`.  The new nodes get addresses above those of `other`. -/
def AvlTree.copyConstruct (lt : K → K → Bool) (other : AvlTree K V) : Outcome (AvlTree K V) :=
  AvlTree.copy lt (AvlTree.empty other.heapTop) other

/-- Source copy assignment `operator=(const AvlTree& other)` on another tree than `other`
(on the same tree it returns at once): `clear()`, then `copy(other)`. -/
def AvlTree.copyAssign (lt : K → K → Bool) (this other : AvlTree K V) :
    Outcome (AvlTree K V) :=
  AvlTree.copy lt (AvlTree.mk Node.nil 0 (max this.heapTop other.heapTop)) other

/-- The number of distinct keys of a sequence of pairs: the pairs whose key is equivalent to
none of the keys `seen` before them. -/
def countDistinct (lt : K → K → Bool) : List K → List (K × V) → Nat
  | _, [] => 0
  | seen, kv :: rest =>
    if seen.any (fun s => !lt kv.1 s && !lt s kv.1) then countDistinct lt seen rest
    else countDistinct lt (kv.1 :: seen) rest + 1

/-- Height coherence: every node's cached height is 1 more than the larger cached height of
its children (an absent child counting 0). -/
def HeightCoherent : Node K V → Prop
  | Node.nil => True
  | Node.node _ _ _ _ l r h =>
    h = 1 + max (heightOf l) (heightOf r) ∧ HeightCoherent l ∧ HeightCoherent r

/-- The shape of a tree: its keys at their positions. -/
inductive Shape (K : Type) where
  | leaf : Shape K
  | node (left : Shape K) (key : K) (right : Shape K) : Shape K
  deriving DecidableEq

/-- The shape of a subtree. -/
def shapeOf : Node K V → Shape K
  | Node.nil => Shape.leaf
  | Node.node _ k _ _ l r _ => Shape.node (shapeOf l) k (shapeOf r)

/-- The default comparator `std::less` on `int` keys. -/
def ltInt (a b : Int) : Bool := decide (a < b)

/-- The default comparator `std::less` on `char` keys. -/
def ltChar (a b : Char) : Bool := decide (a < b)

/-- Height coherence and AVL balance stated on the cached heights: at every node the cached
height is 1 more than the larger cached height of the children, and the cached heights of the
children differ by at most 1. -/
def AVLCached : Node K V → Prop
  | Node.nil => True
  | Node.node _ _ _ _ l r h =>
    h = 1 + max (heightOf l) (heightOf r) ∧ heightOf l - heightOf r ≤ 1 ∧
      heightOf r - heightOf l ≤ 1 ∧ AVLCached l ∧ AVLCached r

/-- The layout of a tree: at every position the address of the node standing there, its key
and its cached height. -/
def layout : Node K V → Shape (Nat × K × Int)
  | Node.nil => Shape.leaf
  | Node.node a k _ _ l r h => Shape.node (layout l) (a, k, h) (layout r)

/-- Every node's cached height is at least 1 and at least the true height of the subtree
rooted at the node. -/
def HeightBound : Node K V → Prop
  | Node.nil => True
  | Node.node _ _ _ _ l r h =>
    1 ≤ h ∧ ((max (trueHeight l) (trueHeight r) + 1 : Nat) : Int) ≤ h ∧
      HeightBound l ∧ HeightBound r

/-- The address of the first entry of a sequence, `hi` for the empty sequence. -/
def firstAddrOr (hi : Option Nat) (xs : List (Nat × K × V)) : Option Nat :=
  match xs.head? with
  | some x => some x.1
  | none => hi

/-- The in-order successor of the node at address `y` inside a subtree, read off the
structure: `none` when the subtree has no such node; `hi` is the position just after the
subtree. -/
def succIn (hi : Option Nat) : Node K V → Nat → Option (Option Nat)
  | Node.nil, _ => none
  | Node.node a _ _ _ l r _, y =>
    match succIn (some a) l y with
    | some res => some res
    | none => if a = y then some (firstAddrOr hi (inorder r)) else succIn hi r y

/-- The calls that insert: `insert` and `insert_or_assign`. -/
def Op.isInsertion : Op K V → Bool
  | Op.insert _ _ => true
  | Op.insert_or_assign _ _ => true
  | Op.erase _ => false
  | Op.clear => false

/-- The tree built from the empty tree by `insert(2, 20)`, `insert(1, 10)`,
`insert(3, 30)`. -/
def sample3 : AvlTree Nat Nat :=
  AvlTree.mk
    (Node.node 0 2 20 none (Node.node 1 1 10 (some 0) Node.nil Node.nil 1)
      (Node.node 2 3 30 (some 0) Node.nil Node.nil 1) 2)
    3 3

end Defs

end Avl
namespace Avl
section Lemmas
variable {K V : Type}

/-! ## The comparator -/

theorem StrictWeakOrder.asymm {lt : K → K → Bool} (hlt : StrictWeakOrder lt) {a b : K}
    (h : lt a b = true) : lt b a = false := by
  cases hba : lt b a with
  | false => rfl
  | true =>
    have := hlt.trans a b a h hba
    rw [hlt.irrefl] at this
    exact absurd this (by simp)

theorem Equiv.symm {lt : K → K → Bool} {a b : K} (h : Equiv lt a b) : Equiv lt b a :=
  ⟨h.2, h.1⟩

theorem StrictWeakOrder.equiv_refl {lt : K → K → Bool} (hlt : StrictWeakOrder lt) (a : K) :
    Equiv lt a a := ⟨hlt.irrefl a, hlt.irrefl a⟩

theorem StrictWeakOrder.lt_of_lt_of_equiv {lt : K → K → Bool} (hlt : StrictWeakOrder lt)
    {a b c : K} (h : lt a b = true) (e : Equiv lt b c) : lt a c = true := by
  cases hac : lt a c with
  | true => rfl
  | false =>
    cases hca : lt c a with
    | true =>
      have := hlt.trans c a b hca h
      rw [e.2] at this
      exact absurd this (by simp)
    | false =>
      have := hlt.incomp_trans a c b ⟨hac, hca⟩ e.symm
      rw [this.1] at h
      exact absurd h (by simp)

theorem StrictWeakOrder.lt_of_equiv_of_lt {lt : K → K → Bool} (hlt : StrictWeakOrder lt)
    {a b c : K} (e : Equiv lt a b) (h : lt b c = true) : lt a c = true := by
  cases hac : lt a c with
  | true => rfl
  | false =>
    cases hca : lt c a with
    | true =>
      have := hlt.trans b c a h hca
      rw [e.2] at this
      exact absurd this (by simp)
    | false =>
      have := hlt.incomp_trans b a c e.symm ⟨hac, hca⟩
      rw [this.1] at h
      exact absurd h (by simp)

theorem not_equiv_of_lt {lt : K → K → Bool} {a b : K} (h : lt a b = true) :
    ¬ Equiv lt a b := fun e => by rw [e.1] at h; exact absurd h (by simp)

theorem not_equiv_of_gt {lt : K → K → Bool} {a b : K} (h : lt b a = true) :
    ¬ Equiv lt a b := fun e => by rw [e.2] at h; exact absurd h (by simp)

theorem strictWeakOrder_ltNat : StrictWeakOrder ltNat where
  irrefl := by intro a; simp [ltNat]
  trans := by intro a b c; simp only [ltNat, decide_eq_true_eq]; omega
  incomp_trans := by
    intro a b c
    simp only [Equiv, ltNat, decide_eq_false_iff_not]
    omega

/-! ## Structure of a subtree -/

@[simp] theorem inorder_nil : inorder (Node.nil : Node K V) = [] := rfl

@[simp] theorem inorder_node (a : Nat) (k : K) (v : V) (p : Option Nat) (l r : Node K V)
    (h : Int) : inorder (Node.node a k v p l r h) = inorder l ++ (a, k, v) :: inorder r := rfl

@[simp] theorem heightOf_nil : heightOf (Node.nil : Node K V) = 0 := rfl

@[simp] theorem heightOf_node (a : Nat) (k : K) (v : V) (p : Option Nat) (l r : Node K V)
    (h : Int) : heightOf (Node.node a k v p l r h) = h := rfl

@[simp] theorem inorder_setParentIfPresent (p : Option Nat) (n : Node K V) :
    inorder (setParentIfPresent p n) = inorder n := by
  cases n <;> rfl

@[simp] theorem heightOf_setParentIfPresent (p : Option Nat) (n : Node K V) :
    heightOf (setParentIfPresent p n) = heightOf n := by
  cases n <;> rfl

theorem HPos_setParentIfPresent (p : Option Nat) {n : Node K V} (h : HPos n) :
    HPos (setParentIfPresent p n) := by
  cases n
  · exact h
  · exact h

theorem heightOf_nonneg {n : Node K V} (h : HPos n) : 0 ≤ heightOf n := by
  cases n with
  | nil => simp
  | node a k v p l r ht => simp only [heightOf_node]; have := h.1; omega

theorem setParent_eq_some {p : Option Nat} {n m : Node K V} (h : setParent p n = some m) :
    m = setParentIfPresent p n ∧ n ≠ Node.nil := by
  cases n with
  | nil => simp [setParent] at h
  | node a k v q l r ht =>
    simp only [setParent, Option.some.injEq] at h
    exact ⟨h.symm, by simp⟩

theorem setParent_of_ne_nil (p : Option Nat) {n : Node K V} (h : n ≠ Node.nil) :
    setParent p n = some (setParentIfPresent p n) := by
  cases n with
  | nil => exact absurd rfl h
  | node a k v q l r ht => rfl

theorem setParentIfPresent_ne_nil (p : Option Nat) {n : Node K V} (h : n ≠ Node.nil) :
    setParentIfPresent p n ≠ Node.nil := by
  cases n with
  | nil => exact absurd rfl h
  | node a k v q l r ht => simp [setParentIfPresent]

theorem ne_nil_of_heightOf_pos {n : Node K V} (h : 0 < heightOf n) : n ≠ Node.nil := by
  cases n with
  | nil => simp at h
  | node a k v q l r ht => simp

/-! ## Rotations and `balance` -/

theorem rotateRight_spec (a : Nat) (k : K) (v : V) (p : Option Nat) (l r : Node K V) (h : Int)
    (hl : l ≠ Node.nil) (hp : HPos (Node.node a k v p l r h)) :
    ∃ m, rotateRight (Node.node a k v p l r h) = some m ∧
      Rebalanced (Node.node a k v p l r h) m := by
  cases l with
  | nil => exact absurd rfl hl
  | node la lk lv lp ll lr lh =>
    refine ⟨_, rfl, ?_, ?_, by simp⟩
    · simp
    · obtain ⟨_, ⟨_, hll, hlr⟩, hr⟩ := hp
      have h1 := heightOf_nonneg hll
      have h2 := heightOf_nonneg hlr
      have h3 := heightOf_nonneg hr
      refine ⟨?_, hll, ?_, HPos_setParentIfPresent _ hlr, hr⟩
      · simp only [heightOf_node, heightOf_setParentIfPresent]; omega
      · simp only [heightOf_setParentIfPresent]; omega

theorem rotateLeft_spec (a : Nat) (k : K) (v : V) (p : Option Nat) (l r : Node K V) (h : Int)
    (hr : r ≠ Node.nil) (hp : HPos (Node.node a k v p l r h)) :
    ∃ m, rotateLeft (Node.node a k v p l r h) = some m ∧
      Rebalanced (Node.node a k v p l r h) m := by
  cases r with
  | nil => exact absurd rfl hr
  | node ra rk rv rp rl rr rh =>
    refine ⟨_, rfl, ?_, ?_, by simp⟩
    · simp
    · obtain ⟨_, hl, _, hrl, hrr⟩ := hp
      have h1 := heightOf_nonneg hl
      have h2 := heightOf_nonneg hrl
      have h3 := heightOf_nonneg hrr
      refine ⟨?_, ⟨?_, hl, HPos_setParentIfPresent _ hrl⟩, hrr⟩
      · simp only [heightOf_node, heightOf_setParentIfPresent]; omega
      · simp only [heightOf_setParentIfPresent]; omega

theorem Rebalanced.setParent {n m : Node K V} (p : Option Nat) (h : Rebalanced n m) :
    Rebalanced n (setParentIfPresent p m) :=
  ⟨by rw [inorder_setParentIfPresent, h.inorder_eq], HPos_setParentIfPresent p h.hpos,
    setParentIfPresent_ne_nil p h.ne_nil⟩

theorem balance_spec (a : Nat) (k : K) (v : V) (p : Option Nat) (l r : Node K V) (h : Int)
    (hp : HPos (Node.node a k v p l r h)) :
    ∃ m, balance (Node.node a k v p l r h) = some m ∧
      Rebalanced (Node.node a k v p l r h) m := by
  have hl0 := heightOf_nonneg hp.2.1
  have hr0 := heightOf_nonneg hp.2.2
  unfold balance
  simp only [calculateBalanceFactor]
  split_ifs with c1 c2 c3 c4
  · exact rotateLeft_spec a k v p l r h (ne_nil_of_heightOf_pos (by omega)) hp
  · exact rotateRight_spec a k v p l r h (ne_nil_of_heightOf_pos (by omega)) hp
  · -- right-left
    cases r with
    | nil => simp [calculateBalanceFactor] at c3
    | node ra rk rv rp rl rr rh =>
      have hrr0 := heightOf_nonneg hp.2.2.2.2
      have c3b := c3.2
      simp only [calculateBalanceFactor] at c3b
      obtain ⟨m1, e1, s1⟩ := rotateRight_spec ra rk rv rp rl rr rh
        (ne_nil_of_heightOf_pos (by omega)) hp.2.2
      rw [e1]
      simp only [Option.some_bind, setParent_of_ne_nil (some a) s1.ne_nil]
      have s2 := s1.setParent (some a)
      obtain ⟨m3, e3, s3⟩ := rotateLeft_spec a k v p l (setParentIfPresent (some a) m1) h
        s2.ne_nil ⟨hp.1, hp.2.1, s2.hpos⟩
      refine ⟨m3, e3, ?_, s3.hpos, s3.ne_nil⟩
      rw [s3.inorder_eq]
      simp only [inorder_node, s2.inorder_eq]
  · cases l with
    | nil => simp [calculateBalanceFactor] at c4
    | node la lk lv lp ll lr lh =>
      have hll0 := heightOf_nonneg hp.2.1.2.1
      have c4b := c4.2
      simp only [calculateBalanceFactor] at c4b
      obtain ⟨m1, e1, s1⟩ := rotateLeft_spec la lk lv lp ll lr lh
        (ne_nil_of_heightOf_pos (by omega)) hp.2.1
      rw [e1]
      simp only [Option.some_bind, setParent_of_ne_nil (some a) s1.ne_nil]
      have s2 := s1.setParent (some a)
      obtain ⟨m3, e3, s3⟩ := rotateRight_spec a k v p (setParentIfPresent (some a) m1) r h
        s2.ne_nil ⟨hp.1, s2.hpos, hp.2.2⟩
      refine ⟨m3, e3, ?_, s3.hpos, s3.ne_nil⟩
      rw [s3.inorder_eq]
      simp only [inorder_node, s2.inorder_eq]
  · exact ⟨_, rfl, rfl, hp, by simp⟩

end Lemmas
end Avl
namespace Avl
section Lemmas
variable {K V : Type}

/-! ## BST ordering and the in-order sequence -/

theorem keys_node (a : Nat) (k : K) (v : V) (p : Option Nat) (l r : Node K V) (h : Int) :
    keys (Node.node a k v p l r h) = keys l ++ k :: keys r := by
  simp [keys]

theorem mem_keys_of_mem_inorder {n : Node K V} {x : Nat × K × V} (h : x ∈ inorder n) :
    x.2.1 ∈ keys n := List.mem_map_of_mem _ h

theorem BST_iff_sorted {lt : K → K → Bool} (hlt : StrictWeakOrder lt) (n : Node K V) :
    BST lt n ↔ (keys n).Pairwise (fun a b => lt a b = true) := by
  induction n with
  | nil => simp [BST, keys]
  | node a k v p l r h ihl ihr =>
    rw [keys_node, List.pairwise_append, List.pairwise_cons]
    simp only [BST, ihl, ihr, List.mem_cons]
    constructor
    · rintro ⟨h1, h2, h3, h4⟩
      refine ⟨h3, ⟨h2, h4⟩, ?_⟩
      intro x hx y hy
      rcases hy with rfl | hy
      · exact h1 x hx
      · exact hlt.trans _ _ _ (h1 x hx) (h2 y hy)
    · rintro ⟨h3, ⟨h2, h4⟩, h5⟩
      exact ⟨fun x hx => h5 x hx k (Or.inl rfl), h2, h3, h4⟩

theorem sorted_inorder_iff {lt : K → K → Bool} (n : Node K V) :
    (inorder n).Pairwise (fun x y => lt x.2.1 y.2.1 = true) ↔
      (keys n).Pairwise (fun a b => lt a b = true) := by
  simp [keys, List.pairwise_map]

theorem BST_of_inorder_eq {lt : K → K → Bool} (hlt : StrictWeakOrder lt) {n m : Node K V}
    (h : inorder m = inorder n) (hb : BST lt n) : BST lt m := by
  rw [BST_iff_sorted hlt] at hb ⊢
  simpa [keys, h] using hb

/-! ## `insertImpl` -/

theorem insertImpl_spec {lt : K → K → Bool} (hlt : StrictWeakOrder lt) (key : K) (value : V)
    (fresh : Nat) (rep : Bool) (n : Node K V) (hb : BST lt n) (hp : HPos n) :
    ∃ m ins did, insertImpl lt key value fresh rep n = some (m, ins, did) ∧
      Inserted lt key value fresh rep (inorder n) (inorder m) ins did ∧
      HPos m ∧ m ≠ Node.nil := by
  induction n with
  | nil =>
    refine ⟨_, _, _, rfl, Inserted.added [] [] rfl rfl (by simp) (by simp), ?_, by simp⟩
    exact ⟨le_refl _, trivial, trivial⟩
  | node a k v p l r h ihl ihr =>
    obtain ⟨hl, hr, bl, br⟩ := hb
    obtain ⟨h1, pl, pr⟩ := hp
    have hl0 := heightOf_nonneg pl
    have hr0 := heightOf_nonneg pr
    unfold insertImpl
    by_cases c1 : lt k key = true
    · obtain ⟨r1, ins, did, e, hi, pr1, nr1⟩ := ihr br pr
      have hr1 := heightOf_nonneg pr1
      obtain ⟨m, em, sm⟩ := balance_spec a k v p l (setParentIfPresent (some a) r1)
        (max (heightOf (setParentIfPresent (some a) r1)) (heightOf l) + 1)
        ⟨by simp only [heightOf_setParentIfPresent]; omega, pl,
          HPos_setParentIfPresent _ pr1⟩
      refine ⟨m, ins, did, ?_, ?_, sm.hpos, sm.ne_nil⟩
      · simp only [heightOf_setParentIfPresent] at em
        simp [c1, e, setParent_of_ne_nil (some a) nr1, em]
      · have hl2 : ∀ x ∈ inorder l, lt x.2.1 key = true := fun x hx =>
          hlt.trans _ _ _ (hl _ (mem_keys_of_mem_inorder hx)) c1
        cases hi with
        | added L R hx hy hL hR =>
          refine Inserted.added (inorder l ++ (a, k, v) :: L) R ?_ ?_ ?_ hR
          · simp [hx]
          · simp [sm.inorder_eq, hy]
          · intro x hx
            rcases List.mem_append.1 hx with h | h
            · exact hl2 x h
            · rcases List.mem_cons.1 h with rfl | h
              · exact c1
              · exact hL x h
        | found L R a0 k0 v0 hx hy he hL hR =>
          refine Inserted.found (inorder l ++ (a, k, v) :: L) R a0 k0 v0 ?_ ?_ he ?_ hR
          · simp [hx]
          · simp [sm.inorder_eq, hy]
          · intro x hx
            rcases List.mem_append.1 hx with h | h
            · exact hl2 x h
            · rcases List.mem_cons.1 h with rfl | h
              · exact c1
              · exact hL x h
    · by_cases c2 : lt key k = true
      · obtain ⟨l1, ins, did, e, hi, pl1, nl1⟩ := ihl bl pl
        have hl1 := heightOf_nonneg pl1
        obtain ⟨m, em, sm⟩ := balance_spec a k v p (setParentIfPresent (some a) l1) r
          (max (heightOf r) (heightOf (setParentIfPresent (some a) l1)) + 1)
          ⟨by simp only [heightOf_setParentIfPresent]; omega,
            HPos_setParentIfPresent _ pl1, pr⟩
        refine ⟨m, ins, did, ?_, ?_, sm.hpos, sm.ne_nil⟩
        · simp only [heightOf_setParentIfPresent] at em
          simp [c1, c2, e, setParent_of_ne_nil (some a) nl1, em]
        · have hr2 : ∀ x ∈ inorder r, lt key x.2.1 = true := fun x hx =>
            hlt.trans _ _ _ c2 (hr _ (mem_keys_of_mem_inorder hx))
          cases hi with
          | added L R hx hy hL hR =>
            refine Inserted.added L (R ++ (a, k, v) :: inorder r) ?_ ?_ hL ?_
            · simp [hx]
            · simp [sm.inorder_eq, hy]
            · intro x hx
              rcases List.mem_append.1 hx with h | h
              · exact hR x h
              · rcases List.mem_cons.1 h with rfl | h
                · exact c2
                · exact hr2 x h
          | found L R a0 k0 v0 hx hy he hL hR =>
            refine Inserted.found L (R ++ (a, k, v) :: inorder r) a0 k0 v0 ?_ ?_ he hL ?_
            · simp [hx]
            · simp [sm.inorder_eq, hy]
            · intro x hx
              rcases List.mem_append.1 hx with h | h
              · exact hR x h
              · rcases List.mem_cons.1 h with rfl | h
                · exact c2
                · exact hr2 x h
      · have e : Equiv lt key k := ⟨by simpa using c2, by simpa using c1⟩
        refine ⟨Node.node a k (if rep then value else v) p l r h, some a, false,
          by simp [c1, c2], ?_, (show HPos (Node.node a k _ p l r h) from ⟨h1, pl, pr⟩),
          by simp⟩
        refine Inserted.found (inorder l) (inorder r) a k v rfl rfl e ?_ ?_
        · intro x hx
          exact hlt.lt_of_lt_of_equiv (hl _ (mem_keys_of_mem_inorder hx)) e.symm
        · intro x hx
          exact hlt.lt_of_equiv_of_lt e (hr _ (mem_keys_of_mem_inorder hx))

end Lemmas
end Avl
namespace Avl
section Lemmas
variable {K V : Type}

/-! ## `detachNode` and `eraseImpl` -/

theorem HPos_ne_nil_setParent (p : Option Nat) {n : Node K V} (hn : n ≠ Node.nil) :
    ∃ m, setParent p n = some m ∧ inorder m = inorder n ∧ (HPos n → HPos m) :=
  ⟨_, setParent_of_ne_nil p hn, inorder_setParentIfPresent p n, HPos_setParentIfPresent p⟩

/-- At a node without a left child `detachLeftmostNode` is `detachNode` applied to that node,
as in the source, where it is `detachNode(*leftmostNode(&node))`. -/
theorem detachLeftmostNode_at_leftmost (a : Nat) (k : K) (v : V) (p : Option Nat)
    (r : Node K V) (h : Int) :
    detachLeftmostNode (Node.node a k v p Node.nil r h)
      = detachNode (Node.node a k v p Node.nil r h) := by
  cases r <;> rfl

theorem detachLeftmostNode_spec (n : Node K V) (hn : n ≠ Node.nil) (hp : HPos n) :
    ∃ da dk dv dp dl dr dh m,
      detachLeftmostNode n = some (Node.node da dk dv dp dl dr dh, m) ∧
      1 ≤ dh ∧ inorder n = (da, dk, dv) :: inorder m ∧ HPos m := by
  induction n with
  | nil => exact absurd rfl hn
  | node a k v p l r h ihl _ =>
    cases l with
    | nil =>
      cases r with
      | nil => exact ⟨a, k, v, p, _, _, h, _, rfl, hp.1, rfl, trivial⟩
      | node ra rk rv rp rl rr rh =>
        exact ⟨a, k, v, p, _, _, h, _, rfl, hp.1, rfl, hp.2.2⟩
    | node la lk lv lp ll lr lh =>
      obtain ⟨da, dk, dv, dp, dl, dr, dh, m, e, h1, h2, h3⟩ := ihl (by simp) hp.2.1
      refine ⟨da, dk, dv, dp, dl, dr, dh, Node.node a k v p m r h, ?_, h1, ?_, hp.1, h3, hp.2.2⟩
      · simp only [detachLeftmostNode, e, Option.some_bind]
      · simp only [inorder_node] at h2 ⊢
        simp [h2]

theorem detachNode_spec (a : Nat) (k : K) (v : V) (p : Option Nat) (l r : Node K V) (h : Int)
    (hp : HPos (Node.node a k v p l r h)) :
    ∃ d m, detachNode (Node.node a k v p l r h) = some (d, m) ∧
      inorder m = inorder l ++ inorder r ∧ HPos m := by
  cases l with
  | nil =>
    cases r with
    | nil => exact ⟨_, _, rfl, rfl, trivial⟩
    | node ra rk rv rp rl rr rh => exact ⟨_, _, rfl, rfl, hp.2.2⟩
  | node la lk lv lp ll lr lh =>
    cases r with
    | nil => exact ⟨_, _, rfl, by simp, hp.2.1⟩
    | node ra rk rv rp rl rr rh =>
      obtain ⟨da, dk, dv, dp, dl, dr, dh, m, e, h1, h2, h3⟩ :=
        detachLeftmostNode_spec (Node.node ra rk rv rp rl rr rh) (by simp) hp.2.2
      refine ⟨Node.node a k v p (Node.node la lk lv lp ll lr lh) m h,
        Node.node da dk dv p (Node.node la lk lv lp ll lr lh) m dh, ?_, ?_, ?_⟩
      · simp only [detachNode, e, Option.some_bind]
      · simp only [inorder_node] at h2 ⊢
        simp [h2]
      · exact ⟨h1, hp.2.1, h3⟩

theorem eraseImpl_spec {lt : K → K → Bool} (hlt : StrictWeakOrder lt) (heap : Node K V)
    (key : K) (next : Outcome iterator) (cnt : Nat) (n : Node K V) (hb : BST lt n)
    (hp : HPos n) :
    ∃ m next1 cnt1, eraseImpl lt heap key n next cnt = some (m, next1, cnt1) ∧
      Erased lt key heap (inorder n) (inorder m) next cnt next1 cnt1 ∧ HPos m := by
  induction n with
  | nil => exact ⟨_, _, _, rfl, Erased.absent rfl (by simp), trivial⟩
  | node a k v p l r h ihl ihr =>
    obtain ⟨hl, hr, bl, br⟩ := hb
    obtain ⟨h1, pl, pr⟩ := hp
    have hl0 := heightOf_nonneg pl
    have hr0 := heightOf_nonneg pr
    unfold eraseImpl
    by_cases c1 : lt k key = true
    · obtain ⟨r1, nx, ct, e, hi, pr1⟩ := ihr br pr
      have hr1 := heightOf_nonneg pr1
      obtain ⟨m, em, sm⟩ := balance_spec a k v p l (setParentIfPresent (some a) r1)
        (max (heightOf (setParentIfPresent (some a) r1)) (heightOf l) + 1)
        ⟨by simp only [heightOf_setParentIfPresent]; omega, pl,
          HPos_setParentIfPresent _ pr1⟩
      refine ⟨m, nx, ct, ?_, ?_, sm.hpos⟩
      · simp only [heightOf_setParentIfPresent] at em
        simp [c1, e, em]
      · cases hi with
        | absent hy hn =>
          refine Erased.absent (by simp [sm.inorder_eq, hy]) ?_
          intro x hx
          rcases List.mem_append.1 hx with h | h
          · exact not_equiv_of_gt
              (hlt.trans _ _ _ (hl _ (mem_keys_of_mem_inorder h)) c1)
          · rcases List.mem_cons.1 h with rfl | h
            · exact not_equiv_of_gt c1
            · exact hn x h
        | removed L R a0 k0 v0 hx hy he =>
          exact Erased.removed (inorder l ++ (a, k, v) :: L) R a0 k0 v0 (by simp [hx])
            (by simp [sm.inorder_eq, hy]) he
    · by_cases c2 : lt key k = true
      · obtain ⟨l1, nx, ct, e, hi, pl1⟩ := ihl bl pl
        have hl1 := heightOf_nonneg pl1
        obtain ⟨m, em, sm⟩ := balance_spec a k v p (setParentIfPresent (some a) l1) r
          (max (heightOf r) (heightOf (setParentIfPresent (some a) l1)) + 1)
          ⟨by simp only [heightOf_setParentIfPresent]; omega,
            HPos_setParentIfPresent _ pl1, pr⟩
        refine ⟨m, nx, ct, ?_, ?_, sm.hpos⟩
        · simp only [heightOf_setParentIfPresent] at em
          simp [c1, c2, e, em]
        · cases hi with
          | absent hy hn =>
            refine Erased.absent (by simp [sm.inorder_eq, hy]) ?_
            intro x hx
            rcases List.mem_append.1 hx with h | h
            · exact hn x h
            · rcases List.mem_cons.1 h with rfl | h
              · exact not_equiv_of_lt c2
              · exact not_equiv_of_lt
                  (hlt.trans _ _ _ c2 (hr _ (mem_keys_of_mem_inorder h)))
          | removed L R a0 k0 v0 hx hy he =>
            exact Erased.removed L (R ++ (a, k, v) :: inorder r) a0 k0 v0 (by simp [hx])
              (by simp [sm.inorder_eq, hy]) he
      · have e : Equiv lt key k := ⟨by simpa using c2, by simpa using c1⟩
        obtain ⟨d, m, ed, hm, pm⟩ := detachNode_spec a k v p l r h ⟨h1, pl, pr⟩
        cases m with
        | nil =>
          refine ⟨Node.nil, iterator.preIncrement heap (iterator.mk (some a) (addrOf heap)),
            cnt - 1, by simp [c1, c2, ed], ?_, trivial⟩
          exact Erased.removed (inorder l) (inorder r) a k v rfl hm e
        | node a1 k1 v1 p1 l1 r1 h2 =>
          have hl1 := heightOf_nonneg pm.2.1
          have hr1 := heightOf_nonneg pm.2.2
          obtain ⟨b, eb, sb⟩ := balance_spec a1 k1 v1 p1 l1 r1
            (max (heightOf r1) (heightOf l1) + 1) ⟨by omega, pm.2.1, pm.2.2⟩
          refine ⟨b, iterator.preIncrement heap (iterator.mk (some a) (addrOf heap)),
            cnt - 1, by simp [c1, c2, ed, eb], ?_, sb.hpos⟩
          refine Erased.removed (inorder l) (inorder r) a k v rfl ?_ e
          rw [sb.inorder_eq, ← hm]
          rfl

end Lemmas
end Avl
namespace Avl
section Lemmas
variable {K V : Type}

/-! ## `find` and dereferencing -/

theorem numNodes_eq_length (n : Node K V) : numNodes n = (inorder n).length := by
  induction n with
  | nil => rfl
  | node a k v p l r h ihl ihr => simp [numNodes, ihl, ihr]; omega

theorem findLoop_some {lt : K → K → Bool} {key : K} {n : Node K V} {a : Nat}
    (h : findLoop lt key n = some a) :
    ∃ k0 v0, (a, k0, v0) ∈ inorder n ∧ Equiv lt key k0 := by
  induction n with
  | nil => simp [findLoop] at h
  | node b k v p l r ht ihl ihr =>
    unfold findLoop at h
    by_cases c1 : lt key k = true
    · rw [if_pos c1] at h
      obtain ⟨k0, v0, hm, he⟩ := ihl h
      exact ⟨k0, v0, by simp [hm], he⟩
    · rw [if_neg c1] at h
      by_cases c2 : lt k key = true
      · rw [if_pos c2] at h
        obtain ⟨k0, v0, hm, he⟩ := ihr h
        exact ⟨k0, v0, by simp [hm], he⟩
      · rw [if_neg c2] at h
        cases h
        exact ⟨k, v, by simp, by simpa using c1, by simpa using c2⟩

theorem findLoop_of_mem {lt : K → K → Bool} (hlt : StrictWeakOrder lt) {key : K}
    {n : Node K V} (hb : BST lt n) {a : Nat} {k0 : K} {v0 : V}
    (hm : (a, k0, v0) ∈ inorder n) (he : Equiv lt key k0) : findLoop lt key n = some a := by
  induction n with
  | nil => simp at hm
  | node b k v p l r ht ihl ihr =>
    obtain ⟨hl, hr, bl, br⟩ := hb
    unfold findLoop
    simp only [inorder_node, List.mem_append, List.mem_cons] at hm
    rcases hm with hm | hm | hm
    · have h1 := hlt.lt_of_equiv_of_lt he (hl _ (mem_keys_of_mem_inorder hm))
      rw [if_pos h1]
      exact ihl bl hm
    · cases hm
      rw [if_neg (by simp [he.1]), if_neg (by simp [he.2])]
    · have h1 := hlt.lt_of_lt_of_equiv (hr _ (mem_keys_of_mem_inorder hm)) he.symm
      rw [if_neg (by simp [hlt.asymm h1]), if_pos h1]
      exact ihr br hm

theorem findLoop_none {lt : K → K → Bool} (hlt : StrictWeakOrder lt) {key : K}
    {n : Node K V} (hb : BST lt n) (h : findLoop lt key n = none) :
    ∀ x ∈ inorder n, ¬ Equiv lt key x.2.1 := by
  intro x hx he
  obtain ⟨a, k0, v0⟩ := x
  rw [findLoop_of_mem hlt hb hx he] at h
  cases h

theorem findLoop_eq_none {lt : K → K → Bool} {key : K} {n : Node K V}
    (h : ∀ x ∈ inorder n, ¬ Equiv lt key x.2.1) : findLoop lt key n = none := by
  cases e : findLoop lt key n with
  | none => rfl
  | some a =>
    obtain ⟨k0, v0, hm, he⟩ := findLoop_some e
    exact absurd he (h _ hm)

theorem nodeAt_some {a : Nat} {n m : Node K V} (h : nodeAt a n = some m) :
    ∃ k v, keyValuePair m = some (k, v) ∧ (a, k, v) ∈ inorder n := by
  induction n with
  | nil => simp [nodeAt] at h
  | node b k v p l r ht ihl ihr =>
    unfold nodeAt at h
    cases e : nodeAt a l with
    | some x =>
      rw [e] at h
      cases h
      obtain ⟨k1, v1, h1, h2⟩ := ihl e
      exact ⟨k1, v1, h1, by simp [h2]⟩
    | none =>
      rw [e] at h
      simp only at h
      by_cases c : b = a
      · rw [if_pos c] at h
        cases h
        exact ⟨k, v, rfl, by simp [c]⟩
      · rw [if_neg c] at h
        obtain ⟨k1, v1, h1, h2⟩ := ihr h
        exact ⟨k1, v1, h1, by simp [h2]⟩

theorem nodeAt_eq_none {a : Nat} {n : Node K V} (h : a ∉ addrs n) : nodeAt a n = none := by
  cases e : nodeAt a n with
  | none => rfl
  | some m =>
    obtain ⟨k, v, _, hm⟩ := nodeAt_some e
    exact absurd (List.mem_map_of_mem Prod.fst hm) h

theorem addrs_node (a : Nat) (k : K) (v : V) (p : Option Nat) (l r : Node K V) (h : Int) :
    addrs (Node.node a k v p l r h) = addrs l ++ a :: addrs r := by
  simp [addrs]

theorem deref_of_mem {n : Node K V} (hn : (addrs n).Nodup) {a : Nat} {k : K} {v : V}
    (hm : (a, k, v) ∈ inorder n) : (nodeAt a n).bind keyValuePair = some (k, v) := by
  induction n with
  | nil => simp at hm
  | node b kb vb p l r ht ihl ihr =>
    rw [addrs_node, List.nodup_append] at hn
    obtain ⟨nl, nr, dj⟩ := hn
    rw [List.nodup_cons] at nr
    simp only [inorder_node, List.mem_append, List.mem_cons] at hm
    unfold nodeAt
    rcases hm with hm | hm | hm
    · have := ihl nl hm
      cases e : nodeAt a l with
      | none => rw [e] at this; simp at this
      | some x => rw [e] at this; simpa using this
    · cases hm
      have h1 : a ∉ addrs l := fun h => dj h (by simp)
      rw [nodeAt_eq_none h1]
      simp [keyValuePair]
    · have h0 : a ∈ addrs r := List.mem_map_of_mem Prod.fst hm
      have h1 : a ∉ addrs l := fun h => dj h (by simp [h0])
      have h2 : b ≠ a := fun h => nr.1 (h ▸ h0)
      rw [nodeAt_eq_none h1]
      simp only [if_neg h2]
      exact ihr nr.2 hm

theorem find_of_mem {lt : K → K → Bool} (hlt : StrictWeakOrder lt) {t : AvlTree K V}
    (hb : BST lt t.m_root) (hn : (addrs t.m_root).Nodup) {key : K} {a : Nat} {k0 : K} {v0 : V}
    (hm : (a, k0, v0) ∈ inorder t.m_root) (he : Equiv lt key k0) :
    t.find lt key = iterator.mk (some a) (addrOf t.m_root) ∧
      (t.find lt key).deref t.m_root = some (k0, v0) := by
  have h1 : t.find lt key = iterator.mk (some a) (addrOf t.m_root) := by
    simp [AvlTree.find, findLoop_of_mem hlt hb hm he]
  exact ⟨h1, by rw [h1]; exact deref_of_mem hn hm⟩

theorem find_of_absent {lt : K → K → Bool} {t : AvlTree K V} {key : K}
    (h : ∀ x ∈ inorder t.m_root, ¬ Equiv lt key x.2.1) :
    t.find lt key = t.end ∧ (t.find lt key).deref t.m_root = none := by
  have h1 : t.find lt key = t.end := by simp [AvlTree.find, findLoop_eq_none h]
  exact ⟨h1, by rw [h1]; rfl⟩

theorem find_deref_some {lt : K → K → Bool} (hlt : StrictWeakOrder lt) {t : AvlTree K V}
    (hb : BST lt t.m_root) (hn : (addrs t.m_root).Nodup) {key : K} {k0 : K} {v0 : V}
    (h : (t.find lt key).deref t.m_root = some (k0, v0)) :
    ∃ a, (a, k0, v0) ∈ inorder t.m_root ∧ Equiv lt key k0 := by
  cases e : findLoop lt key t.m_root with
  | none =>
    rw [(find_of_absent (findLoop_none hlt hb e)).2] at h
    cases h
  | some a =>
    obtain ⟨k1, v1, hm, he⟩ := findLoop_some e
    rw [(find_of_mem hlt hb hn hm he).2] at h
    cases h
    exact ⟨a, hm, he⟩

theorem find_eq_end {lt : K → K → Bool} (hlt : StrictWeakOrder lt) {t : AvlTree K V}
    (hb : BST lt t.m_root) {key : K} (h : t.find lt key = t.end) :
    ∀ x ∈ inorder t.m_root, ¬ Equiv lt key x.2.1 := by
  apply findLoop_none hlt hb
  cases e : findLoop lt key t.m_root with
  | none => rfl
  | some a => simp [AvlTree.find, e, AvlTree.end] at h

end Lemmas
end Avl
namespace Avl
section Lemmas
variable {K V : Type}

/-! ## The public operations keep the representation invariant -/

theorem sorted_of_BST {lt : K → K → Bool} (hlt : StrictWeakOrder lt) {n : Node K V}
    (hb : BST lt n) : (inorder n).Pairwise (fun x y => lt x.2.1 y.2.1 = true) :=
  (sorted_inorder_iff n).2 ((BST_iff_sorted hlt n).1 hb)

theorem BST_of_sorted {lt : K → K → Bool} (hlt : StrictWeakOrder lt) {n : Node K V}
    (hs : (inorder n).Pairwise (fun x y => lt x.2.1 y.2.1 = true)) : BST lt n :=
  (BST_iff_sorted hlt n).2 ((sorted_inorder_iff n).1 hs)

theorem Inserted.sorted {lt : K → K → Bool} {key : K} {value : V} {fresh : Nat} {rep : Bool}
    {xs ys : List (Nat × K × V)} {ins : Option Nat} {did : Bool}
    (h : Inserted lt key value fresh rep xs ys ins did)
    (hs : xs.Pairwise (fun x y => lt x.2.1 y.2.1 = true)) :
    ys.Pairwise (fun x y => lt x.2.1 y.2.1 = true) := by
  cases h with
  | added L R hx hy hL hR =>
    subst hx hy
    rw [List.pairwise_append] at hs ⊢
    refine ⟨hs.1, List.pairwise_cons.2 ⟨hR, hs.2.1⟩, ?_⟩
    intro x hx y hy
    rcases List.mem_cons.1 hy with rfl | hy
    · exact hL x hx
    · exact hs.2.2 x hx y hy
  | found L R a k0 v0 hx hy he hL hR =>
    subst hx hy
    simpa [List.pairwise_append, List.pairwise_cons] using hs

theorem Inserted.length_eq {lt : K → K → Bool} {key : K} {value : V} {fresh : Nat}
    {rep : Bool} {xs ys : List (Nat × K × V)} {ins : Option Nat} {did : Bool}
    (h : Inserted lt key value fresh rep xs ys ins did) :
    ys.length = if did then xs.length + 1 else xs.length := by
  cases h with
  | added L R hx hy hL hR => subst hx hy; simp; omega
  | found L R a k0 v0 hx hy he hL hR => subst hx hy; simp

theorem Inserted.addrs_nodup {lt : K → K → Bool} {key : K} {value : V} {fresh : Nat}
    {rep : Bool} {xs ys : List (Nat × K × V)} {ins : Option Nat} {did : Bool}
    (h : Inserted lt key value fresh rep xs ys ins did)
    (hn : (xs.map Prod.fst).Nodup) (hf : ∀ a ∈ xs.map Prod.fst, a < fresh) :
    (ys.map Prod.fst).Nodup ∧
      ∀ a ∈ ys.map Prod.fst, a < (if did then fresh + 1 else fresh) := by
  cases h with
  | added L R hx hy hL hR =>
    subst hx hy
    simp only [List.map_append, List.map_cons, List.mem_append, List.mem_cons] at hn hf ⊢
    have hfL : fresh ∉ L.map Prod.fst := fun h => absurd (hf _ (Or.inl h)) (lt_irrefl _)
    have hfR : fresh ∉ R.map Prod.fst := fun h => absurd (hf _ (Or.inr h)) (lt_irrefl _)
    rw [List.nodup_append] at hn ⊢
    refine ⟨⟨hn.1, List.nodup_cons.2 ⟨hfR, hn.2.1⟩, ?_⟩, ?_⟩
    · intro a h1 h2
      rcases List.mem_cons.1 h2 with rfl | h2
      · exact hfL h1
      · exact hn.2.2 h1 h2
    · intro a ha
      simp only [if_true]
      rcases ha with ha | rfl | ha
      · exact Nat.lt_succ_of_lt (hf a (Or.inl ha))
      · exact Nat.lt_succ_self _
      · exact Nat.lt_succ_of_lt (hf a (Or.inr ha))
  | found L R a k0 v0 hx hy he hL hR =>
    subst hx hy
    simp only [List.map_append, List.map_cons] at hn hf ⊢
    exact ⟨hn, by simpa using hf⟩

theorem Inv_empty (lt : K → K → Bool) (top : Nat) : Inv lt (AvlTree.empty top : AvlTree K V) :=
  ⟨trivial, trivial, List.nodup_nil, by simp [AvlTree.empty, addrs], rfl⟩

theorem Inv_clear (lt : K → K → Bool) (t : AvlTree K V) : Inv lt t.clear :=
  ⟨trivial, trivial, List.nodup_nil, by simp [AvlTree.clear, addrs], rfl⟩

theorem insertWith_spec {lt : K → K → Bool} (hlt : StrictWeakOrder lt) (rep : Bool)
    (t : AvlTree K V) (key : K) (value : V) (hi : Inv lt t) :
    ∃ t1 ins did,
      AvlTree.insertWith lt rep t key value
        = some (t1, iterator.mk ins (addrOf t1.m_root), did) ∧
      Inserted lt key value t.heapTop rep (inorder t.m_root) (inorder t1.m_root) ins did ∧
      Inv lt t1 ∧
      t1.m_nodeCount = (if did then t.m_nodeCount + 1 else t.m_nodeCount) := by
  obtain ⟨m, ins, did, e, hins, pm, nm⟩ :=
    insertImpl_spec hlt key value t.heapTop rep t.m_root hi.bst hi.hpos
  refine ⟨AvlTree.mk (setParentIfPresent none m)
      (if did then t.m_nodeCount + 1 else t.m_nodeCount)
      (if did then t.heapTop + 1 else t.heapTop), ins, did, ?_, ?_, ?_, rfl⟩
  · simp [AvlTree.insertWith, e, setParent_of_ne_nil none nm]
  · simpa using hins
  · have ha := hins.addrs_nodup hi.nodup hi.below
    refine ⟨?_, HPos_setParentIfPresent _ pm, ?_, ?_, ?_⟩
    · apply BST_of_sorted hlt
      simpa using hins.sorted (sorted_of_BST hlt hi.bst)
    · simpa [addrs] using ha.1
    · simpa [addrs] using ha.2
    · simp only [numNodes_eq_length, inorder_setParentIfPresent, hins.length_eq, hi.count]

theorem Erased.sublist {lt : K → K → Bool} {key : K} {heap : Node K V}
    {xs ys : List (Nat × K × V)} {next next1 : Outcome iterator} {cnt cnt1 : Nat}
    (h : Erased lt key heap xs ys next cnt next1 cnt1) : ys.Sublist xs := by
  cases h with
  | absent hy hn => subst hy; exact List.Sublist.refl _
  | removed L R a k0 v0 hx hy he =>
    subst hx hy
    exact List.Sublist.append (List.Sublist.refl _) (List.sublist_cons_self _ _)

theorem Erased.count_eq {lt : K → K → Bool} {key : K} {heap : Node K V}
    {xs ys : List (Nat × K × V)} {next next1 : Outcome iterator} {cnt cnt1 : Nat}
    (h : Erased lt key heap xs ys next cnt next1 cnt1) (hc : cnt = xs.length) :
    cnt1 = ys.length := by
  cases h with
  | absent hy hn => subst hy; exact hc
  | removed L R a k0 v0 hx hy he => subst hx hy hc; simp

theorem erase_spec {lt : K → K → Bool} (hlt : StrictWeakOrder lt) (t : AvlTree K V)
    (key : K) (hi : Inv lt t) :
    ∃ t1 next1,
      AvlTree.erase lt t key = some (t1,
        match next1 with
        | Outcome.ok next => Outcome.ok (iterator.mk next.m_node (addrOf t1.m_root))
        | o => o) ∧
      Erased lt key t.m_root (inorder t.m_root) (inorder t1.m_root) (Outcome.ok t.end)
        t.m_nodeCount next1 t1.m_nodeCount ∧
      Inv lt t1 ∧ t1.heapTop = t.heapTop := by
  by_cases hE : t.isEmpty = true
  · have h0 : inorder t.m_root = [] := by
      have : t.m_nodeCount = 0 := by simpa [AvlTree.isEmpty, AvlTree.size] using hE
      rw [hi.count, numNodes_eq_length] at this
      exact List.length_eq_zero.1 this
    refine ⟨t, Outcome.ok t.end, ?_, Erased.absent rfl (by simp [h0]), hi, rfl⟩
    simp [AvlTree.erase, hE, AvlTree.end]
  · obtain ⟨m, next1, cnt1, e, he, pm⟩ :=
      eraseImpl_spec hlt t.m_root key (Outcome.ok t.end) t.m_nodeCount t.m_root hi.bst hi.hpos
    refine ⟨AvlTree.mk (setParentIfPresent none m) cnt1 t.heapTop, next1, ?_, ?_, ?_, rfl⟩
    · simp only [AvlTree.erase, hE, e, Option.some_bind]
      rfl
    · simpa using he
    · have hsub := he.sublist
      refine ⟨?_, HPos_setParentIfPresent _ pm, ?_, ?_, ?_⟩
      · apply BST_of_sorted hlt
        simpa using (sorted_of_BST hlt hi.bst).sublist hsub
      · simpa [addrs] using hi.nodup.sublist (hsub.map Prod.fst)
      · intro a ha
        apply hi.below
        simp only [addrs, inorder_setParentIfPresent] at ha
        exact (hsub.map Prod.fst).subset ha
      · simp only [numNodes_eq_length, inorder_setParentIfPresent]
        exact he.count_eq (by rw [hi.count, numNodes_eq_length])

theorem step_inv {lt : K → K → Bool} (hlt : StrictWeakOrder lt) {t t1 : AvlTree K V}
    (op : Op K V) (hi : Inv lt t) (h : step lt t op = some t1) : Inv lt t1 := by
  cases op with
  | insert key value =>
    obtain ⟨t2, ins, did, e, _, h2, _⟩ := insertWith_spec hlt false t key value hi
    simp only [step, AvlTree.insert, e, Option.map_some'] at h
    cases h
    exact h2
  | insert_or_assign key value =>
    obtain ⟨t2, ins, did, e, _, h2, _⟩ := insertWith_spec hlt true t key value hi
    simp only [step, AvlTree.insert_or_assign, e, Option.map_some'] at h
    cases h
    exact h2
  | erase key =>
    obtain ⟨t2, nx, e, _, h2, _⟩ := erase_spec hlt t key hi
    simp only [step, e, Option.map_some'] at h
    cases h
    exact h2
  | clear =>
    simp only [step] at h
    cases h
    exact Inv_clear lt t

theorem step_defined {lt : K → K → Bool} (hlt : StrictWeakOrder lt) {t : AvlTree K V}
    (op : Op K V) (hi : Inv lt t) : ∃ t1, step lt t op = some t1 := by
  cases op with
  | insert key value =>
    obtain ⟨t2, ins, did, e, _⟩ := insertWith_spec hlt false t key value hi
    exact ⟨t2, by simp [step, AvlTree.insert, e]⟩
  | insert_or_assign key value =>
    obtain ⟨t2, ins, did, e, _⟩ := insertWith_spec hlt true t key value hi
    exact ⟨t2, by simp [step, AvlTree.insert_or_assign, e]⟩
  | erase key =>
    obtain ⟨t2, nx, e, _⟩ := erase_spec hlt t key hi
    exact ⟨t2, by simp [step, e]⟩
  | clear => exact ⟨_, rfl⟩

theorem run_inv {lt : K → K → Bool} (hlt : StrictWeakOrder lt) (ops : List (Op K V))
    {t t1 : AvlTree K V} (hi : Inv lt t) (h : run lt t ops = some t1) : Inv lt t1 := by
  induction ops generalizing t with
  | nil => simp only [run] at h; cases h; exact hi
  | cons op ops ih =>
    obtain ⟨t2, e⟩ := step_defined hlt op hi
    simp only [run, e, Option.some_bind] at h
    exact ih (step_inv hlt op hi e) h

theorem run_defined {lt : K → K → Bool} (hlt : StrictWeakOrder lt) (ops : List (Op K V))
    {t : AvlTree K V} (hi : Inv lt t) : ∃ t1, run lt t ops = some t1 := by
  induction ops generalizing t with
  | nil => exact ⟨t, rfl⟩
  | cons op ops ih =>
    obtain ⟨t2, e⟩ := step_defined hlt op hi
    obtain ⟨t3, e3⟩ := ih (step_inv hlt op hi e)
    exact ⟨t3, by simp only [run, e, Option.some_bind, e3]⟩

theorem reachable_inv {lt : K → K → Bool} (hlt : StrictWeakOrder lt) {t : AvlTree K V}
    (h : Reachable lt t) : Inv lt t := by
  obtain ⟨top, ops, e⟩ := h
  exact run_inv hlt ops (Inv_empty lt top) e

end Lemmas
end Avl
namespace Avl
section Lemmas
variable {K V : Type}

/-! ## What `find` sees after each operation -/

theorem equiv_iff_pred {lt : K → K → Bool} (k x : K) :
    (!lt k x && !lt x k) = true ↔ Equiv lt k x := by
  simp [Equiv]

theorem find?_none_of_lt {lt : K → K → Bool} {k : K} {L : List (Nat × K × V)}
    (h : ∀ x ∈ L, lt x.2.1 k = true) :
    L.find? (fun x => !lt k x.2.1 && !lt x.2.1 k) = none := by
  rw [List.find?_eq_none]
  intro x hx
  simp [h x hx]

theorem find?_none_of_gt {lt : K → K → Bool} {k : K} {L : List (Nat × K × V)}
    (h : ∀ x ∈ L, lt k x.2.1 = true) :
    L.find? (fun x => !lt k x.2.1 && !lt x.2.1 k) = none := by
  rw [List.find?_eq_none]
  intro x hx
  simp [h x hx]

theorem assoc_eq_none {lt : K → K → Bool} {k : K} {xs : List (Nat × K × V)}
    (h : ∀ x ∈ xs, ¬ Equiv lt k x.2.1) : assoc lt k xs = none := by
  unfold assoc
  rw [Option.map_eq_none', List.find?_eq_none]
  intro x hx
  rw [equiv_iff_pred]
  exact h x hx

theorem lookup_eq_assoc {lt : K → K → Bool} (hlt : StrictWeakOrder lt) {t : AvlTree K V}
    (hi : Inv lt t) (k : K) : t.lookup lt k = assoc lt k (inorder t.m_root) := by
  unfold assoc AvlTree.lookup
  cases e : (inorder t.m_root).find? (fun x => !lt k x.2.1 && !lt x.2.1 k) with
  | none =>
    rw [List.find?_eq_none] at e
    have h : ∀ x ∈ inorder t.m_root, ¬ Equiv lt k x.2.1 := fun x hx he =>
      e x hx ((equiv_iff_pred k x.2.1).2 he)
    rw [(find_of_absent h).2]
    rfl
  | some x =>
    obtain ⟨a, k0, v0⟩ := x
    have hm := List.mem_of_find?_eq_some e
    have hp := List.find?_some e
    have he : Equiv lt k k0 := (equiv_iff_pred k k0).1 hp
    rw [(find_of_mem hlt hi.bst hi.nodup hm he).2]
    rfl

theorem Inserted.assoc_after {lt : K → K → Bool} (hlt : StrictWeakOrder lt) {key : K} {value : V}
    {fresh : Nat} {rep : Bool} {xs ys : List (Nat × K × V)} {ins : Option Nat} {did : Bool}
    (h : Inserted lt key value fresh rep xs ys ins did) (k : K) :
    assoc lt k ys =
      if lt k key = false ∧ lt key k = false then
        (match assoc lt k xs with
         | some v0 => some (if rep then value else v0)
         | none => some value)
      else assoc lt k xs := by
  by_cases he : lt k key = false ∧ lt key k = false
  · have hek : Equiv lt k key := he
    rw [if_pos he]
    cases h with
    | added L R hx hy hL hR =>
      subst hx hy
      have h1 := find?_none_of_lt (k := k) fun x hx =>
        hlt.lt_of_lt_of_equiv (hL x hx) hek.symm
      have h2 := find?_none_of_gt (k := k) fun x hx => hlt.lt_of_equiv_of_lt hek (hR x hx)
      simp [assoc, List.find?_append, h1, h2, he.1, he.2]
    | found L R a k0 v0 hx hy hk hL hR =>
      subst hx hy
      have h1 := find?_none_of_lt (k := k) fun x hx =>
        hlt.lt_of_lt_of_equiv (hL x hx) hek.symm
      have h3 := hlt.incomp_trans k key k0 hek hk
      simp [assoc, List.find?_append, h1, h3.1, h3.2]
  · rw [if_neg he]
    cases h with
    | added L R hx hy hL hR =>
      subst hx hy
      have h3 : (!lt k key && !lt key k) = false := by
        rw [Bool.eq_false_iff, Ne, equiv_iff_pred]
        exact he
      simp [assoc, List.find?_append, List.find?_cons, h3]
    | found L R a k0 v0 hx hy hk hL hR =>
      subst hx hy
      have h3 : (!lt k k0 && !lt k0 k) = false := by
        rw [Bool.eq_false_iff, Ne, equiv_iff_pred]
        exact fun h => he (hlt.incomp_trans k k0 key h hk.symm)
      simp [assoc, List.find?_append, List.find?_cons, h3]

theorem Erased.assoc_without {lt : K → K → Bool} (hlt : StrictWeakOrder lt) {key : K}
    {heap : Node K V} {xs ys : List (Nat × K × V)} {next next1 : Outcome iterator}
    {cnt cnt1 : Nat} (h : Erased lt key heap xs ys next cnt next1 cnt1)
    (hs : xs.Pairwise (fun x y => lt x.2.1 y.2.1 = true)) (k : K) :
    assoc lt k ys = if lt k key = false ∧ lt key k = false then none else assoc lt k xs := by
  by_cases he : lt k key = false ∧ lt key k = false
  · have hek : Equiv lt k key := he
    rw [if_pos he]
    cases h with
    | absent hy hn =>
      subst hy
      exact assoc_eq_none fun x hx h => hn x hx (hlt.incomp_trans _ _ _ hek.symm h)
    | removed L R a k0 v0 hx hy hk =>
      subst hx hy
      rw [List.pairwise_append, List.pairwise_cons] at hs
      have hk0 := hlt.incomp_trans k key k0 hek hk
      have h1 := find?_none_of_lt (k := k) fun x hx =>
        hlt.lt_of_lt_of_equiv (hs.2.2 x hx _ (List.mem_cons_self _ _)) hk0.symm
      have h2 := find?_none_of_gt (k := k) fun x hx =>
        hlt.lt_of_equiv_of_lt hk0 (hs.2.1.1 x hx)
      simp [assoc, List.find?_append, h1, h2]
  · rw [if_neg he]
    cases h with
    | absent hy hn => subst hy; rfl
    | removed L R a k0 v0 hx hy hk =>
      subst hx hy
      have h3 : (!lt k k0 && !lt k0 k) = false := by
        rw [Bool.eq_false_iff, Ne, equiv_iff_pred]
        exact fun h => he (hlt.incomp_trans k k0 key h hk.symm)
      simp [assoc, List.find?_append, List.find?_cons, h3]

theorem lastAssigned_step {lt : K → K → Bool} (hlt : StrictWeakOrder lt) {t t1 : AvlTree K V}
    (op : Op K V) (ops : List (Op K V)) (hi : Inv lt t) (h : step lt t op = some t1) (k : K) :
    lastAssigned lt k (assoc lt k (inorder t.m_root)) (op :: ops)
      = lastAssigned lt k (assoc lt k (inorder t1.m_root)) ops := by
  cases op with
  | insert key value =>
    obtain ⟨t2, ins, did, e, hins, _, _⟩ := insertWith_spec hlt false t key value hi
    simp only [step, AvlTree.insert, e, Option.map_some'] at h
    cases h
    rw [lastAssigned, hins.assoc_after hlt k]
    congr 1
    cases assoc lt k (inorder t.m_root) <;> simp
  | insert_or_assign key value =>
    obtain ⟨t2, ins, did, e, hins, _, _⟩ := insertWith_spec hlt true t key value hi
    simp only [step, AvlTree.insert_or_assign, e, Option.map_some'] at h
    cases h
    rw [lastAssigned, hins.assoc_after hlt k]
    congr 1
    cases assoc lt k (inorder t.m_root) <;> simp
  | erase key =>
    obtain ⟨t2, nx, e, her, _, _⟩ := erase_spec hlt t key hi
    simp only [step, e, Option.map_some'] at h
    cases h
    rw [lastAssigned, her.assoc_without hlt (sorted_of_BST hlt hi.bst) k]
  | clear =>
    simp only [step] at h
    cases h
    rw [lastAssigned]
    rfl

theorem run_lastAssigned {lt : K → K → Bool} (hlt : StrictWeakOrder lt) (ops : List (Op K V))
    {t t1 : AvlTree K V} (hi : Inv lt t) (h : run lt t ops = some t1) (k : K) :
    t1.lookup lt k = lastAssigned lt k (t.lookup lt k) ops := by
  induction ops generalizing t with
  | nil =>
    simp only [run] at h
    cases h
    rfl
  | cons op ops ih =>
    obtain ⟨t2, e⟩ := step_defined hlt op hi
    simp only [run, e, Option.some_bind] at h
    rw [ih (step_inv hlt op hi e) h, lookup_eq_assoc hlt hi,
      lookup_eq_assoc hlt (step_inv hlt op hi e), lastAssigned_step hlt op ops hi e]

end Lemmas
end Avl
namespace Avl
section Lemmas
variable {K V : Type}

/-! ## Inserting an absent or a present key -/

theorem insertWith_absent {lt : K → K → Bool} (hlt : StrictWeakOrder lt) (rep : Bool)
    (t : AvlTree K V) (k : K) (v : V) (hi : Inv lt t) (hk : t.find lt k = t.end) :
    ∃ t1, AvlTree.insertWith lt rep t k v = some (t1, t1.find lt k, true) ∧
      (t1.find lt k).deref t1.m_root = some (k, v) ∧ t1.size = t.size + 1 ∧ Inv lt t1 := by
  obtain ⟨t1, ins, did, e, hins, hi1, hc⟩ := insertWith_spec hlt rep t k v hi
  have habs := find_eq_end hlt hi.bst hk
  cases hins with
  | found L R a k0 v0 hx hy he hL hR =>
    exact absurd he (habs (a, k0, v0) (by rw [hx]; simp))
  | added L R hx hy hL hR =>
    have hm : (t.heapTop, k, v) ∈ inorder t1.m_root := by rw [hy]; simp
    have hf := find_of_mem hlt hi1.bst hi1.nodup hm (hlt.equiv_refl k)
    refine ⟨t1, ?_, hf.2, ?_, hi1⟩
    · rw [e, hf.1]
    · simpa [AvlTree.size] using hc

theorem insertWith_present {lt : K → K → Bool} (hlt : StrictWeakOrder lt) (rep : Bool)
    (t : AvlTree K V) (k : K) (v : V) (k0 : K) (v0 : V) (hi : Inv lt t)
    (hk : (t.find lt k).deref t.m_root = some (k0, v0)) :
    ∃ t1, AvlTree.insertWith lt rep t k v = some (t1, t1.find lt k, false) ∧
      (t1.find lt k).deref t1.m_root = some (k0, if rep then v else v0) ∧
      (t1.find lt k).m_node = (t.find lt k).m_node ∧
      t1.size = t.size ∧ Inv lt t1 ∧
      (∃ L R a, inorder t.m_root = L ++ (a, k0, v0) :: R ∧
        inorder t1.m_root = L ++ (a, k0, if rep then v else v0) :: R) ∧
      ∀ k1, (lt k1 k = false ∧ lt k k1 = false → t1.lookup lt k1 = some (if rep then v else v0))
        ∧ (¬ (lt k1 k = false ∧ lt k k1 = false) → t1.lookup lt k1 = t.lookup lt k1) := by
  obtain ⟨t1, ins, did, e, hins, hi1, hc⟩ := insertWith_spec hlt rep t k v hi
  obtain ⟨a, hm, hek⟩ := find_deref_some hlt hi.bst hi.nodup hk
  have hlook : ∀ k1, t1.lookup lt k1 =
      if lt k1 k = false ∧ lt k k1 = false then
        (match t.lookup lt k1 with
         | some v0 => some (if rep then v else v0)
         | none => some v)
      else t.lookup lt k1 := fun k1 => by
    rw [lookup_eq_assoc hlt hi1, lookup_eq_assoc hlt hi, hins.assoc_after hlt k1]
  cases hins with
  | added L R hx hy hL hR =>
    rw [hx] at hm
    rcases List.mem_append.1 hm with h | h
    · exact absurd hek (not_equiv_of_gt (hL _ h))
    · exact absurd hek (not_equiv_of_lt (hR _ h))
  | found L R a1 k1 v1 hx hy he hL hR =>
    have hsame : (a1, k1, v1) = (a, k0, v0) := by
      rw [hx] at hm
      rcases List.mem_append.1 hm with h | h
      · exact absurd hek (not_equiv_of_gt (hL _ h))
      · rcases List.mem_cons.1 h with h | h
        · exact h.symm
        · exact absurd hek (not_equiv_of_lt (hR _ h))
    cases hsame
    have hm1 : (a, k0, if rep then v else v0) ∈ inorder t1.m_root := by rw [hy]; simp
    have hf := find_of_mem hlt hi1.bst hi1.nodup hm1 hek
    have hf0 := find_of_mem hlt hi.bst hi.nodup hm hek
    refine ⟨t1, ?_, hf.2, ?_, ?_, hi1, ⟨L, R, a, hx, hy⟩, ?_⟩
    · rw [e, hf.1]
    · rw [hf.1, hf0.1]
    · simpa [AvlTree.size] using hc
    · intro k2
      constructor
      · intro h2
        have h3 : Equiv lt k2 k0 := hlt.incomp_trans k2 k k0 h2 hek
        have hf2 := find_of_mem hlt hi.bst hi.nodup hm h3
        have : t.lookup lt k2 = some v0 := by simp [AvlTree.lookup, hf2.2]
        rw [hlook k2, if_pos h2, this]
      · intro h2
        rw [hlook k2, if_neg h2]

theorem Erased.absent_after {lt : K → K → Bool} (hlt : StrictWeakOrder lt) {key : K}
    {heap : Node K V} {xs ys : List (Nat × K × V)} {next next1 : Outcome iterator}
    {cnt cnt1 : Nat} (h : Erased lt key heap xs ys next cnt next1 cnt1)
    (hs : xs.Pairwise (fun x y => lt x.2.1 y.2.1 = true)) :
    ∀ x ∈ ys, ¬ Equiv lt key x.2.1 := by
  cases h with
  | absent hy hn => subst hy; exact hn
  | removed L R a k0 v0 hx hy he =>
    subst hx hy
    rw [List.pairwise_append, List.pairwise_cons] at hs
    intro x hx
    rcases List.mem_append.1 hx with h | h
    · exact not_equiv_of_gt
        (hlt.lt_of_lt_of_equiv (hs.2.2 x h _ (List.mem_cons_self _ _)) he.symm)
    · exact not_equiv_of_lt (hlt.lt_of_equiv_of_lt he (hs.2.1.1 x h))

theorem sample3_reachable : Reachable ltNat sample3 :=
  ⟨0, [Op.insert 2 20, Op.insert 1 10, Op.insert 3 30], rfl⟩

end Lemmas

/-! ## The claims -/

section Claims
variable {K V : Type}

/-- Claim C1: every sequence of insert, insert_or_assign, erase and clear from the empty
tree yields a tree in which the BST ordering holds at every node, the in-order key sequence
is strictly increasing under the comparator, and no two nodes hold equivalent keys. -/
theorem C1_bst_ordering_of_reachable {lt : K → K → Bool} (hlt : StrictWeakOrder lt)
    (top : Nat) (ops : List (Op K V)) :
    ∃ t, run lt (AvlTree.empty top) ops = some t ∧
      BST lt t.m_root ∧
      (keys t.m_root).Pairwise (fun a b => lt a b = true) ∧
      (keys t.m_root).Pairwise (fun a b => ¬ Equiv lt a b) := by
  obtain ⟨t, e⟩ := run_defined hlt ops (Inv_empty lt top)
  have hi := run_inv hlt ops (Inv_empty lt top) e
  have hs := (BST_iff_sorted hlt t.m_root).1 hi.bst
  exact ⟨t, e, hi.bst, hs, hs.imp fun h => not_equiv_of_lt h⟩

/-- A concrete instance of C1: natural-number keys, five inserts, an erase of a node with
two children and an assignment. -/
theorem C1_witness :
    StrictWeakOrder ltNat ∧
    ∃ t, run ltNat (AvlTree.empty 0)
        [Op.insert 2 20, Op.insert 1 10, Op.insert 4 40, Op.insert 3 30, Op.insert 5 50,
          Op.erase 2, Op.insert_or_assign 4 41] = some t ∧
      BST ltNat t.m_root ∧
      (keys t.m_root).Pairwise (fun a b => ltNat a b = true) ∧
      (keys t.m_root).Pairwise (fun a b => ¬ Equiv ltNat a b) :=
  ⟨strictWeakOrder_ltNat, C1_bst_ordering_of_reachable strictWeakOrder_ltNat 0 _⟩

/-- Claim C2 fails in the code: after inserting 2, 1, 4, 3, 5 and erasing 1 the root (key 2)
has no left child and a right subtree of true height 2, because `balance` leaves a node
of balance factor -2 alone when its right child has balance factor 0. -/
theorem C2_unbalanced_after_erase :
    ∃ t, run ltNat (AvlTree.empty 0)
        [Op.insert 2 20, Op.insert 1 10, Op.insert 4 40, Op.insert 3 30, Op.insert 5 50,
          Op.erase 1] = some t ∧
      toList t.m_root = [(2, 20), (3, 30), (4, 40), (5, 50)] ∧
      AVLBalanced t.m_root = false ∧
      trueHeight (leftOf t.m_root) = 0 ∧ trueHeight (rightOf t.m_root) = 2 ∧
      calculateBalanceFactor t.m_root = -2 ∧ calculateBalanceFactor (rightOf t.m_root) = 0 :=
  ⟨_, rfl, rfl, rfl, rfl, rfl, rfl, rfl⟩

/-- Claim C3: every sequence of insert, insert_or_assign, erase and clear from the empty
tree yields a tree whose `size()` is the number of its nodes and for which `empty()` holds
exactly when there is no root. -/
theorem C3_size_coherent_of_reachable {lt : K → K → Bool} (hlt : StrictWeakOrder lt)
    (top : Nat) (ops : List (Op K V)) :
    ∃ t, run lt (AvlTree.empty top) ops = some t ∧
      t.size = numNodes t.m_root ∧ (t.isEmpty = true ↔ t.m_root = Node.nil) := by
  obtain ⟨t, e⟩ := run_defined hlt ops (Inv_empty lt top)
  have hi := run_inv hlt ops (Inv_empty lt top) e
  refine ⟨t, e, hi.count, ?_⟩
  simp only [AvlTree.isEmpty, AvlTree.size, hi.count, beq_iff_eq]
  cases t.m_root with
  | nil => simp [numNodes]
  | node a k v p l r h => simp [numNodes]

/-- A concrete instance of C3: inserts, a rejected insert, erases and a clear. -/
theorem C3_witness :
    StrictWeakOrder ltNat ∧
    ∃ t, run ltNat (AvlTree.empty 0)
        [Op.insert 2 20, Op.insert 1 10, Op.insert 2 21, Op.erase 7, Op.erase 2, Op.clear,
          Op.insert_or_assign 4 40] = some t ∧
      t.size = numNodes t.m_root ∧ (t.isEmpty = true ↔ t.m_root = Node.nil) :=
  ⟨strictWeakOrder_ltNat, C3_size_coherent_of_reachable strictWeakOrder_ltNat 0 _⟩

end Claims
end Avl
namespace Avl
section Lemmas
variable {K V : Type}

theorem find_cases {lt : K → K → Bool} (hlt : StrictWeakOrder lt) {t : AvlTree K V}
    (hi : Inv lt t) (k : K) :
    t.find lt k = t.end ∨
      ∃ k0 v0, (t.find lt k).deref t.m_root = some (k0, v0) ∧ Equiv lt k k0 := by
  cases e : findLoop lt k t.m_root with
  | none => exact Or.inl (find_of_absent (findLoop_none hlt hi.bst e)).1
  | some a =>
    obtain ⟨k0, v0, hm, he⟩ := findLoop_some e
    exact Or.inr ⟨k0, v0, (find_of_mem hlt hi.bst hi.nodup hm he).2, he⟩

end Lemmas

section Claims
variable {K V : Type}

/-- Claim C4: on a reachable tree, after `insert_or_assign(k, v)` the call `find(k)` yields
the element for `k` with value `v` (its key is equivalent to `k`, and is `k` itself when the
element is new or when equivalent keys are equal, as under `std::less`); after `insert(k, v)` with `k` not present `find(k)` yields
`(k, v)`; and after any further sequence of calls `find(k)` leads to the value last assigned
to `k`. -/
theorem C4_find_yields_last_assigned {lt : K → K → Bool} (hlt : StrictWeakOrder lt)
    (t : AvlTree K V) (h : Reachable lt t) (k : K) (v : V) :
    (∃ t1 it did, t.insert_or_assign lt k v = some (t1, it, did) ∧
      ∃ k1, (t1.find lt k).deref t1.m_root = some (k1, v) ∧ Equiv lt k k1 ∧
        (did = true → k1 = k) ∧ ((∀ a b, Equiv lt a b → a = b) → k1 = k)) ∧
    (t.find lt k = t.end →
      ∃ t1 it did, t.insert lt k v = some (t1, it, did) ∧
        (t1.find lt k).deref t1.m_root = some (k, v)) ∧
    (∀ ops t1, run lt t ops = some t1 →
      t1.lookup lt k = lastAssigned lt k (t.lookup lt k) ops) := by
  have hi := reachable_inv hlt h
  refine ⟨?_, ?_, ?_⟩
  · rcases find_cases hlt hi k with hk | ⟨k0, v0, hk, he⟩
    · obtain ⟨t1, e, hd, _⟩ := insertWith_absent hlt true t k v hi hk
      exact ⟨t1, _, true, e, k, hd, hlt.equiv_refl k, fun _ => rfl, fun _ => rfl⟩
    · obtain ⟨t1, e, hd, _⟩ := insertWith_present hlt true t k v k0 v0 hi hk
      exact ⟨t1, _, false, e, k0, by simpa using hd, he, (fun h => by cases h),
        (fun ha => (ha k k0 he).symm)⟩
  · intro hk
    obtain ⟨t1, e, hd, _⟩ := insertWith_absent hlt false t k v hi hk
    exact ⟨t1, _, true, e, hd⟩
  · intro ops t1 e
    exact run_lastAssigned hlt ops hi e k

/-- A concrete instance of C4 on the tree holding 1, 2, 3, for key 3. -/
theorem C4_witness :
    StrictWeakOrder ltNat ∧ Reachable ltNat sample3 ∧
    ((∃ t1 it did, sample3.insert_or_assign ltNat 3 33 = some (t1, it, did) ∧
      ∃ k1, (t1.find ltNat 3).deref t1.m_root = some (k1, 33) ∧ Equiv ltNat 3 k1 ∧
        (did = true → k1 = 3) ∧ ((∀ a b, Equiv ltNat a b → a = b) → k1 = 3)) ∧
    (sample3.find ltNat 3 = sample3.end →
      ∃ t1 it did, sample3.insert ltNat 3 33 = some (t1, it, did) ∧
        (t1.find ltNat 3).deref t1.m_root = some (3, 33)) ∧
    (∀ ops t1, run ltNat sample3 ops = some t1 →
      t1.lookup ltNat 3 = lastAssigned ltNat 3 (sample3.lookup ltNat 3) ops)) :=
  ⟨strictWeakOrder_ltNat, sample3_reachable,
    C4_find_yields_last_assigned strictWeakOrder_ltNat sample3 sample3_reachable 3 33⟩

/-- Claim C5 fails in the code: insert 2, 1, 4, 3 and erase 2.  `detachNode` puts node 3 in
the place of node 2 and leaves the parent link of node 4 naming the released node 2.  On that
reachable tree `erase(4)` finds node 4, which has no right child, and takes the successor
step `++(*next)` through the dangling parent link: the call has no defined behaviour, so it
does not leave a tree in which `find(4)` returns `end`.  On the tree holding 1, 2, 3, whose
parent links are coherent, `erase(2)` returns and `find(2)` is `end` afterwards. -/
theorem C5_erase_through_dangling_parent :
    (∃ t, run ltNat (AvlTree.empty 0)
        [Op.insert 2 20, Op.insert 1 10, Op.insert 4 40, Op.insert 3 30, Op.erase 2]
        = some t ∧
      toList t.m_root = [(1, 10), (3, 30), (4, 40)] ∧
      (t.find ltNat 4).deref t.m_root = some (4, 40) ∧
      keyValuePair (rightOf t.m_root) = some (4, 40) ∧
      rightOf (rightOf t.m_root) = Node.nil ∧
      parentOf (rightOf t.m_root) = some 0 ∧ nodeAt 0 t.m_root = none ∧
      iterator.preIncrement t.m_root (t.find ltNat 4) = Outcome.undefined ∧
      (t.erase ltNat 4).map Prod.snd = some Outcome.undefined) ∧
    (∃ t1 it, sample3.erase ltNat 2 = some (t1, Outcome.ok it) ∧
      t1.find ltNat 2 = t1.end) :=
  ⟨⟨_, rfl, rfl, rfl, rfl, rfl, rfl, rfl, rfl, rfl⟩, ⟨_, _, rfl, rfl⟩⟩

/-- Claim C6: on a tree that satisfies the BST ordering (its nodes at distinct addresses),
`find(k)` returns the iterator positioned at the element whose key is equivalent to `k` when
the in-order sequence has such an element, and `end` otherwise.  `find` only reads the
tree: it returns an iterator and nothing else. -/
theorem C6_find_correct {lt : K → K → Bool} (hlt : StrictWeakOrder lt) (t : AvlTree K V)
    (hb : BST lt t.m_root) (hn : (addrs t.m_root).Nodup) (k : K) :
    (∀ a k0 v0, (a, k0, v0) ∈ inorder t.m_root → Equiv lt k k0 →
      t.find lt k = iterator.mk (some a) (addrOf t.m_root) ∧
        (t.find lt k).deref t.m_root = some (k0, v0)) ∧
    ((∀ x ∈ inorder t.m_root, ¬ Equiv lt k x.2.1) → t.find lt k = t.end) :=
  ⟨fun _ _ _ hm he => find_of_mem hlt hb hn hm he, fun h => (find_of_absent h).1⟩

/-- A concrete instance of C6 on the tree holding 1, 2, 3, for key 3. -/
theorem C6_witness :
    StrictWeakOrder ltNat ∧ BST ltNat sample3.m_root ∧ (addrs sample3.m_root).Nodup ∧
    ((∀ a k0 v0, (a, k0, v0) ∈ inorder sample3.m_root → Equiv ltNat 3 k0 →
      sample3.find ltNat 3 = iterator.mk (some a) (addrOf sample3.m_root) ∧
        (sample3.find ltNat 3).deref sample3.m_root = some (k0, v0)) ∧
    ((∀ x ∈ inorder sample3.m_root, ¬ Equiv ltNat 3 x.2.1) →
      sample3.find ltNat 3 = sample3.end)) :=
  ⟨strictWeakOrder_ltNat, (reachable_inv strictWeakOrder_ltNat sample3_reachable).bst,
    (reachable_inv strictWeakOrder_ltNat sample3_reachable).nodup,
    C6_find_correct strictWeakOrder_ltNat sample3
      (reachable_inv strictWeakOrder_ltNat sample3_reachable).bst
      (reachable_inv strictWeakOrder_ltNat sample3_reachable).nodup 3⟩

/-- Claim C7 fails in the code: insert 2, 1, 3, then erase 2.  `detachNode` puts node 3 in
the place of node 2 and leaves the parent link of node 1 naming the released node 2.  In
that reachable tree key 1 is present and its in-order successor is key 3, but `erase(1)`
takes the successor step through the dangling parent link: the size drops to 1 and the
returned iterator is not defined (it is not positioned at key 3). -/
theorem C7_erase_successor_through_dangling_parent :
    ∃ t, run ltNat (AvlTree.empty 0)
        [Op.insert 2 20, Op.insert 1 10, Op.insert 3 30, Op.erase 2] = some t ∧
      toList t.m_root = [(1, 10), (3, 30)] ∧
      (t.find ltNat 1).deref t.m_root = some (1, 10) ∧
      t.find ltNat 3 = iterator.mk (some 2) (some 2) ∧
      parentOf (leftOf t.m_root) = some 0 ∧ nodeAt 0 t.m_root = none ∧
      t.erase ltNat 1
        = some (AvlTree.mk (Node.node 2 3 30 none Node.nil Node.nil 1) 1 3,
            Outcome.undefined) :=
  ⟨_, rfl, rfl, rfl, rfl, rfl, rfl, rfl⟩

/-- Claim C8: on a reachable tree, for a key `k` that is not present, `insert(k, v)` and
likewise `insert_or_assign(k, v)` return `didInsert = true` with an iterator positioned at
the new element `(k, v)` (the position `find(k)` then returns), and `size()` grows by
exactly 1. -/
theorem C8_insert_absent_key {lt : K → K → Bool} (hlt : StrictWeakOrder lt)
    (t : AvlTree K V) (h : Reachable lt t) (k : K) (v : V) (hk : t.find lt k = t.end) :
    (∃ t1 it, t.insert lt k v = some (t1, it, true) ∧
      it.deref t1.m_root = some (k, v) ∧ it = t1.find lt k ∧ t1.size = t.size + 1) ∧
    (∃ t1 it, t.insert_or_assign lt k v = some (t1, it, true) ∧
      it.deref t1.m_root = some (k, v) ∧ it = t1.find lt k ∧ t1.size = t.size + 1) := by
  have hi := reachable_inv hlt h
  obtain ⟨t1, e1, hd1, hs1, _⟩ := insertWith_absent hlt false t k v hi hk
  obtain ⟨t2, e2, hd2, hs2, _⟩ := insertWith_absent hlt true t k v hi hk
  exact ⟨⟨t1, _, e1, hd1, rfl, hs1⟩, ⟨t2, _, e2, hd2, rfl, hs2⟩⟩

/-- A concrete instance of C8: key 7 is not in the tree holding 1, 2, 3. -/
theorem C8_witness :
    StrictWeakOrder ltNat ∧ Reachable ltNat sample3 ∧ sample3.find ltNat 7 = sample3.end ∧
    ((∃ t1 it, sample3.insert ltNat 7 70 = some (t1, it, true) ∧
      it.deref t1.m_root = some (7, 70) ∧ it = t1.find ltNat 7 ∧
      t1.size = sample3.size + 1) ∧
    (∃ t1 it, sample3.insert_or_assign ltNat 7 70 = some (t1, it, true) ∧
      it.deref t1.m_root = some (7, 70) ∧ it = t1.find ltNat 7 ∧
      t1.size = sample3.size + 1)) :=
  ⟨strictWeakOrder_ltNat, sample3_reachable, rfl,
    C8_insert_absent_key strictWeakOrder_ltNat sample3 sample3_reachable 7 70 rfl⟩

/-- Claim C9: on a reachable tree in which `find(k)` leads to an element with value `v0`,
`insert(k, v)` returns `didInsert = false` with an iterator positioned at that same
element, whose value is still `v0`; `size()` is unchanged, the in-order sequence of nodes,
keys and values is unchanged, and `find` leads to the same value for every key. -/
theorem C9_insert_present_key {lt : K → K → Bool} (hlt : StrictWeakOrder lt)
    (t : AvlTree K V) (h : Reachable lt t) (k : K) (v : V) (k0 : K) (v0 : V)
    (hk : (t.find lt k).deref t.m_root = some (k0, v0)) :
    ∃ t1 it, t.insert lt k v = some (t1, it, false) ∧
      it.deref t1.m_root = some (k0, v0) ∧ it.m_node = (t.find lt k).m_node ∧
      t1.size = t.size ∧ inorder t1.m_root = inorder t.m_root ∧
      toList t1.m_root = toList t.m_root ∧
      ∀ k1, t1.lookup lt k1 = t.lookup lt k1 := by
  have hi := reachable_inv hlt h
  obtain ⟨t1, e, hd, hn, hs, hi1, ⟨L, R, a, hx, hy⟩, _⟩ :=
    insertWith_present hlt false t k v k0 v0 hi hk
  have hio : inorder t1.m_root = inorder t.m_root := by rw [hx, hy]; simp
  refine ⟨t1, _, e, by simpa using hd, hn, hs, hio, by simp [toList, hio], ?_⟩
  intro k1
  rw [lookup_eq_assoc hlt hi1, lookup_eq_assoc hlt hi, hio]

/-- A concrete instance of C9: key 1 holds 10 in the tree holding 1, 2, 3. -/
theorem C9_witness :
    StrictWeakOrder ltNat ∧ Reachable ltNat sample3 ∧
    (sample3.find ltNat 1).deref sample3.m_root = some (1, 10) ∧
    ∃ t1 it, sample3.insert ltNat 1 55 = some (t1, it, false) ∧
      it.deref t1.m_root = some (1, 10) ∧ it.m_node = (sample3.find ltNat 1).m_node ∧
      t1.size = sample3.size ∧ inorder t1.m_root = inorder sample3.m_root ∧
      toList t1.m_root = toList sample3.m_root ∧
      ∀ k1, t1.lookup ltNat k1 = sample3.lookup ltNat k1 :=
  ⟨strictWeakOrder_ltNat, sample3_reachable, rfl,
    C9_insert_present_key strictWeakOrder_ltNat sample3 sample3_reachable 1 55 1 10 rfl⟩

/-- Claim C10: on a reachable tree in which `find(k)` leads to an element,
`insert_or_assign(k, v)` returns `didInsert = false` with an iterator positioned at that
same element, whose value is now `v`; `size()` is unchanged, the keys are unchanged, and
`find` leads to the same value as before for every key not equivalent to `k`. -/
theorem C10_insert_or_assign_present_key {lt : K → K → Bool} (hlt : StrictWeakOrder lt)
    (t : AvlTree K V) (h : Reachable lt t) (k : K) (v : V) (k0 : K) (v0 : V)
    (hk : (t.find lt k).deref t.m_root = some (k0, v0)) :
    ∃ t1 it, t.insert_or_assign lt k v = some (t1, it, false) ∧
      it.deref t1.m_root = some (k0, v) ∧ it.m_node = (t.find lt k).m_node ∧
      it = t1.find lt k ∧
      t1.size = t.size ∧ keys t1.m_root = keys t.m_root ∧
      ∀ k1, ¬ Equiv lt k1 k → t1.lookup lt k1 = t.lookup lt k1 := by
  have hi := reachable_inv hlt h
  obtain ⟨t1, e, hd, hn, hs, hi1, ⟨L, R, a, hx, hy⟩, hl⟩ :=
    insertWith_present hlt true t k v k0 v0 hi hk
  refine ⟨t1, _, e, by simpa using hd, hn, rfl, hs, by simp [keys, hx, hy], ?_⟩
  intro k1 hne
  exact (hl k1).2 hne

/-- A concrete instance of C10: key 1 holds 10 in the tree holding 1, 2, 3. -/
theorem C10_witness :
    StrictWeakOrder ltNat ∧ Reachable ltNat sample3 ∧
    (sample3.find ltNat 1).deref sample3.m_root = some (1, 10) ∧
    ∃ t1 it, sample3.insert_or_assign ltNat 1 55 = some (t1, it, false) ∧
      it.deref t1.m_root = some (1, 55) ∧ it.m_node = (sample3.find ltNat 1).m_node ∧
      it = t1.find ltNat 1 ∧
      t1.size = sample3.size ∧ keys t1.m_root = keys sample3.m_root ∧
      ∀ k1, ¬ Equiv ltNat k1 1 → t1.lookup ltNat k1 = sample3.lookup ltNat k1 :=
  ⟨strictWeakOrder_ltNat, sample3_reachable, rfl,
    C10_insert_or_assign_present_key strictWeakOrder_ltNat sample3 sample3_reachable
      1 55 1 10 rfl⟩

end Claims
end Avl
namespace Avl
section Lemmas
variable {K V : Type}

/-! ## Iterator steps never throw from a node -/

theorem climbRight_not_thrown (heap : Node K V) (fuel node : Nat) (p : Option Nat) (w : String) :
    iterator.climbRight heap fuel node p ≠ Outcome.thrown w := by
  induction fuel generalizing node p with
  | zero => cases p <;> simp [iterator.climbRight]
  | succ n ih =>
    cases p with
    | none => simp [iterator.climbRight]
    | some q =>
      unfold iterator.climbRight
      cases nodeAt q heap with
      | none => simp
      | some pn =>
        simp only
        split_ifs
        · exact ih _ _
        · simp

theorem climbLeft_not_thrown (heap : Node K V) (fuel node : Nat) (p : Option Nat) (w : String) :
    iterator.climbLeft heap fuel node p ≠ Outcome.thrown w := by
  induction fuel generalizing node p with
  | zero => cases p <;> simp [iterator.climbLeft]
  | succ n ih =>
    cases p with
    | none => simp [iterator.climbLeft]
    | some q =>
      unfold iterator.climbLeft
      cases nodeAt q heap with
      | none => simp
      | some pn =>
        simp only
        split_ifs
        · exact ih _ _
        · simp

theorem increment_not_thrown (heap : Node K V) (node : Nat) (w : String) :
    iterator.increment heap node ≠ Outcome.thrown w := by
  unfold iterator.increment
  split
  · simp
  · simp
  · exact climbRight_not_thrown _ _ _ _ _

theorem decrement_not_thrown (heap : Node K V) (node : Nat) (w : String) :
    iterator.decrement heap node ≠ Outcome.thrown w := by
  unfold iterator.decrement
  split
  · simp
  · simp
  · exact climbLeft_not_thrown _ _ _ _ _

theorem preIncrement_node_not_thrown (heap : Node K V) (a : Nat) (r : Option Nat) (w : String) :
    iterator.preIncrement heap (iterator.mk (some a) r) ≠ Outcome.thrown w := by
  have h := increment_not_thrown heap a
  simp only [iterator.preIncrement]
  cases e : iterator.increment heap a with
  | ok m => simp
  | thrown w1 => exact absurd e (h w1)
  | undefined => simp
  | diverged => simp

theorem preDecrement_not_thrown (heap : Node K V) (it : iterator) (w : String) :
    iterator.preDecrement heap it ≠ Outcome.thrown w := by
  obtain ⟨m, r⟩ := it
  cases m with
  | none =>
    simp only [iterator.preDecrement]
    cases r with
    | none => simp
    | some root =>
      simp only
      cases nodeAt root heap <;> simp
  | some a =>
    have h := decrement_not_thrown heap a
    simp only [iterator.preDecrement]
    cases e : iterator.decrement heap a with
    | ok m => simp
    | thrown w1 => exact absurd e (h w1)
    | undefined => simp
    | diverged => simp

end Lemmas

section Claims
variable {K V : Type}

/-- Claim C11 fails in the code: insert 3, 2, 5, 1, 4, 6, 7 and erase 3.  `detachNode` takes
node 4 out of the right subtree without rebalancing it, which leaves node 5 with no left
child above the chain 6, 7.  Key 7 is present in that reachable tree, yet `insert(7, 71)`
and `insert_or_assign(7, 71)` recompute the heights on the search path and `balance`
rotates at node 5: node 6 takes the place of node 5. -/
theorem C11_insert_present_key_rotates :
    ∃ t, run ltNat (AvlTree.empty 0)
        [Op.insert 3 30, Op.insert 2 20, Op.insert 5 50, Op.insert 1 10, Op.insert 4 40,
          Op.insert 6 60, Op.insert 7 70, Op.erase 3] = some t ∧
      (t.find ltNat 7).deref t.m_root = some (7, 70) ∧
      keyValuePair (rightOf t.m_root) = some (5, 50) ∧
      leftOf (rightOf t.m_root) = Node.nil ∧
      ∃ t1 it1 t2 it2,
        t.insert ltNat 7 71 = some (t1, it1, false) ∧
        t.insert_or_assign ltNat 7 71 = some (t2, it2, false) ∧
        keyValuePair (rightOf t1.m_root) = some (6, 60) ∧
        keyValuePair (leftOf (rightOf t1.m_root)) = some (5, 50) ∧
        keyValuePair (rightOf t2.m_root) = some (6, 60) ∧
        keyValuePair (leftOf (rightOf t2.m_root)) = some (5, 50) :=
  ⟨_, rfl, rfl, rfl, rfl, _, _, _, _, rfl, rfl, rfl, rfl, rfl, rfl⟩

/-- Claim C12: on a reachable tree (the empty tree included), `erase(k)` for a key `k` that
is not present returns `end`, leaves `size()` unchanged and leaves the in-order sequence of
(key, value) pairs unchanged. -/
theorem C12_erase_absent_key {lt : K → K → Bool} (hlt : StrictWeakOrder lt)
    (t : AvlTree K V) (h : Reachable lt t) (k : K) (hk : t.find lt k = t.end) :
    ∃ t1, t.erase lt k = some (t1, Outcome.ok t1.end) ∧
      t1.size = t.size ∧ toList t1.m_root = toList t.m_root := by
  have hi := reachable_inv hlt h
  have habs := find_eq_end hlt hi.bst hk
  obtain ⟨t1, next1, e, her, _, _⟩ := erase_spec hlt t k hi
  generalize hc : t1.m_nodeCount = c at her
  cases her with
  | removed L R a k0 v0 hx hy he =>
    exact absurd he (habs (a, k0, v0) (by rw [hx]; simp))
  | absent hy hn =>
    refine ⟨t1, ?_, ?_, ?_⟩
    · rw [e]; rfl
    · simpa [AvlTree.size] using hc
    · simp [toList, hy]

/-- A concrete instance of C12: key 7 is not in the tree holding 1, 2, 3. -/
theorem C12_witness :
    StrictWeakOrder ltNat ∧ Reachable ltNat sample3 ∧ sample3.find ltNat 7 = sample3.end ∧
    ∃ t1, sample3.erase ltNat 7 = some (t1, Outcome.ok t1.end) ∧
      t1.size = sample3.size ∧ toList t1.m_root = toList sample3.m_root :=
  ⟨strictWeakOrder_ltNat, sample3_reachable, rfl,
    C12_erase_absent_key strictWeakOrder_ltNat sample3 sample3_reachable 7 rfl⟩

/-- Claim C13 fails in the code: insert 3, 2, 5, 1, 4, 6, 7 and erase 3, as for C11.  Key 9 is
not present in that reachable tree, yet `erase(9)` recomputes the heights on the search
path and `balance` rotates at node 5: node 6 takes the place of node 5. -/
theorem C13_erase_absent_key_rotates :
    ∃ t, run ltNat (AvlTree.empty 0)
        [Op.insert 3 30, Op.insert 2 20, Op.insert 5 50, Op.insert 1 10, Op.insert 4 40,
          Op.insert 6 60, Op.insert 7 70, Op.erase 3] = some t ∧
      t.find ltNat 9 = t.end ∧
      keyValuePair (rightOf t.m_root) = some (5, 50) ∧
      leftOf (rightOf t.m_root) = Node.nil ∧
      ∃ t1 o, t.erase ltNat 9 = some (t1, o) ∧
        keyValuePair (rightOf t1.m_root) = some (6, 60) ∧
        keyValuePair (leftOf (rightOf t1.m_root)) = some (5, 50) :=
  ⟨_, rfl, rfl, rfl, rfl, _, _, rfl, rfl, rfl⟩

/-- Claim C14: `++it` and `it++` throw exactly when the iterator is at end; what is thrown is
the `runtime_error` with the fixed message, and the iterator is still at end afterwards.  An
iterator positioned at a node never makes them throw. -/
theorem C14_increment_throws_iff_at_end (heap : Node K V) (it : iterator) :
    ((∃ w, iterator.preIncrement heap it = Outcome.thrown w) ↔ it.m_node = none) ∧
    ((∃ w, iterator.postIncrement heap it = Outcome.thrown w) ↔ it.m_node = none) ∧
    (it.m_node = none →
      iterator.preIncrement heap it
        = Outcome.thrown "AvlTree::iterator: prefix increment called on end iterator!" ∧
      iterator.postIncrement heap it
        = Outcome.thrown "AvlTree::iterator: prefix increment called on end iterator!" ∧
      iterator.after it (iterator.preIncrement heap it) = some it) := by
  obtain ⟨m, r⟩ := it
  cases m with
  | none => simp [iterator.preIncrement, iterator.postIncrement, Outcome.bind, iterator.after]
  | some a =>
    have h := preIncrement_node_not_thrown heap a r
    refine ⟨⟨fun ⟨w, e⟩ => absurd e (h w), fun e => by simp at e⟩,
      ⟨?_, fun e => by simp at e⟩, fun e => by simp at e⟩
    rintro ⟨w, e⟩
    simp only [iterator.postIncrement] at e
    cases e1 : iterator.preIncrement heap (iterator.mk (some a) r) with
    | ok x => rw [e1] at e; simp [Outcome.bind] at e
    | thrown w1 => exact absurd e1 (h w1)
    | undefined => rw [e1] at e; simp [Outcome.bind] at e
    | diverged => rw [e1] at e; simp [Outcome.bind] at e

/-- Claim C15 fails in the code: insert 2, 1, 3 and erase 2.  `detachNode` puts node 3 in the
place of node 2 and leaves the parent link of node 1 naming the released node.  In that
reachable tree of size 2, `begin()` is at key 1, and the first increment climbs through the
dangling parent link: the traversal from `begin()` to `end()` has no defined result. -/
theorem C15_forward_traversal_through_dangling_parent :
    ∃ t b, run ltNat (AvlTree.empty 0)
        [Op.insert 2 20, Op.insert 1 10, Op.insert 3 30, Op.erase 2] = some t ∧
      t.size = 2 ∧ toList t.m_root = [(1, 10), (3, 30)] ∧
      t.begin = some b ∧ b.deref t.m_root = some (1, 10) ∧
      parentOf (leftOf t.m_root) = some 0 ∧ nodeAt 0 t.m_root = none ∧
      iterator.preIncrement t.m_root b = Outcome.undefined ∧
      iterator.collect t.m_root (t.size + 1) b t.end = Outcome.undefined :=
  ⟨_, _, rfl, rfl, rfl, rfl, rfl, rfl, rfl, rfl, rfl⟩

/-- Claim C16 fails in the code: insert 2, 1, 4, 3, 5 and erase 2.  `detachNode` puts node 3
in the place of node 2 and leaves the parent links of nodes 1 and 4 naming the released
node.  In that reachable tree of size 4 the reverse traversal visits 5 and 4, and the next
step climbs from node 4 through the dangling parent link: the traversal from `rbegin()` to
`rend()` has no defined result. -/
theorem C16_reverse_traversal_through_dangling_parent :
    ∃ t e r1 r2, run ltNat (AvlTree.empty 0)
        [Op.insert 2 20, Op.insert 1 10, Op.insert 4 40, Op.insert 3 30, Op.insert 5 50,
          Op.erase 2] = some t ∧
      t.size = 4 ∧ toList t.m_root = [(1, 10), (3, 30), (4, 40), (5, 50)] ∧
      t.rend = some e ∧
      reverse_iterator.deref t.m_root t.rbegin = Outcome.ok (5, 50) ∧
      reverse_iterator.preIncrement t.m_root t.rbegin = Outcome.ok r1 ∧
      reverse_iterator.deref t.m_root r1 = Outcome.ok (4, 40) ∧
      reverse_iterator.preIncrement t.m_root r1 = Outcome.ok r2 ∧
      r2.eq e = false ∧
      reverse_iterator.deref t.m_root r2 = Outcome.undefined ∧
      reverse_iterator.collect t.m_root (t.size + 1) t.rbegin e = Outcome.undefined :=
  ⟨_, _, _, _, rfl, rfl, rfl, rfl, rfl, rfl, rfl, rfl, rfl, rfl, rfl⟩

/-- Claim C18: on every tree, retreating `rbegin()` (prefix or postfix `--`) throws the same
`runtime_error` as incrementing the forward `end()` iterator, since it increments a base that
is at end. -/
theorem C18_retreat_rbegin_throws (t : AvlTree K V) :
    reverse_iterator.preDecrement t.m_root t.rbegin
      = Outcome.thrown "AvlTree::iterator: prefix increment called on end iterator!" ∧
    reverse_iterator.postDecrement t.m_root t.rbegin
      = Outcome.thrown "AvlTree::iterator: prefix increment called on end iterator!" ∧
    iterator.preIncrement t.m_root t.end
      = Outcome.thrown "AvlTree::iterator: prefix increment called on end iterator!" ∧
    t.rbegin.current = t.end :=
  ⟨rfl, rfl, rfl, rfl⟩

/-- Claim C19 fails in the code: insert 2, 1, 3 and erase 2.  In that reachable non-empty
tree the parent link of node 1 names the released node 2; `rend()` has its base at
`begin()`, node 1, and advancing it decrements the base through the dangling parent link:
the result is not defined, where the claim has it equal to `rbegin()`. -/
theorem C19_advance_rend_through_dangling_parent :
    ∃ t e, run ltNat (AvlTree.empty 0)
        [Op.insert 2 20, Op.insert 1 10, Op.insert 3 30, Op.erase 2] = some t ∧
      t.isEmpty = false ∧ t.rend = some e ∧
      e.current = iterator.mk (some 1) (some 2) ∧
      parentOf (leftOf t.m_root) = some 0 ∧ nodeAt 0 t.m_root = none ∧
      reverse_iterator.preIncrement t.m_root e = Outcome.undefined ∧
      reverse_iterator.postIncrement t.m_root e = Outcome.undefined :=
  ⟨_, _, rfl, rfl, rfl, rfl, rfl, rfl, rfl, rfl⟩

end Claims
end Avl
namespace Avl
section Lemmas
variable {K V : Type}

/-! ## The ends of the in-order sequence -/

theorem inorder_ne_nil (a : Nat) (k : K) (v : V) (p : Option Nat) (l r : Node K V) (h : Int) :
    inorder (Node.node a k v p l r h) ≠ [] := by
  simp

theorem getLast?_inorder_node (a : Nat) (k : K) (v : V) (p : Option Nat) (l r : Node K V)
    (h : Int) :
    ∃ x, (inorder (Node.node a k v p l r h)).getLast? = some x ∧ x.1 = rightmostAddr a r := by
  induction r generalizing a k v p l h with
  | nil => exact ⟨(a, k, v), by simp [List.getLast?_concat], rfl⟩
  | node ra rk rv rp rl rr rh _ ihr =>
    obtain ⟨x, hx, hx1⟩ := ihr ra rk rv rp rl rh
    refine ⟨x, ?_, hx1⟩
    rw [inorder_node, List.getLast?_append, List.getLast?_cons, hx]
    rfl

theorem head?_inorder_node (a : Nat) (k : K) (v : V) (p : Option Nat) (l r : Node K V)
    (h : Int) :
    ∃ x, (inorder (Node.node a k v p l r h)).head? = some x ∧ x.1 = leftmostAddr a l := by
  induction l generalizing a k v p r h with
  | nil => exact ⟨(a, k, v), rfl, rfl⟩
  | node la lk lv lp ll lr lh ihl _ =>
    obtain ⟨x, hx, hx1⟩ := ihl la lk lv lp lr lh
    refine ⟨x, ?_, hx1⟩
    rw [inorder_node, List.head?_append, hx]
    rfl

theorem lastAddrOr_inorder_node (lo : Option Nat) (a : Nat) (k : K) (v : V) (p : Option Nat)
    (l r : Node K V) (h : Int) :
    lastAddrOr lo (inorder (Node.node a k v p l r h)) = some (rightmostAddr a r) := by
  obtain ⟨x, hx, hx1⟩ := getLast?_inorder_node a k v p l r h
  unfold lastAddrOr
  rw [hx, ← hx1]

theorem mem_addrs_of_addrOf {n : Node K V} {a : Nat} (h : addrOf n = some a) : a ∈ addrs n := by
  cases n with
  | nil => simp [addrOf] at h
  | node b k v p l r ht =>
    simp only [addrOf, Option.some.injEq] at h
    subst h
    simp [addrs]

theorem mem_addrs_of_nodeAt {n m : Node K V} {a : Nat} (h : nodeAt a n = some m) :
    a ∈ addrs n := by
  obtain ⟨k, v, _, hm⟩ := nodeAt_some h
  exact List.mem_map_of_mem Prod.fst hm

theorem nodeAt_root (a : Nat) (k : K) (v : V) (p : Option Nat) (l r : Node K V) (h : Int)
    (hn : (addrs (Node.node a k v p l r h)).Nodup) :
    nodeAt a (Node.node a k v p l r h) = some (Node.node a k v p l r h) := by
  rw [addrs_node, List.nodup_append] at hn
  have h1 : a ∉ addrs l := fun h => hn.2.2 h (by simp)
  simp [nodeAt, nodeAt_eq_none h1]

/-! ## The predecessor read off the structure is the one of the in-order sequence -/

theorem takeWhile_append_of_exists {α : Type} (p : α → Bool) {L : List α} (X : List α)
    (h : ∃ x ∈ L, p x = false) : (L ++ X).takeWhile p = L.takeWhile p := by
  induction L with
  | nil => simp at h
  | cons a L ih =>
    by_cases hp : p a = true
    · simp only [List.cons_append, List.takeWhile_cons, hp, if_true]
      congr 1
      apply ih
      obtain ⟨x, hx, hpx⟩ := h
      rcases List.mem_cons.1 hx with rfl | hx
      · rw [hp] at hpx; cases hpx
      · exact ⟨x, hx, hpx⟩
    · simp [List.takeWhile_cons, hp]

theorem lastAddrOr_append_cons (lo : Option Nat) (L T : List (Nat × K × V)) (e : Nat × K × V) :
    lastAddrOr lo (L ++ e :: T) = lastAddrOr (some e.1) T := by
  unfold lastAddrOr
  rw [List.getLast?_append, List.getLast?_cons]
  cases T.getLast? <;> rfl

theorem predIn_eq (lo : Option Nat) (s : Node K V) (y : Nat) :
    predIn lo s y =
      if y ∈ addrs s then
        some (lastAddrOr lo ((inorder s).takeWhile fun x => x.1 != y))
      else none := by
  induction s generalizing lo with
  | nil => simp [predIn, addrs]
  | node a k v p l r h ihl ihr =>
    unfold predIn
    rw [ihl lo, ihr (some a), addrs_node]
    by_cases hl : y ∈ addrs l
    · have hex : ∃ x ∈ inorder l, (fun x : Nat × K × V => x.1 != y) x = false := by
        obtain ⟨x, hx, rfl⟩ := List.mem_map.1 hl
        exact ⟨x, hx, by simp⟩
      simp only [if_pos hl, inorder_node, List.mem_append, hl, true_or, if_true,
        takeWhile_append_of_exists _ _ hex]
    · have hall : ∀ x ∈ inorder l, (fun x : Nat × K × V => x.1 != y) x = true := by
        intro x hx
        have : x.1 ≠ y := fun h => hl (h ▸ List.mem_map_of_mem Prod.fst hx)
        simpa using this
      simp only [if_neg hl, inorder_node, List.takeWhile_append_of_pos hall]
      by_cases ha : a = y
      · subst ha
        simp [List.takeWhile_cons]
      · have hya : ¬ y = a := fun h => ha h.symm
        by_cases hr : y ∈ addrs r
        · simp only [if_neg ha, if_pos hr, List.mem_append, List.mem_cons, hr, or_true,
            if_true]
          have : (a != y) = true := by simpa using ha
          rw [List.takeWhile_cons, if_pos (by simpa using ha), lastAddrOr_append_cons]
        · simp [if_neg ha, if_neg hr, hl, hya, hr]

theorem predIn_of_split {H : Node K V} (hn : (addrs H).Nodup) (lo : Option Nat)
    {A B : List (Nat × K × V)} {y : Nat × K × V} (hx : inorder H = A ++ y :: B) :
    predIn lo H y.1 = some (lastAddrOr lo A) := by
  have hmem : y.1 ∈ addrs H := by simp [addrs, hx]
  rw [predIn_eq, if_pos hmem, hx]
  have hn2 : ((A ++ y :: B).map Prod.fst).Nodup := by rw [← hx]; exact hn
  rw [List.map_append, List.map_cons, List.nodup_append] at hn2
  have hall : ∀ x ∈ A, (fun x : Nat × K × V => x.1 != y.1) x = true := by
    intro x hxA
    have : x.1 ≠ y.1 := fun h =>
      hn2.2.2 (List.mem_map_of_mem Prod.fst hxA) (by simp [h])
    simpa using this
  rw [List.takeWhile_append_of_pos hall]
  simp [List.takeWhile_cons]

end Lemmas
end Avl
namespace Avl
section Lemmas
variable {K V : Type}

/-! ## `decrement` on a tree with coherent parent links -/

theorem climbLeft_none (H : Node K V) (fuel node : Nat) :
    iterator.climbLeft H fuel node none = Outcome.ok none := by
  cases fuel <;> rfl

theorem decrement_eq_predIn (H : Node K V) (s : Node K V) :
    ∀ (p lo : Option Nat) (c : Nat),
      (∀ a n, nodeAt a s = some n → nodeAt a H = some n) →
      ParentOK p s → (addrs s).Nodup →
      (∀ a, addrOf s = some a → ∀ fuel, c ≤ fuel →
        iterator.climbLeft H fuel a p = Outcome.ok lo) →
      c + numNodes s ≤ numNodes H →
      ∀ y res, predIn lo s y = some res → iterator.decrement H y = Outcome.ok res := by
  induction s with
  | nil =>
    intro p lo c _ _ _ _ _ y res h
    simp [predIn] at h
  | node a k v q l r h ihl ihr =>
    intro p lo c hE hP hN hC hF y res hres
    obtain ⟨hq, hPl, hPr⟩ := hP
    subst hq
    have hself := nodeAt_root a k v q l r h hN
    have hHa := hE a _ hself
    have hN2 := hN
    rw [addrs_node, List.nodup_append] at hN2
    obtain ⟨hNl, hNr, hdj⟩ := hN2
    rw [List.nodup_cons] at hNr
    have hsize : numNodes (Node.node a k v q l r h) = numNodes l + 1 + numNodes r := rfl
    unfold predIn at hres
    cases e : predIn lo l y with
    | some r0 =>
      rw [e] at hres
      simp only [Option.some.injEq] at hres
      subst hres
      refine ihl (some a) lo (c + 1) ?_ hPl hNl ?_ (by omega) y r0 e
      · intro b n hb
        apply hE
        simp [nodeAt, hb]
      · intro la hla fuel hfuel
        obtain ⟨f, rfl⟩ : ∃ f, fuel = f + 1 := ⟨fuel - 1, by omega⟩
        unfold iterator.climbLeft
        simp only [hHa, leftOf, hla, if_true, parentOf]
        exact hC a rfl f (by omega)
    | none =>
      rw [e] at hres
      simp only at hres
      by_cases ha : a = y
      · subst ha
        rw [if_pos rfl] at hres
        simp only [Option.some.injEq] at hres
        subst hres
        unfold iterator.decrement
        rw [hHa]
        cases l with
        | nil =>
          simp only [parentOf]
          rw [hC a rfl (numNodes H) (by omega)]
          rfl
        | node la lk lv lp ll lr lh =>
          simp only [lastAddrOr_inorder_node]
      · rw [if_neg ha] at hres
        refine ihr (some a) (some a) 1 ?_ hPr hNr.2 ?_ (by omega) y res hres
        · intro b n hb
          apply hE
          have hbr := mem_addrs_of_nodeAt hb
          have h1 : b ∉ addrs l := fun h => hdj h (by simp [hbr])
          have h2 : a ≠ b := fun h => hNr.1 (h ▸ hbr)
          simp [nodeAt, nodeAt_eq_none h1, h2, hb]
        · intro ra hra fuel hfuel
          obtain ⟨f, rfl⟩ : ∃ f, fuel = f + 1 := ⟨fuel - 1, by omega⟩
          unfold iterator.climbLeft
          have hne : addrOf l ≠ some ra := fun h =>
            hdj (mem_addrs_of_addrOf h) (by simp [mem_addrs_of_addrOf hra])
          simp only [hHa, leftOf, if_neg hne]

theorem decrement_of_split {H : Node K V} (hn : (addrs H).Nodup) (hp : ParentOK none H)
    {A B : List (Nat × K × V)} {y : Nat × K × V} (hx : inorder H = A ++ y :: B) :
    iterator.decrement H y.1 = Outcome.ok (lastAddrOr none A) := by
  refine decrement_eq_predIn H H none none 0 (fun _ _ h => h) hp hn ?_ (by omega) y.1 _
    (predIn_of_split hn none hx)
  intro a _ fuel _
  exact climbLeft_none H fuel a

theorem preDecrement_of_first {H : Node K V} (hn : (addrs H).Nodup) (hp : ParentOK none H)
    {B : List (Nat × K × V)} {y : Nat × K × V} (hx : inorder H = y :: B) (r : Option Nat) :
    iterator.preDecrement H (iterator.mk (some y.1) r) = Outcome.ok (iterator.mk none r) := by
  have h := decrement_of_split hn hp (A := []) (by simpa using hx)
  simp [iterator.preDecrement, h, lastAddrOr]

theorem preDecrement_of_next {H : Node K V} (hn : (addrs H).Nodup) (hp : ParentOK none H)
    {A B : List (Nat × K × V)} {x y : Nat × K × V} (hx : inorder H = A ++ x :: y :: B)
    (r : Option Nat) :
    iterator.preDecrement H (iterator.mk (some y.1) r)
      = Outcome.ok (iterator.mk (some x.1) r) := by
  have h := decrement_of_split hn hp (A := A ++ [x]) (by simpa using hx)
  have hne : x.1 ≠ y.1 := by
    have hn2 : ((A ++ x :: y :: B).map Prod.fst).Nodup := by rw [← hx]; exact hn
    rw [List.map_append, List.nodup_append] at hn2
    have := hn2.2.1
    simp only [List.map_cons, List.nodup_cons, List.mem_cons, not_or] at this
    exact this.1.1
  have hl : lastAddrOr none (A ++ [x]) = some x.1 := by
    simp [lastAddrOr, List.getLast?_concat]
  simp [iterator.preDecrement, h, hl, hne]

theorem preDecrement_end {t : AvlTree K V} (hn : (addrs t.m_root).Nodup)
    (hne : t.m_root ≠ Node.nil) :
    ∃ x, (inorder t.m_root).getLast? = some x ∧
      iterator.preDecrement t.m_root t.end
        = Outcome.ok (iterator.mk (some x.1) (addrOf t.m_root)) := by
  cases hr : t.m_root with
  | nil => exact absurd hr hne
  | node a k v p l r h =>
    rw [hr] at hn
    obtain ⟨x, hx, hx1⟩ := getLast?_inorder_node a k v p l r h
    refine ⟨x, hx, ?_⟩
    simp [iterator.preDecrement, AvlTree.end, hr, addrOf, nodeAt_root a k v p l r h hn, rightOf,
      hx1]

theorem begin_of_nonempty {t : AvlTree K V} (he : t.isEmpty = false)
    (hc : t.m_nodeCount = numNodes t.m_root) :
    ∃ y B, inorder t.m_root = y :: B ∧
      t.begin = some (iterator.mk (some y.1) (addrOf t.m_root)) := by
  cases hr : t.m_root with
  | nil =>
    rw [hr] at hc
    simp [AvlTree.isEmpty, AvlTree.size, hc, numNodes] at he
  | node a k v p l r h =>
    obtain ⟨x, hx, hx1⟩ := head?_inorder_node a k v p l r h
    cases hi : inorder (Node.node a k v p l r h) with
    | nil => exact absurd hi (inorder_ne_nil a k v p l r h)
    | cons y B =>
      rw [hi] at hx
      simp only [List.head?_cons, Option.some.injEq] at hx
      subst hx
      exact ⟨y, B, rfl, by simp [AvlTree.begin, he, hr, addrOf, hx1]⟩

end Lemmas
end Avl
namespace Avl
section Lemmas
variable {K V : Type}

theorem sample3_wellFormed : WellFormed ltNat sample3 :=
  ⟨(reachable_inv strictWeakOrder_ltNat sample3_reachable).bst,
    (reachable_inv strictWeakOrder_ltNat sample3_reachable).nodup,
    ⟨rfl, ⟨rfl, trivial, trivial⟩, ⟨rfl, trivial, trivial⟩⟩, rfl⟩

end Lemmas

section Claims
variable {K V : Type}

/-- Claim C17: `--it` never throws.  On a non-empty well-formed tree (BST ordering, distinct
node addresses, coherent parent links, coherent size) decrementing `begin()` yields `end()`;
decrementing `end()` yields the iterator at the last entry of the in-order sequence, which
holds the maximum key; and decrementing the position of any other entry yields the position
of the entry just before it in the in-order sequence, which holds the next smaller key. -/
theorem C17_decrement_on_well_formed {lt : K → K → Bool} (hlt : StrictWeakOrder lt)
    (t : AvlTree K V) (hw : WellFormed lt t) (hne : t.isEmpty = false) :
    (∀ it w, iterator.preDecrement t.m_root it ≠ Outcome.thrown w) ∧
    (∃ b, t.begin = some b ∧ iterator.preDecrement t.m_root b = Outcome.ok t.end) ∧
    (∃ m kv, iterator.preDecrement t.m_root t.end = Outcome.ok m ∧
      m.deref t.m_root = some kv ∧ (toList t.m_root).getLast? = some kv ∧
      ∀ z ∈ toList t.m_root, z = kv ∨ lt z.1 kv.1 = true) ∧
    (∀ A x y B r, inorder t.m_root = A ++ x :: y :: B →
      iterator.preDecrement t.m_root (iterator.mk (some y.1) r)
        = Outcome.ok (iterator.mk (some x.1) r) ∧
      (iterator.mk (some x.1) r).deref t.m_root = some x.2 ∧
      lt x.2.1 y.2.1 = true ∧
      ∀ z ∈ inorder t.m_root, ¬ (lt x.2.1 z.2.1 = true ∧ lt z.2.1 y.2.1 = true)) := by
  have hs := sorted_of_BST hlt hw.bst
  refine ⟨fun it w => preDecrement_not_thrown _ it w, ?_, ?_, ?_⟩
  · obtain ⟨y, B, hx, hb⟩ := begin_of_nonempty hne hw.count
    exact ⟨_, hb, preDecrement_of_first hw.nodup hw.parents hx _⟩
  · have hroot : t.m_root ≠ Node.nil := by
      intro h
      have hc := hw.count
      rw [h] at hc
      simp [AvlTree.isEmpty, AvlTree.size, hc, numNodes] at hne
    obtain ⟨x, hx, hd⟩ := preDecrement_end hw.nodup hroot
    obtain ⟨ys, hys⟩ := List.getLast?_eq_some_iff.1 hx
    have hmem : x ∈ inorder t.m_root := by rw [hys]; simp
    obtain ⟨a, k, v⟩ := x
    refine ⟨_, (k, v), hd, deref_of_mem hw.nodup hmem, ?_, ?_⟩
    · simp [toList, List.getLast?_map, hx]
    · rw [hys, List.pairwise_append] at hs
      intro z hz
      simp only [toList, hys, List.map_append, List.map_cons, List.map_nil, List.mem_append,
        List.mem_map, List.mem_singleton] at hz
      rcases hz with ⟨w, hw1, rfl⟩ | rfl
      · exact Or.inr (hs.2.2 w hw1 _ (List.mem_singleton_self _))
      · exact Or.inl rfl
  · intro A x y B r hx
    have hmem : x ∈ inorder t.m_root := by rw [hx]; simp
    obtain ⟨xa, xk, xv⟩ := x
    refine ⟨preDecrement_of_next hw.nodup hw.parents hx r, deref_of_mem hw.nodup hmem, ?_, ?_⟩
    · rw [hx, List.pairwise_append, List.pairwise_cons] at hs
      exact hs.2.1.1 y (List.mem_cons_self _ _)
    · rw [hx, List.pairwise_append, List.pairwise_cons, List.pairwise_cons] at hs
      obtain ⟨_, ⟨hxB, hyB, _⟩, hA⟩ := hs
      intro z hz hb
      rw [hx] at hz
      rcases List.mem_append.1 hz with h | h
      · have := hlt.asymm (hA z h _ (List.mem_cons_self _ _))
        rw [hb.1] at this
        cases this
      · rcases List.mem_cons.1 h with rfl | h
        · rw [hlt.irrefl] at hb
          exact absurd hb.1 (by simp)
        · rcases List.mem_cons.1 h with rfl | h
          · rw [hlt.irrefl] at hb
            exact absurd hb.2 (by simp)
          · have := hlt.asymm (hyB z h)
            rw [hb.2] at this
            cases this

/-- A concrete instance of C17: the tree holding 1, 2, 3 with coherent parent links. -/
theorem C17_witness :
    StrictWeakOrder ltNat ∧ WellFormed ltNat sample3 ∧ sample3.isEmpty = false ∧
    ((∀ it w, iterator.preDecrement sample3.m_root it ≠ Outcome.thrown w) ∧
    (∃ b, sample3.begin = some b ∧
      iterator.preDecrement sample3.m_root b = Outcome.ok sample3.end) ∧
    (∃ m kv, iterator.preDecrement sample3.m_root sample3.end = Outcome.ok m ∧
      m.deref sample3.m_root = some kv ∧ (toList sample3.m_root).getLast? = some kv ∧
      ∀ z ∈ toList sample3.m_root, z = kv ∨ ltNat z.1 kv.1 = true) ∧
    (∀ A x y B r, inorder sample3.m_root = A ++ x :: y :: B →
      iterator.preDecrement sample3.m_root (iterator.mk (some y.1) r)
        = Outcome.ok (iterator.mk (some x.1) r) ∧
      (iterator.mk (some x.1) r).deref sample3.m_root = some x.2 ∧
      ltNat x.2.1 y.2.1 = true ∧
      ∀ z ∈ inorder sample3.m_root,
        ¬ (ltNat x.2.1 z.2.1 = true ∧ ltNat z.2.1 y.2.1 = true))) :=
  ⟨strictWeakOrder_ltNat, sample3_wellFormed, rfl,
    C17_decrement_on_well_formed strictWeakOrder_ltNat sample3 sample3_wellFormed rfl⟩

end Claims
end Avl
namespace Avl
section Lemmas
variable {K V : Type}

/-! ## Rendering -/

theorem printMarker_eq_specPrefix (d : Nat) : printMarker (6 * (d : Int)) = specPrefix d := by
  have h6 : (6 * (d : Int)).toNat = 6 * d := by omega
  unfold printMarker specPrefix
  rw [h6]
  cases d with
  | zero => rfl
  | succ n =>
    have : 6 * (n + 1) = (6 * (n + 1) - 1) + 1 := by omega
    rw [if_neg (by omega), this, List.range_succ_eq_map]
    simp only [List.map_cons, List.map_map, if_true]
    congr 1
    rw [List.eq_replicate_iff]
    refine ⟨by simp, ?_⟩
    intro b hb
    simp only [List.mem_map, List.mem_range, Function.comp] at hb
    obtain ⟨i, _, rfl⟩ := hb
    simp

theorem joinTrailing_append (sep : List Char) (xs ys : List (List Char)) :
    joinTrailing sep (xs ++ ys) = joinTrailing sep xs ++ joinTrailing sep ys := by
  induction xs with
  | nil => rfl
  | cons x xs ih => simp [joinTrailing, ih]

theorem joinTrailing_eq_joinWith (sep : List Char) (x : List Char) (xs : List (List Char)) :
    joinTrailing sep (x :: xs) = joinWith sep (x :: xs) ++ sep := by
  induction xs generalizing x with
  | nil => simp [joinTrailing, joinWith]
  | cons y ys ih =>
    rw [joinTrailing, ih y, joinWith]
    simp

theorem popBackTimes_append (n : Nat) (s u : List Char) (h : u.length = n) :
    popBackTimes n (s ++ u) = some s := by
  induction n generalizing u with
  | zero =>
    have : u = [] := List.length_eq_zero.1 h
    subst this
    simp [popBackTimes]
  | succ n ih =>
    have hu : u ≠ [] := by
      intro h0
      subst h0
      simp at h
    cases hsu : s ++ u with
    | nil =>
      have := (List.append_eq_nil.1 hsu).2
      exact absurd this hu
    | cons c cs =>
      rw [popBackTimes, ← hsu, List.dropLast_append_of_ne_nil _ hu]
      exact ih (List.dropLast u) (by simp [h])

theorem printTree_eq (showK : K → String) (showV : V → String) (n : Node K V) :
    ∀ d : Nat, 6 * ((d : Int) + (trueHeight n : Int)) ≤ INT_MAX →
      printTree showK showV n (6 * (d : Int))
        = some (joinTrailing "\n|\n|\n".data
            ((inorderDepth n d).map (specEntry showK showV))) := by
  induction n with
  | nil => intro d _; rfl
  | node a k v p l r h ihl ihr =>
    intro d hd
    have hmax : trueHeight (Node.node a k v p l r h)
        = max (trueHeight l) (trueHeight r) + 1 := rfl
    have hl : trueHeight l ≤ max (trueHeight l) (trueHeight r) := le_max_left _ _
    have hr : trueHeight r ≤ max (trueHeight l) (trueHeight r) := le_max_right _ _
    rw [hmax] at hd
    have e6 : 6 * (d : Int) + 6 = 6 * ((d + 1 : Nat) : Int) := by push_cast; ring
    have h1 : 6 * (d : Int) + 6 ≤ INT_MAX := by push_cast at hd; omega
    have h2 := ihl (d + 1) (by push_cast at hd ⊢; omega)
    have h3 := ihr (d + 1) (by push_cast at hd ⊢; omega)
    rw [printTree, if_pos h1, e6, h2, h3]
    simp only [Option.some_bind, inorderDepth, List.map_append, List.map_cons,
      joinTrailing_append, joinTrailing, specEntry, printMarker_eq_specPrefix]
    simp

theorem length_inorderDepth (n : Node K V) (d : Nat) :
    (inorderDepth n d).length = numNodes n := by
  induction n generalizing d with
  | nil => rfl
  | node a k v p l r h ihl ihr => simp [inorderDepth, numNodes, ihl, ihr]; omega

end Lemmas

section Claims
variable {K V : Type}

/-- Claim C20: the text written for a tree (with a coherent size, and not so deep that `depth`
leaves the range of `int`) is the reference rendering: `"Empty AvlTree"` for the empty tree;
otherwise the nodes in in-order, each as marker, key, `" => "`, value, the marker being empty
at depth 0 and one `'|'` followed by `6 * d - 1` characters `'='` at depth `d`, with
newline, `'|'`, newline, `'|'`, newline between consecutive entries and nothing after the
last one; there are `size()` entries. -/
theorem C20_render_eq_reference (showK : K → String) (showV : V → String) (t : AvlTree K V)
    (hc : t.m_nodeCount = numNodes t.m_root)
    (hd : 6 * (trueHeight t.m_root : Int) ≤ INT_MAX) :
    t.render showK showV = some (renderSpec showK showV t.m_root) ∧
      (inorderDepth t.m_root 0).length = t.size := by
  refine ⟨?_, by rw [length_inorderDepth, AvlTree.size, hc]⟩
  cases hr : t.m_root with
  | nil =>
    rw [hr] at hc
    simp [AvlTree.render, AvlTree.isEmpty, AvlTree.size, hc, numNodes, renderSpec]
  | node a k v p l r h =>
    rw [hr] at hc hd
    have he : t.isEmpty = false := by
      simp [AvlTree.isEmpty, AvlTree.size, hc, numNodes]
    have hp := printTree_eq showK showV (Node.node a k v p l r h) 0 (by simpa using hd)
    simp only [Nat.cast_zero, mul_zero] at hp
    have hne : (inorderDepth (Node.node a k v p l r h) 0).map (specEntry showK showV) ≠ [] := by
      intro h0
      have := congrArg List.length h0
      simp [length_inorderDepth, numNodes] at this
    cases hxs : (inorderDepth (Node.node a k v p l r h) 0).map (specEntry showK showV) with
    | nil => exact absurd hxs hne
    | cons x xs =>
      rw [hxs, joinTrailing_eq_joinWith] at hp
      simp only [AvlTree.render, he, hr, hp, Option.some_bind, renderSpec, hxs]
      rw [popBackTimes_append 5 (joinWith "\n|\n|\n".data (x :: xs)) "\n|\n|\n".data rfl]
      rfl

/-- A concrete instance of C20: the tree holding 1, 2, 3, keys and values written in
decimal. -/
theorem C20_witness :
    sample3.m_nodeCount = numNodes sample3.m_root ∧
    6 * (trueHeight sample3.m_root : Int) ≤ INT_MAX ∧
    (sample3.render (fun k => toString k) (fun v => toString v)
        = some (renderSpec (fun k => toString k) (fun v => toString v) sample3.m_root) ∧
      (inorderDepth sample3.m_root 0).length = sample3.size) :=
  ⟨rfl, by decide,
    C20_render_eq_reference (fun k => toString k) (fun v => toString v) sample3 rfl
      (by decide)⟩

end Claims
end Avl
namespace Avl
section Claims
variable {K V : Type}

/-- Claim C21: inserting (4,2), (8,4), (16,8), (20,10), (40,20) in that order into an empty
`int` map gives size 5, `find(16)` yields value 8, and the rendered text is the one of the
spec. -/
theorem C21_scenario_five_inserts :
    ∃ t, run ltInt (AvlTree.empty 0)
        [Op.insert 4 2, Op.insert 8 4, Op.insert 16 8, Op.insert 20 10, Op.insert 40 20]
        = some t ∧
      t.size = 5 ∧ t.isEmpty = false ∧
      (t.find ltInt 16).deref t.m_root = some (16, 8) ∧
      shapeOf t.m_root
        = Shape.node (Shape.node Shape.leaf 4 Shape.leaf) 8
            (Shape.node (Shape.node Shape.leaf 16 Shape.leaf) 20
              (Shape.node Shape.leaf 40 Shape.leaf)) ∧
      t.render (fun k => toString k) (fun v => toString v)
        = some ("|=====4 => 2\n|\n|\n8 => 4\n|\n|\n|===========16 => 8\n|\n|\n" ++
            "|=====20 => 10\n|\n|\n|===========40 => 20") :=
  ⟨_, rfl, rfl, rfl, rfl, rfl, rfl⟩

/-- Claim C22: inserting the keys 1 to 10 (value = key) in increasing order and erasing key 9
returns an iterator whose element is (10, 10), leaves size 9, makes `find(9)` return `end`,
and leaves the tree shaped 4(2(1,3), 8(6(5,7), 10)), rendered as the test asserts. -/
theorem C22_scenario_erase_nine :
    ∃ t t1 it, run ltInt (AvlTree.empty 0)
        [Op.insert 1 1, Op.insert 2 2, Op.insert 3 3, Op.insert 4 4, Op.insert 5 5,
          Op.insert 6 6, Op.insert 7 7, Op.insert 8 8, Op.insert 9 9, Op.insert 10 10]
        = some t ∧
      t.erase ltInt 9 = some (t1, Outcome.ok it) ∧
      it.deref t1.m_root = some (10, 10) ∧
      t1.size = 9 ∧ t1.find ltInt 9 = t1.end ∧
      shapeOf t1.m_root
        = Shape.node
            (Shape.node (Shape.node Shape.leaf 1 Shape.leaf) 2
              (Shape.node Shape.leaf 3 Shape.leaf)) 4
            (Shape.node
              (Shape.node (Shape.node Shape.leaf 5 Shape.leaf) 6
                (Shape.node Shape.leaf 7 Shape.leaf)) 8
              (Shape.node Shape.leaf 10 Shape.leaf)) ∧
      t1.render (fun k => toString k) (fun v => toString v)
        = some ("|===========1 => 1\n|\n|\n|=====2 => 2\n|\n|\n|===========3 => 3\n|\n|\n" ++
            "4 => 4\n|\n|\n|=================5 => 5\n|\n|\n|===========6 => 6\n|\n|\n" ++
            "|=================7 => 7\n|\n|\n|=====8 => 8\n|\n|\n|===========10 => 10") :=
  ⟨_, _, _, rfl, rfl, rfl, rfl, rfl, rfl, rfl⟩

end Claims
end Avl
namespace Avl
section Claims
variable {K V : Type}

/-- Claim C23: inserting the `char` keys M, N, O, L, K, Q, P, H, I, A (value = key) in that
order gives, after M, N, O / then L, K / then Q, P / then H, I / then A, the five renderings
the test asserts, that is the shapes N(M,O); N(L(K,M),O); N(L(K,M),P(O,Q));
N(L(I(H,K),M),P(O,Q)); N(I(H(A),L(K,M)),P(O,Q)). -/
theorem C23_scenario_rotations :
    ∃ t1 t2 t3 t4 t5,
      run ltChar (AvlTree.empty 0)
        [Op.insert 'M' 'M', Op.insert 'N' 'N', Op.insert 'O' 'O'] = some t1 ∧
      run ltChar t1 [Op.insert 'L' 'L', Op.insert 'K' 'K'] = some t2 ∧
      run ltChar t2 [Op.insert 'Q' 'Q', Op.insert 'P' 'P'] = some t3 ∧
      run ltChar t3 [Op.insert 'H' 'H', Op.insert 'I' 'I'] = some t4 ∧
      run ltChar t4 [Op.insert 'A' 'A'] = some t5 ∧
      shapeOf t1.m_root
        = Shape.node (Shape.node Shape.leaf 'M' Shape.leaf) 'N'
            (Shape.node Shape.leaf 'O' Shape.leaf) ∧
      t1.render String.singleton String.singleton
        = some "|=====M => M\n|\n|\nN => N\n|\n|\n|=====O => O" ∧
      shapeOf t2.m_root
        = Shape.node
            (Shape.node (Shape.node Shape.leaf 'K' Shape.leaf) 'L'
              (Shape.node Shape.leaf 'M' Shape.leaf)) 'N'
            (Shape.node Shape.leaf 'O' Shape.leaf) ∧
      t2.render String.singleton String.singleton
        = some ("|===========K => K\n|\n|\n|=====L => L\n|\n|\n|===========M => M\n|\n|\n" ++
            "N => N\n|\n|\n|=====O => O") ∧
      shapeOf t3.m_root
        = Shape.node
            (Shape.node (Shape.node Shape.leaf 'K' Shape.leaf) 'L'
              (Shape.node Shape.leaf 'M' Shape.leaf)) 'N'
            (Shape.node (Shape.node Shape.leaf 'O' Shape.leaf) 'P'
              (Shape.node Shape.leaf 'Q' Shape.leaf)) ∧
      t3.render String.singleton String.singleton
        = some ("|===========K => K\n|\n|\n|=====L => L\n|\n|\n|===========M => M\n|\n|\n" ++
            "N => N\n|\n|\n|===========O => O\n|\n|\n|=====P => P\n|\n|\n" ++
            "|===========Q => Q") ∧
      shapeOf t4.m_root
        = Shape.node
            (Shape.node
              (Shape.node (Shape.node Shape.leaf 'H' Shape.leaf) 'I'
                (Shape.node Shape.leaf 'K' Shape.leaf)) 'L'
              (Shape.node Shape.leaf 'M' Shape.leaf)) 'N'
            (Shape.node (Shape.node Shape.leaf 'O' Shape.leaf) 'P'
              (Shape.node Shape.leaf 'Q' Shape.leaf)) ∧
      t4.render String.singleton String.singleton
        = some ("|=================H => H\n|\n|\n|===========I => I\n|\n|\n" ++
            "|=================K => K\n|\n|\n|=====L => L\n|\n|\n|===========M => M\n|\n|\n" ++
            "N => N\n|\n|\n|===========O => O\n|\n|\n|=====P => P\n|\n|\n" ++
            "|===========Q => Q") ∧
      shapeOf t5.m_root
        = Shape.node
            (Shape.node
              (Shape.node (Shape.node Shape.leaf 'A' Shape.leaf) 'H' Shape.leaf) 'I'
              (Shape.node (Shape.node Shape.leaf 'K' Shape.leaf) 'L'
                (Shape.node Shape.leaf 'M' Shape.leaf))) 'N'
            (Shape.node (Shape.node Shape.leaf 'O' Shape.leaf) 'P'
              (Shape.node Shape.leaf 'Q' Shape.leaf)) ∧
      t5.render String.singleton String.singleton
        = some ("|=================A => A\n|\n|\n|===========H => H\n|\n|\n|=====I => I\n|\n|\n" ++
            "|=================K => K\n|\n|\n|===========L => L\n|\n|\n" ++
            "|=================M => M\n|\n|\nN => N\n|\n|\n|===========O => O\n|\n|\n" ++
            "|=====P => P\n|\n|\n|===========Q => Q") :=
  ⟨_, _, _, _, _, rfl, rfl, rfl, rfl, rfl, rfl, rfl, rfl, rfl, rfl, rfl, rfl, rfl, rfl, rfl⟩

/-- Claim C24 fails in the code: insert 2, 1, 3 and erase 2.  `detachNode` leaves the parent
link of node 1 naming the released node.  Copying that reachable tree, which holds (1, 10)
and (3, 30), walks it with `++`: after `insert(1, 10)` the step from node 1 climbs through the
dangling parent link, so neither the copy constructor nor the copy assignment has a defined
result.  On the tree holding 1, 2, 3 built by inserts alone the copy is the tree the claim
describes. -/
theorem C24_copy_through_dangling_parent :
    (∃ t, run ltNat (AvlTree.empty 0)
        [Op.insert 2 20, Op.insert 1 10, Op.insert 3 30, Op.erase 2] = some t ∧
      toList t.m_root = [(1, 10), (3, 30)] ∧ t.size = 2 ∧
      parentOf (leftOf t.m_root) = some 0 ∧ nodeAt 0 t.m_root = none ∧
      AvlTree.copyConstruct ltNat t = Outcome.undefined ∧
      AvlTree.copyAssign ltNat sample3 t = Outcome.undefined) ∧
    (∃ c, AvlTree.copyConstruct ltNat sample3 = Outcome.ok c ∧
      toList c.m_root = toList sample3.m_root ∧ c.size = sample3.size ∧
      AvlTree.insertRange ltNat (AvlTree.empty sample3.heapTop) (toList sample3.m_root)
        = some c) :=
  ⟨⟨_, rfl, rfl, rfl, rfl, rfl, rfl, rfl⟩, ⟨_, rfl, rfl, rfl, rfl⟩⟩

/-- Claim C26 fails in the code: insert 2, 1, 3 and erase 2.  `detachNode` puts node 3 (at
address 2) in the place of node 2 (at address 0) and does not re-point the parent link of the
left child it inherits: node 1 is the left child of the node at address 2, and its parent
link still names address 0, where no node lives any more. -/
theorem C26_parent_link_dangling_after_erase :
    ∃ t, run ltNat (AvlTree.empty 0)
        [Op.insert 2 20, Op.insert 1 10, Op.insert 3 30, Op.erase 2] = some t ∧
      addrOf t.m_root = some 2 ∧ keyValuePair t.m_root = some (3, 30) ∧
      keyValuePair (leftOf t.m_root) = some (1, 10) ∧
      parentOf (leftOf t.m_root) = some 0 ∧ nodeAt 0 t.m_root = none ∧
      ¬ ParentOK none t.m_root :=
  ⟨_, rfl, rfl, rfl, rfl, rfl, rfl,
    fun h => absurd (show (some 0 : Option Nat) = some 2 from h.2.1.1) (by decide)⟩

/-- Claim C27 fails in the code: insert 2, 1, 4, 3 and erase 2.  `detachLeftmostNode` takes
node 3 out from under node 4 and does not recompute the height of node 4: in the resulting
tree node 4 is a leaf whose cached height is 2, and the root's cached height is 3 on a tree
of true height 2. -/
theorem C27_cached_height_stale_after_erase :
    ∃ t, run ltNat (AvlTree.empty 0)
        [Op.insert 2 20, Op.insert 1 10, Op.insert 4 40, Op.insert 3 30, Op.erase 2]
        = some t ∧
      shapeOf t.m_root
        = Shape.node (Shape.node Shape.leaf 1 Shape.leaf) 3 (Shape.node Shape.leaf 4 Shape.leaf) ∧
      leftOf (rightOf t.m_root) = Node.nil ∧ rightOf (rightOf t.m_root) = Node.nil ∧
      heightOf (rightOf t.m_root) = 2 ∧
      heightOf t.m_root = 3 ∧ trueHeight t.m_root = 2 ∧
      ¬ HeightCoherent t.m_root :=
  ⟨_, rfl, rfl, rfl, rfl, rfl, rfl, rfl,
    fun h => absurd (show (2 : Int) = 1 + max 0 0 from h.2.2.1) (by decide)⟩

/-- Claim C28 fails in the code: insert 2, 1, 4, 3, 5, erase 1, insert 6.  The erase leaves the
root with balance factor -2 (its right child has factor 0, which `balance` has no branch
for).  `insert(6, 60)` then makes the right subtree one higher, and the call of `balance` on
the root, the last one of `insertImpl`, computes the balance factor -3 and returns the node
unchanged. -/
theorem C28_balance_factor_minus_three :
    ∃ t r it, run ltNat (AvlTree.empty 0)
        [Op.insert 2 20, Op.insert 1 10, Op.insert 4 40, Op.insert 3 30, Op.insert 5 50,
          Op.erase 1] = some t ∧
      calculateBalanceFactor t.m_root = -2 ∧
      insertImpl ltNat 6 60 t.heapTop false t.m_root = some (r, it, true) ∧
      calculateBalanceFactor r = -3 ∧ balance r = some r ∧
      shapeOf r
        = Shape.node Shape.leaf 2
            (Shape.node (Shape.node Shape.leaf 3 Shape.leaf) 4
              (Shape.node Shape.leaf 5 (Shape.node Shape.leaf 6 Shape.leaf))) ∧
      (t.insert ltNat 6 60).map (fun res => res.1.m_root) = some r :=
  ⟨_, _, _, rfl, rfl, rfl, rfl, rfl, rfl, rfl⟩

/-- Claim C29 fails in the code: insert 2, 1, 4, 3, 5, erase 1, insert 6.  The resulting
reachable tree 2(-, 4(3, 5(-, 6))) has true height 4 and holds 5 elements, fewer than
Fib(4 + 2) - 1 = 7. -/
theorem C29_height_four_with_five_elements :
    ∃ t, run ltNat (AvlTree.empty 0)
        [Op.insert 2 20, Op.insert 1 10, Op.insert 4 40, Op.insert 3 30, Op.insert 5 50,
          Op.erase 1, Op.insert 6 60] = some t ∧
      shapeOf t.m_root
        = Shape.node Shape.leaf 2
            (Shape.node (Shape.node Shape.leaf 3 Shape.leaf) 4
              (Shape.node Shape.leaf 5 (Shape.node Shape.leaf 6 Shape.leaf))) ∧
      trueHeight t.m_root = 4 ∧ t.size = 5 ∧ numNodes t.m_root = 5 ∧
      Nat.fib (trueHeight t.m_root + 2) - 1 = 7 :=
  ⟨_, rfl, rfl, rfl, rfl, rfl, rfl⟩

/-- Claim C30: `clear()` on any tree gives the empty tree: `size()` is 0, `empty()` holds,
`begin()` is `end()`, `rbegin()` is `rend()`, and `find(k)` returns `end` for every key; it is
the default-constructed tree, which has the same observable state. -/
theorem C30_clear_gives_empty_tree (lt : K → K → Bool) (t : AvlTree K V) (top : Nat) :
    (t.clear.size = 0 ∧ t.clear.isEmpty = true ∧ t.clear.m_root = Node.nil ∧
      t.clear.begin = some t.clear.end ∧ t.clear.rend = some t.clear.rbegin ∧
      (∀ k, t.clear.find lt k = t.clear.end) ∧
      (∀ k, (t.clear.find lt k).deref t.clear.m_root = none)) ∧
    t.clear = AvlTree.empty t.heapTop ∧
    ((AvlTree.empty top : AvlTree K V).size = 0 ∧
      (AvlTree.empty top : AvlTree K V).isEmpty = true ∧
      (AvlTree.empty top : AvlTree K V).begin = some (AvlTree.empty top : AvlTree K V).end ∧
      (AvlTree.empty top : AvlTree K V).rend = some (AvlTree.empty top : AvlTree K V).rbegin ∧
      (∀ k, (AvlTree.empty top : AvlTree K V).find lt k
        = (AvlTree.empty top : AvlTree K V).end)) :=
  ⟨⟨rfl, rfl, rfl, rfl, rfl, fun _ => rfl, fun _ => rfl⟩, rfl, rfl, rfl, rfl, rfl, fun _ => rfl⟩

end Claims
end Avl
namespace Avl
section Lemmas
variable {K V : Type}

/-! ## Bulk insertion -/

theorem insertRange_eq_run (lt : K → K → Bool) (t : AvlTree K V) (xs : List (K × V)) :
    AvlTree.insertRange lt t xs = run lt t (xs.map fun kv => Op.insert kv.1 kv.2) := by
  induction xs generalizing t with
  | nil => rfl
  | cons kv rest ih =>
    simp only [AvlTree.insertRange, List.map_cons, run, step]
    cases t.insert lt kv.1 kv.2 with
    | none => rfl
    | some res => simp [ih]

theorem lookup_empty (lt : K → K → Bool) (top : Nat) (k : K) :
    (AvlTree.empty top : AvlTree K V).lookup lt k = none := rfl

theorem lastAssigned_inserts (lt : K → K → Bool) (k : K) (cur : Option V) (xs : List (K × V)) :
    lastAssigned lt k cur (xs.map fun kv => Op.insert kv.1 kv.2)
      = if cur.isSome then cur
        else (xs.find? fun kv => !lt k kv.1 && !lt kv.1 k).map Prod.snd := by
  induction xs generalizing cur with
  | nil => cases cur <;> simp [lastAssigned]
  | cons kv rest ih =>
    simp only [List.map_cons, lastAssigned]
    rw [ih]
    by_cases he : lt k kv.1 = false ∧ lt kv.1 k = false
    · have hp : (!lt k kv.1 && !lt kv.1 k) = true := by simp [he.1, he.2]
      cases cur <;> simp [he, List.find?_cons, hp]
    · have hp : (!lt k kv.1 && !lt kv.1 k) = false := by
        rw [Bool.eq_false_iff, Ne, equiv_iff_pred]
        exact he
      cases cur <;> simp [he, List.find?_cons, hp]

theorem Inserted.assoc_isSome {lt : K → K → Bool} {key : K}
    {value : V} {fresh : Nat} {rep : Bool} {xs ys : List (Nat × K × V)} {ins : Option Nat}
    {did : Bool} (h : Inserted lt key value fresh rep xs ys ins did) :
    (assoc lt key xs).isSome = !did := by
  cases h with
  | added L R hx hy hL hR =>
    subst hx
    rw [assoc_eq_none]
    · rfl
    · intro x hx he
      rcases List.mem_append.1 hx with h1 | h1
      · exact absurd (hL x h1) (by rw [he.2]; simp)
      · exact absurd (hR x h1) (by rw [he.1]; simp)
  | found L R a k0 v0 hx hy he hL hR =>
    subst hx
    unfold assoc
    rw [Option.isSome_map']
    show _ = true
    rw [List.find?_isSome]
    exact ⟨(a, k0, v0), by simp, (equiv_iff_pred key k0).2 he⟩

/-- One `insert` on a tree satisfying the invariant: the count grows exactly when the key had
no value, and the keys with a value afterwards are those before together with the keys
equivalent to the inserted one. -/
theorem insert_isSome {lt : K → K → Bool} (hlt : StrictWeakOrder lt) (t : AvlTree K V)
    (k : K) (v : V) (hi : Inv lt t) :
    ∃ res, t.insert lt k v = some res ∧ Inv lt res.1 ∧
      res.1.size = (if (t.lookup lt k).isSome then t.size else t.size + 1) ∧
      ∀ k1, (res.1.lookup lt k1).isSome
        = ((!lt k1 k && !lt k k1) || (t.lookup lt k1).isSome) := by
  obtain ⟨t1, ins, did, e, hins, hi1, hc⟩ := insertWith_spec hlt false t k v hi
  refine ⟨_, e, hi1, ?_, ?_⟩
  · have h := hins.assoc_isSome
    rw [lookup_eq_assoc hlt hi, h]
    cases did <;> simpa [AvlTree.size] using hc
  · intro k1
    rw [lookup_eq_assoc hlt hi1, lookup_eq_assoc hlt hi, hins.assoc_after hlt k1]
    by_cases he : lt k1 k = false ∧ lt k k1 = false
    · rw [if_pos he]
      cases assoc lt k1 (inorder t.m_root) <;> simp [he.1, he.2]
    · rw [if_neg he]
      have hp : (!lt k1 k && !lt k k1) = false := by
        rw [Bool.eq_false_iff, Ne, equiv_iff_pred]
        exact he
      simp [hp]

theorem any_equiv_congr {lt : K → K → Bool} (hlt : StrictWeakOrder lt) (seen : List K)
    {a b : K} (h : Equiv lt a b) (hb : seen.any (fun s => !lt b s && !lt s b) = true) :
    seen.any (fun s => !lt a s && !lt s a) = true := by
  rw [List.any_eq_true] at hb ⊢
  obtain ⟨s, hs, hp⟩ := hb
  exact ⟨s, hs, (equiv_iff_pred a s).2 (hlt.incomp_trans a b s h ((equiv_iff_pred b s).1 hp))⟩

/-- Bulk insertion into a tree whose keys are those of `seen`: it is defined, keeps the
invariant and adds one element per key class of the sequence not in `seen`. -/
theorem insertRange_size {lt : K → K → Bool} (hlt : StrictWeakOrder lt) (xs : List (K × V)) :
    ∀ (t : AvlTree K V) (seen : List K), Inv lt t →
      (∀ k, seen.any (fun s => !lt k s && !lt s k) = (t.lookup lt k).isSome) →
      ∃ t1, AvlTree.insertRange lt t xs = some t1 ∧ Inv lt t1 ∧
        t1.size = t.size + countDistinct lt seen xs := by
  induction xs with
  | nil => exact fun t seen hi _ => ⟨t, rfl, hi, rfl⟩
  | cons kv rest ih =>
    intro t seen hi hs
    obtain ⟨res, e, hi1, hsz, hl⟩ := insert_isSome hlt t kv.1 kv.2 hi
    simp only [AvlTree.insertRange, e, Option.some_bind, countDistinct]
    by_cases hp : seen.any (fun s => !lt kv.1 s && !lt s kv.1) = true
    · have hsome : (t.lookup lt kv.1).isSome = true := by rw [← hs]; exact hp
      obtain ⟨t1, e1, hi2, hsz1⟩ := ih res.1 seen hi1 (by
        intro k
        rw [hl k, ← hs k]
        cases hk : (!lt k kv.1 && !lt kv.1 k) with
        | false => simp
        | true =>
          rw [any_equiv_congr hlt seen ((equiv_iff_pred k kv.1).1 hk) hp]
          rfl)
      refine ⟨t1, e1, hi2, ?_⟩
      rw [hsz1, hsz, if_pos hsome, if_pos hp]
    · have hnone : ¬ (t.lookup lt kv.1).isSome = true := by rw [← hs]; exact hp
      obtain ⟨t1, e1, hi2, hsz1⟩ := ih res.1 (kv.1 :: seen) hi1 (by
        intro k
        rw [hl k, ← hs k, List.any_cons])
      refine ⟨t1, e1, hi2, ?_⟩
      rw [hsz1, hsz, if_neg hnone, if_neg hp]
      omega

end Lemmas

section Claims
variable {K V : Type}

/-- Claim C25: the constructors from a sequence or a literal list, the bulk `insert` of a
sequence and the literal-list assignment (which clears first) are each equal to calling
`insert(pair)` on every pair in sequence order.  Consequently the constructed or assigned tree
leads, for every key, to the value of the first pair of the sequence with an equivalent key,
and its `size()` is the number of distinct keys of the sequence; a bulk `insert` into a
reachable tree keeps the values of the keys already present. -/
theorem C25_bulk_insert_is_insert_each {lt : K → K → Bool} (hlt : StrictWeakOrder lt)
    (t : AvlTree K V) (top : Nat) (xs : List (K × V)) :
    AvlTree.insertRange lt t xs = run lt t (xs.map fun kv => Op.insert kv.1 kv.2) ∧
    AvlTree.ofRange lt top xs
      = run lt (AvlTree.empty top) (xs.map fun kv => Op.insert kv.1 kv.2) ∧
    AvlTree.assignList lt t xs
      = run lt t (Op.clear :: xs.map fun kv => Op.insert kv.1 kv.2) ∧
    (∃ t1, AvlTree.ofRange lt top xs = some t1 ∧
      (∀ k, t1.lookup lt k = (xs.find? fun kv => !lt k kv.1 && !lt kv.1 k).map Prod.snd) ∧
      t1.size = countDistinct lt [] xs) ∧
    (∃ t2, AvlTree.assignList lt t xs = some t2 ∧
      (∀ k, t2.lookup lt k = (xs.find? fun kv => !lt k kv.1 && !lt kv.1 k).map Prod.snd) ∧
      t2.size = countDistinct lt [] xs) ∧
    (Reachable lt t → ∃ t3, AvlTree.insertRange lt t xs = some t3 ∧
      ∀ k, t3.lookup lt k
        = if (t.lookup lt k).isSome then t.lookup lt k
          else (xs.find? fun kv => !lt k kv.1 && !lt kv.1 k).map Prod.snd) := by
  have hempty : ∀ top : Nat, ∃ t1, AvlTree.ofRange lt top xs = some t1 ∧
      (∀ k, t1.lookup lt k = (xs.find? fun kv => !lt k kv.1 && !lt kv.1 k).map Prod.snd) ∧
      t1.size = countDistinct lt [] xs := by
    intro top
    obtain ⟨t1, e, _, hsz⟩ := insertRange_size hlt xs (AvlTree.empty top : AvlTree K V) []
      (Inv_empty lt top) (fun k => by rw [lookup_empty]; rfl)
    refine ⟨t1, e, ?_, ?_⟩
    · intro k
      have hr : run lt (AvlTree.empty top) (xs.map fun kv => Op.insert kv.1 kv.2) = some t1 := by
        rw [← insertRange_eq_run]; exact e
      rw [run_lastAssigned hlt _ (Inv_empty lt top) hr k, lastAssigned_inserts, lookup_empty]
      rfl
    · rw [hsz]
      exact Nat.zero_add _
  refine ⟨insertRange_eq_run lt t xs, insertRange_eq_run lt _ xs, ?_, hempty top,
    hempty t.heapTop, ?_⟩
  · exact insertRange_eq_run lt t.clear xs
  · intro hr
    have hi := reachable_inv hlt hr
    obtain ⟨t3, e⟩ := run_defined hlt (xs.map fun kv => Op.insert kv.1 kv.2) hi
    refine ⟨t3, by rw [insertRange_eq_run]; exact e, fun k => ?_⟩
    rw [run_lastAssigned hlt _ hi e k, lastAssigned_inserts]

/-- A concrete instance of C25: the sequence (2, 20), (1, 10), (2, 99), (3, 30) holds key 2
twice; the constructed tree has 3 elements and keeps 20 for key 2. -/
theorem C25_witness :
    StrictWeakOrder ltNat ∧ Reachable ltNat sample3 ∧
    countDistinct ltNat [] [(2, 20), (1, 10), (2, 99), (3, 30)] = 3 ∧
    (AvlTree.ofRange ltNat 0 [(2, 20), (1, 10), (2, 99), (3, 30)]).map
      (fun t1 => (t1.size, t1.lookup ltNat 2, toList t1.m_root))
      = some (3, some 20, [(1, 10), (2, 20), (3, 30)]) ∧
    (AvlTree.insertRange ltNat sample3 [(2, 20), (1, 10), (2, 99), (3, 30)]
        = run ltNat sample3 (([(2, 20), (1, 10), (2, 99), (3, 30)] : List (Nat × Nat)).map
            fun kv => Op.insert kv.1 kv.2) ∧
      AvlTree.ofRange ltNat 0 [(2, 20), (1, 10), (2, 99), (3, 30)]
        = run ltNat (AvlTree.empty 0)
            (([(2, 20), (1, 10), (2, 99), (3, 30)] : List (Nat × Nat)).map
              fun kv => Op.insert kv.1 kv.2) ∧
      AvlTree.assignList ltNat sample3 [(2, 20), (1, 10), (2, 99), (3, 30)]
        = run ltNat sample3
            (Op.clear :: ([(2, 20), (1, 10), (2, 99), (3, 30)] : List (Nat × Nat)).map
              fun kv => Op.insert kv.1 kv.2) ∧
      (∃ t1, AvlTree.ofRange ltNat 0 [(2, 20), (1, 10), (2, 99), (3, 30)] = some t1 ∧
        (∀ k, t1.lookup ltNat k
          = (([(2, 20), (1, 10), (2, 99), (3, 30)] : List (Nat × Nat)).find?
              fun kv => !ltNat k kv.1 && !ltNat kv.1 k).map Prod.snd) ∧
        t1.size = countDistinct ltNat [] [(2, 20), (1, 10), (2, 99), (3, 30)]) ∧
      (∃ t2, AvlTree.assignList ltNat sample3 [(2, 20), (1, 10), (2, 99), (3, 30)] = some t2 ∧
        (∀ k, t2.lookup ltNat k
          = (([(2, 20), (1, 10), (2, 99), (3, 30)] : List (Nat × Nat)).find?
              fun kv => !ltNat k kv.1 && !ltNat kv.1 k).map Prod.snd) ∧
        t2.size = countDistinct ltNat [] [(2, 20), (1, 10), (2, 99), (3, 30)]) ∧
      (Reachable ltNat sample3 →
        ∃ t3, AvlTree.insertRange ltNat sample3 [(2, 20), (1, 10), (2, 99), (3, 30)] = some t3 ∧
          ∀ k, t3.lookup ltNat k
            = if (sample3.lookup ltNat k).isSome then sample3.lookup ltNat k
              else (([(2, 20), (1, 10), (2, 99), (3, 30)] : List (Nat × Nat)).find?
                fun kv => !ltNat k kv.1 && !ltNat kv.1 k).map Prod.snd)) :=
  ⟨strictWeakOrder_ltNat, sample3_reachable, rfl, rfl,
    C25_bulk_insert_is_insert_each strictWeakOrder_ltNat sample3 0
      [(2, 20), (1, 10), (2, 99), (3, 30)]⟩

end Claims
end Avl
namespace Avl
section Lemmas
variable {K V : Type}

/-! ## Rotations, the resolution table of `balance`, and `detachNode`, case by case -/

theorem calculateBalanceFactor_node (a : Nat) (k : K) (v : V) (p : Option Nat)
    (l r : Node K V) (h : Int) :
    calculateBalanceFactor (Node.node a k v p l r h) = heightOf l - heightOf r := rfl

theorem HeightCoherent_setParentIfPresent (p : Option Nat) {n : Node K V}
    (h : HeightCoherent n) : HeightCoherent (setParentIfPresent p n) := by
  cases n with
  | nil => exact h
  | node a k v q l r ht => exact h

theorem toList_setParentIfPresent (p : Option Nat) (n : Node K V) :
    toList (setParentIfPresent p n) = toList n := by
  simp [toList]

theorem detachLeftmostNode_first (n : Node K V) (hn : n ≠ Node.nil) :
    ∃ da dk dv dp dl dr dh m,
      detachLeftmostNode n = some (Node.node da dk dv dp dl dr dh, m) ∧
      inorder n = (da, dk, dv) :: inorder m := by
  induction n with
  | nil => exact absurd rfl hn
  | node a k v p l r h ihl _ =>
    cases l with
    | nil =>
      cases r with
      | nil => exact ⟨a, k, v, p, _, _, h, _, rfl, rfl⟩
      | node ra rk rv rp rl rr rh => exact ⟨a, k, v, p, _, _, h, _, rfl, rfl⟩
    | node la lk lv lp ll lr lh =>
      obtain ⟨da, dk, dv, dp, dl, dr, dh, m, e, h2⟩ := ihl (by simp)
      refine ⟨da, dk, dv, dp, dl, dr, dh, Node.node a k v p m r h, ?_, ?_⟩
      · simp only [detachLeftmostNode, e, Option.some_bind]
      · rw [inorder_node, h2]
        simp

end Lemmas

section Claims
variable {K V : Type}

/-- Claim C31: `rotateRight` on a node with a present left child L returns L as the new
subtree root, with the old node as L's right child and L's former right subtree as the old
node's left subtree; `rotateLeft` on a node with a present right child is the mirror image.
Both keep the in-order sequence of (key, value) pairs, and the two recomputed cached heights
are coherent whenever the three moved subtrees are height-coherent. -/
theorem C31_rotations_reroot_and_preserve_inorder (a : Nat) (k : K) (v : V) (p : Option Nat)
    (ca : Nat) (ck : K) (cv : V) (cp : Option Nat) (x y z : Node K V) (h ch : Int) :
    (rotateRight (Node.node a k v p (Node.node ca ck cv cp x y ch) z h)
        = some (Node.node ca ck cv cp x
            (Node.node a k v (some ca) (setParentIfPresent (some a) y) z
              (max (heightOf z) (heightOf y) + 1))
            (max (max (heightOf z) (heightOf y) + 1) (heightOf x) + 1)) ∧
      toList (Node.node ca ck cv cp x
            (Node.node a k v (some ca) (setParentIfPresent (some a) y) z
              (max (heightOf z) (heightOf y) + 1))
            (max (max (heightOf z) (heightOf y) + 1) (heightOf x) + 1))
        = toList (Node.node a k v p (Node.node ca ck cv cp x y ch) z h) ∧
      (HeightCoherent x → HeightCoherent y → HeightCoherent z →
        HeightCoherent (Node.node ca ck cv cp x
            (Node.node a k v (some ca) (setParentIfPresent (some a) y) z
              (max (heightOf z) (heightOf y) + 1))
            (max (max (heightOf z) (heightOf y) + 1) (heightOf x) + 1)))) ∧
    (rotateLeft (Node.node a k v p x (Node.node ca ck cv cp y z ch) h)
        = some (Node.node ca ck cv cp
            (Node.node a k v (some ca) x (setParentIfPresent (some a) y)
              (max (heightOf y) (heightOf x) + 1))
            z (max (heightOf z) (max (heightOf y) (heightOf x) + 1) + 1)) ∧
      toList (Node.node ca ck cv cp
            (Node.node a k v (some ca) x (setParentIfPresent (some a) y)
              (max (heightOf y) (heightOf x) + 1))
            z (max (heightOf z) (max (heightOf y) (heightOf x) + 1) + 1))
        = toList (Node.node a k v p x (Node.node ca ck cv cp y z ch) h) ∧
      (HeightCoherent x → HeightCoherent y → HeightCoherent z →
        HeightCoherent (Node.node ca ck cv cp
            (Node.node a k v (some ca) x (setParentIfPresent (some a) y)
              (max (heightOf y) (heightOf x) + 1))
            z (max (heightOf z) (max (heightOf y) (heightOf x) + 1) + 1)))) := by
  refine ⟨⟨?_, ?_, ?_⟩, ⟨?_, ?_, ?_⟩⟩
  · simp [rotateRight]
  · simp [toList]
  · intro hx hy hz
    refine ⟨?_, hx, ?_, HeightCoherent_setParentIfPresent _ hy, hz⟩
    · simp only [heightOf_node]
      rw [max_comm (heightOf x)]
      omega
    · simp only [heightOf_setParentIfPresent]
      rw [max_comm (heightOf y)]
      omega
  · simp [rotateLeft]
  · simp [toList]
  · intro hx hy hz
    refine ⟨?_, ⟨?_, hx, HeightCoherent_setParentIfPresent _ hy⟩, hz⟩
    · simp only [heightOf_node]
      omega
    · simp only [heightOf_setParentIfPresent]
      rw [max_comm (heightOf y)]
      omega

/-- A concrete instance of C31: the chain 3(2(1)) is rotated right into 2(1, 3), and the
chain 1(-, 2(-, 3)) is rotated left into 2(1, 3), both with coherent heights 2, 1, 1. -/
theorem C31_witness :
    HeightCoherent (Node.node 2 1 10 (some 1) Node.nil Node.nil 1 : Node Nat Nat) ∧
    HeightCoherent (Node.nil : Node Nat Nat) ∧
    rotateRight (Node.node 0 3 30 none
        (Node.node 1 2 20 (some 0) (Node.node 2 1 10 (some 1) Node.nil Node.nil 1) Node.nil 2)
        Node.nil 3)
      = some (Node.node 1 2 20 (some 0) (Node.node 2 1 10 (some 1) Node.nil Node.nil 1)
          (Node.node 0 3 30 (some 1) Node.nil Node.nil 1) 2) ∧
    HeightCoherent (Node.node 1 2 20 (some 0) (Node.node 2 1 10 (some 1) Node.nil Node.nil 1)
          (Node.node 0 3 30 (some 1) Node.nil Node.nil 1) 2) ∧
    HeightCoherent (Node.node 1 2 20 (some 0)
          (Node.node 0 1 10 (some 1) Node.nil Node.nil 1)
          (Node.node 2 3 30 (some 1) Node.nil Node.nil 1) 2) :=
  ⟨⟨rfl, trivial, trivial⟩, trivial,
    (C31_rotations_reroot_and_preserve_inorder 0 3 30 none 1 2 20 (some 0)
      (Node.node 2 1 10 (some 1) Node.nil Node.nil 1) Node.nil Node.nil 3 2).1.1,
    (C31_rotations_reroot_and_preserve_inorder 0 3 30 none 1 2 20 (some 0)
      (Node.node 2 1 10 (some 1) Node.nil Node.nil 1) Node.nil Node.nil 3 2).1.2.2
      ⟨rfl, trivial, trivial⟩ trivial trivial,
    (C31_rotations_reroot_and_preserve_inorder 0 1 10 none 1 2 20 (some 0)
      Node.nil Node.nil (Node.node 2 3 30 (some 1) Node.nil Node.nil 1) 3 2).2.2.2
      trivial trivial ⟨rfl, trivial, trivial⟩⟩

/-- Claim C32: `balance(node)` follows the resolution table.  With
bf = cachedHeight(left) - cachedHeight(right): `rotateLeft(node)` when bf = -2 and the right
child's factor is -1; `rotateRight(node)` when bf = 2 and the left child's factor is 1;
`rotateLeft` after `rotateRight` of the right child (re-attached under the node) when bf = -2
and the right child's factor is 1; `rotateRight` after `rotateLeft` of the left child when
bf = 2 and the left child's factor is -1; in every other case, among them bf = -2 or 2 with a
heavy child of factor 0, the node is returned unchanged. -/
theorem C32_balance_resolution_table (a : Nat) (k : K) (v : V) (p : Option Nat)
    (l r : Node K V) (h : Int) :
    calculateBalanceFactor (Node.node a k v p l r h) = heightOf l - heightOf r ∧
    (heightOf l - heightOf r = -2 ∧ calculateBalanceFactor r = -1 →
      balance (Node.node a k v p l r h) = rotateLeft (Node.node a k v p l r h)) ∧
    (heightOf l - heightOf r = 2 ∧ calculateBalanceFactor l = 1 →
      balance (Node.node a k v p l r h) = rotateRight (Node.node a k v p l r h)) ∧
    (heightOf l - heightOf r = -2 ∧ calculateBalanceFactor r = 1 →
      balance (Node.node a k v p l r h)
        = (rotateRight r).bind fun r1 =>
            rotateLeft (Node.node a k v p l (setParentIfPresent (some a) r1) h)) ∧
    (heightOf l - heightOf r = 2 ∧ calculateBalanceFactor l = -1 →
      balance (Node.node a k v p l r h)
        = (rotateLeft l).bind fun l1 =>
            rotateRight (Node.node a k v p (setParentIfPresent (some a) l1) r h)) ∧
    (¬ (heightOf l - heightOf r = -2 ∧ calculateBalanceFactor r = -1) ∧
      ¬ (heightOf l - heightOf r = 2 ∧ calculateBalanceFactor l = 1) ∧
      ¬ (heightOf l - heightOf r = -2 ∧ calculateBalanceFactor r = 1) ∧
      ¬ (heightOf l - heightOf r = 2 ∧ calculateBalanceFactor l = -1) →
      balance (Node.node a k v p l r h) = some (Node.node a k v p l r h)) ∧
    (heightOf l - heightOf r = -2 ∧ calculateBalanceFactor r = 0 →
      balance (Node.node a k v p l r h) = some (Node.node a k v p l r h)) ∧
    (heightOf l - heightOf r = 2 ∧ calculateBalanceFactor l = 0 →
      balance (Node.node a k v p l r h) = some (Node.node a k v p l r h)) := by
  have hother : ¬ (heightOf l - heightOf r = -2 ∧ calculateBalanceFactor r = -1) ∧
      ¬ (heightOf l - heightOf r = 2 ∧ calculateBalanceFactor l = 1) ∧
      ¬ (heightOf l - heightOf r = -2 ∧ calculateBalanceFactor r = 1) ∧
      ¬ (heightOf l - heightOf r = 2 ∧ calculateBalanceFactor l = -1) →
      balance (Node.node a k v p l r h) = some (Node.node a k v p l r h) := by
    rintro ⟨c1, c2, c3, c4⟩
    simp only [balance, calculateBalanceFactor_node, if_neg c1, if_neg c2, if_neg c3, if_neg c4]
  refine ⟨rfl, ?_, ?_, ?_, ?_, hother, ?_, ?_⟩
  · intro c
    simp only [balance, calculateBalanceFactor_node, if_pos c]
  · intro c
    have c1 : ¬ (heightOf l - heightOf r = -2 ∧ calculateBalanceFactor r = -1) := by
      intro h1
      omega
    simp only [balance, calculateBalanceFactor_node, if_neg c1, if_pos c]
  · intro c
    have c1 : ¬ (heightOf l - heightOf r = -2 ∧ calculateBalanceFactor r = -1) := by
      intro h1
      omega
    have c2 : ¬ (heightOf l - heightOf r = 2 ∧ calculateBalanceFactor l = 1) := by
      intro h1
      omega
    simp only [balance, calculateBalanceFactor_node, if_neg c1, if_neg c2, if_pos c]
    cases hr : rotateRight r with
    | none => rfl
    | some r1 =>
      have hne : r1 ≠ Node.nil := by
        intro h0
        subst h0
        cases r with
        | nil => simp [rotateRight] at hr
        | node ra rk rv rp rl rr rh =>
          cases rl with
          | nil => simp [rotateRight] at hr
          | node _ _ _ _ _ _ _ => simp [rotateRight] at hr
      simp only [Option.some_bind, setParent_of_ne_nil (some a) hne]
  · intro c
    have c1 : ¬ (heightOf l - heightOf r = -2 ∧ calculateBalanceFactor r = -1) := by
      intro h1
      omega
    have c2 : ¬ (heightOf l - heightOf r = 2 ∧ calculateBalanceFactor l = 1) := by
      intro h1
      omega
    have c3 : ¬ (heightOf l - heightOf r = -2 ∧ calculateBalanceFactor r = 1) := by
      intro h1
      omega
    simp only [balance, calculateBalanceFactor_node, if_neg c1, if_neg c2, if_neg c3, if_pos c]
    cases hl : rotateLeft l with
    | none => rfl
    | some l1 =>
      have hne : l1 ≠ Node.nil := by
        intro h0
        subst h0
        cases l with
        | nil => simp [rotateLeft] at hl
        | node la lk lv lp ll lr lh =>
          cases lr with
          | nil => simp [rotateLeft] at hl
          | node _ _ _ _ _ _ _ => simp [rotateLeft] at hl
      simp only [Option.some_bind, setParent_of_ne_nil (some a) hne]
  · intro c
    refine hother ⟨?_, ?_, ?_, ?_⟩ <;> intro h1 <;> omega
  · intro c
    refine hother ⟨?_, ?_, ?_, ?_⟩ <;> intro h1 <;> omega

/-- Concrete instances of C32, one per row of the table: the chains 1(-, 2(-, 3)) and
3(2(1)), the zigzags 1(-, 3(2)) and 3(1(-, 2)), each rebalanced into 2(1, 3), and the node
2(-, 4(3, 5)) with factor -2 over a right child of factor 0, which is returned unchanged. -/
theorem C32_witness :
    balance (Node.node 0 1 10 none Node.nil
        (Node.node 1 2 20 (some 0) Node.nil (Node.node 2 3 30 (some 1) Node.nil Node.nil 1) 2)
        3)
      = some (Node.node 1 2 20 (some 0) (Node.node 0 1 10 (some 1) Node.nil Node.nil 1)
          (Node.node 2 3 30 (some 1) Node.nil Node.nil 1) 2) ∧
    balance (Node.node 0 3 30 none
        (Node.node 1 2 20 (some 0) (Node.node 2 1 10 (some 1) Node.nil Node.nil 1) Node.nil 2)
        Node.nil 3)
      = some (Node.node 1 2 20 (some 0) (Node.node 2 1 10 (some 1) Node.nil Node.nil 1)
          (Node.node 0 3 30 (some 1) Node.nil Node.nil 1) 2) ∧
    balance (Node.node 0 1 10 none Node.nil
        (Node.node 1 3 30 (some 0) (Node.node 2 2 20 (some 1) Node.nil Node.nil 1) Node.nil 2)
        3)
      = some (Node.node 2 2 20 (some 0) (Node.node 0 1 10 (some 2) Node.nil Node.nil 1)
          (Node.node 1 3 30 (some 2) Node.nil Node.nil 1) 2) ∧
    balance (Node.node 0 3 30 none
        (Node.node 1 1 10 (some 0) Node.nil (Node.node 2 2 20 (some 1) Node.nil Node.nil 1) 2)
        Node.nil 3)
      = some (Node.node 2 2 20 (some 0) (Node.node 1 1 10 (some 2) Node.nil Node.nil 1)
          (Node.node 0 3 30 (some 2) Node.nil Node.nil 1) 2) ∧
    balance (Node.node 0 2 20 none Node.nil
        (Node.node 2 4 40 (some 0) (Node.node 3 3 30 (some 2) Node.nil Node.nil 1)
          (Node.node 4 5 50 (some 2) Node.nil Node.nil 1) 2) 3)
      = some (Node.node 0 2 20 none Node.nil
        (Node.node 2 4 40 (some 0) (Node.node 3 3 30 (some 2) Node.nil Node.nil 1)
          (Node.node 4 5 50 (some 2) Node.nil Node.nil 1) 2) 3) :=
  ⟨(C32_balance_resolution_table 0 1 10 none Node.nil
      (Node.node 1 2 20 (some 0) Node.nil (Node.node 2 3 30 (some 1) Node.nil Node.nil 1) 2)
      3).2.1 ⟨by decide, by decide⟩,
    (C32_balance_resolution_table 0 3 30 none
      (Node.node 1 2 20 (some 0) (Node.node 2 1 10 (some 1) Node.nil Node.nil 1) Node.nil 2)
      Node.nil 3).2.2.1 ⟨by decide, by decide⟩,
    (C32_balance_resolution_table 0 1 10 none Node.nil
      (Node.node 1 3 30 (some 0) (Node.node 2 2 20 (some 1) Node.nil Node.nil 1) Node.nil 2)
      3).2.2.2.1 ⟨by decide, by decide⟩,
    (C32_balance_resolution_table 0 3 30 none
      (Node.node 1 1 10 (some 0) Node.nil (Node.node 2 2 20 (some 1) Node.nil Node.nil 1) 2)
      Node.nil 3).2.2.2.2.1 ⟨by decide, by decide⟩,
    (C32_balance_resolution_table 0 2 20 none Node.nil
      (Node.node 2 4 40 (some 0) (Node.node 3 3 30 (some 2) Node.nil Node.nil 1)
        (Node.node 4 5 50 (some 2) Node.nil Node.nil 1) 2) 3).2.2.2.2.2.2.1
      ⟨by decide, by decide⟩⟩

/-- Claim C33: `detachNode` on a node without children leaves the position absent; with one
child that child takes the position; with two children the leftmost node of the right
subtree (its minimum under BST ordering) takes the position, keeping the removed node's left
subtree as its left child and the right subtree without that leftmost node as its right
child.  In all three cases the in-order sequence of what stands in the position afterwards
is the sequence before with the entry of the removed node deleted. -/
theorem C33_detachNode_cases {lt : K → K → Bool} (hlt : StrictWeakOrder lt) (a : Nat) (k : K)
    (v : V) (p : Option Nat) (l r : Node K V) (h : Int) :
    detachNode (Node.node a k v p Node.nil Node.nil h)
      = some (Node.node a k v p Node.nil Node.nil h, Node.nil) ∧
    (r ≠ Node.nil →
      detachNode (Node.node a k v p Node.nil r h)
        = some (Node.node a k v p Node.nil r h, setParentIfPresent p r)) ∧
    (l ≠ Node.nil →
      detachNode (Node.node a k v p l Node.nil h)
        = some (Node.node a k v p l Node.nil h, setParentIfPresent p l)) ∧
    (l ≠ Node.nil → r ≠ Node.nil →
      ∃ ma mk mv mp ml mr mh rest,
        detachLeftmostNode r = some (Node.node ma mk mv mp ml mr mh, rest) ∧
        inorder r = (ma, mk, mv) :: inorder rest ∧
        (BST lt r → ∀ x ∈ keys rest, lt mk x = true) ∧
        detachNode (Node.node a k v p l r h)
          = some (Node.node a k v p l rest h, Node.node ma mk mv p l rest mh)) ∧
    (∃ d m, detachNode (Node.node a k v p l r h) = some (d, m) ∧
      addrOf d = some a ∧ keyValuePair d = some (k, v) ∧
      inorder (Node.node a k v p l r h) = inorder l ++ (a, k, v) :: inorder r ∧
      inorder m = inorder l ++ inorder r ∧ toList m = toList l ++ toList r) := by
  have htwo : l ≠ Node.nil → r ≠ Node.nil →
      ∃ ma mk mv mp ml mr mh rest,
        detachLeftmostNode r = some (Node.node ma mk mv mp ml mr mh, rest) ∧
        inorder r = (ma, mk, mv) :: inorder rest ∧
        (BST lt r → ∀ x ∈ keys rest, lt mk x = true) ∧
        detachNode (Node.node a k v p l r h)
          = some (Node.node a k v p l rest h, Node.node ma mk mv p l rest mh) := by
    intro hl hr
    obtain ⟨ma, mk, mv, mp, ml, mr, mh, rest, e, hi⟩ := detachLeftmostNode_first r hr
    refine ⟨ma, mk, mv, mp, ml, mr, mh, rest, e, hi, ?_, ?_⟩
    · intro hb x hx
      have hs := sorted_of_BST hlt hb
      rw [hi, List.pairwise_cons] at hs
      obtain ⟨y, hy, rfl⟩ := List.mem_map.1 hx
      exact hs.1 y hy
    · cases l with
      | nil => exact absurd rfl hl
      | node la lk lv lp ll lr lh =>
        cases r with
        | nil => exact absurd rfl hr
        | node ra rk rv rp rl rr rh =>
          simp only [detachNode, e, Option.some_bind]
  refine ⟨rfl, ?_, ?_, htwo, ?_⟩
  · intro hr
    cases r with
    | nil => exact absurd rfl hr
    | node ra rk rv rp rl rr rh => rfl
  · intro hl
    cases l with
    | nil => exact absurd rfl hl
    | node la lk lv lp ll lr lh => rfl
  · cases l with
    | nil =>
      cases r with
      | nil => exact ⟨_, _, rfl, rfl, rfl, rfl, rfl, rfl⟩
      | node ra rk rv rp rl rr rh => exact ⟨_, _, rfl, rfl, rfl, rfl, rfl, by simp [toList]⟩
    | node la lk lv lp ll lr lh =>
      cases r with
      | nil => exact ⟨_, _, rfl, rfl, rfl, rfl, by simp, by simp [toList]⟩
      | node ra rk rv rp rl rr rh =>
        obtain ⟨ma, mk, mv, mp, ml, mr, mh, rest, e, hi, _, hd⟩ :=
          htwo (by simp) (by simp)
        refine ⟨_, _, hd, rfl, rfl, rfl, ?_, ?_⟩
        · rw [inorder_node, hi]
        · simp only [toList, inorder_node, hi, List.map_append, List.map_cons]

/-- A concrete instance of C33: in 2(1, 4(3, 5)) the node 2 has two children; node 3, the
leftmost node of the right subtree, takes its place with the children 1 and 4(-, 5). -/
theorem C33_witness :
    StrictWeakOrder ltNat ∧
    detachNode (Node.node 0 2 20 none (Node.node 1 1 10 (some 0) Node.nil Node.nil 1)
        (Node.node 2 4 40 (some 0) (Node.node 3 3 30 (some 2) Node.nil Node.nil 1)
          (Node.node 4 5 50 (some 2) Node.nil Node.nil 1) 2) 3)
      = some (Node.node 0 2 20 none (Node.node 1 1 10 (some 0) Node.nil Node.nil 1)
          (Node.node 2 4 40 (some 0) Node.nil
            (Node.node 4 5 50 (some 2) Node.nil Node.nil 1) 2) 3,
        Node.node 3 3 30 none (Node.node 1 1 10 (some 0) Node.nil Node.nil 1)
          (Node.node 2 4 40 (some 0) Node.nil
            (Node.node 4 5 50 (some 2) Node.nil Node.nil 1) 2) 1) ∧
    (∃ d m, detachNode (Node.node 0 2 20 none (Node.node 1 1 10 (some 0) Node.nil Node.nil 1)
        (Node.node 2 4 40 (some 0) (Node.node 3 3 30 (some 2) Node.nil Node.nil 1)
          (Node.node 4 5 50 (some 2) Node.nil Node.nil 1) 2) 3) = some (d, m) ∧
      toList m = [(1, 10), (3, 30), (4, 40), (5, 50)]) :=
  ⟨strictWeakOrder_ltNat, rfl,
    (C33_detachNode_cases strictWeakOrder_ltNat 0 2 20 none
      (Node.node 1 1 10 (some 0) Node.nil Node.nil 1)
      (Node.node 2 4 40 (some 0) (Node.node 3 3 30 (some 2) Node.nil Node.nil 1)
        (Node.node 4 5 50 (some 2) Node.nil Node.nil 1) 2) 3).2.2.2.2.imp
      fun _ hd => hd.imp fun _ hm => ⟨hm.1, hm.2.2.2.2.2⟩⟩

end Claims
end Avl
namespace Avl
section Lemmas
variable {K V : Type}

/-! ## The successor read off the structure is the one of the in-order sequence -/

theorem firstAddrOr_inorder_node (hi : Option Nat) (a : Nat) (k : K) (v : V) (p : Option Nat)
    (l r : Node K V) (h : Int) :
    firstAddrOr hi (inorder (Node.node a k v p l r h)) = some (leftmostAddr a l) := by
  obtain ⟨x, hx, hx1⟩ := head?_inorder_node a k v p l r h
  unfold firstAddrOr
  rw [hx, ← hx1]

theorem firstAddrOr_append_cons (hi : Option Nat) (T R : List (Nat × K × V)) (e : Nat × K × V) :
    firstAddrOr hi (T ++ e :: R) = firstAddrOr (some e.1) T := by
  cases T <;> rfl

theorem dropWhile_append_of_exists {α : Type} (p : α → Bool) {L : List α} (X : List α)
    (h : ∃ x ∈ L, p x = false) :
    ∃ d D, L.dropWhile p = d :: D ∧ (L ++ X).dropWhile p = d :: (D ++ X) := by
  induction L with
  | nil => simp at h
  | cons a L ih =>
    by_cases hp : p a = true
    · simp only [List.cons_append, List.dropWhile_cons, hp, if_true]
      apply ih
      obtain ⟨x, hx, hpx⟩ := h
      rcases List.mem_cons.1 hx with rfl | hx
      · rw [hp] at hpx; cases hpx
      · exact ⟨x, hx, hpx⟩
    · exact ⟨a, L, by simp [List.dropWhile_cons, hp], by simp [List.dropWhile_cons, hp]⟩

theorem dropWhile_append_of_all {α : Type} (p : α → Bool) {L : List α} (X : List α)
    (h : ∀ x ∈ L, p x = true) : (L ++ X).dropWhile p = X.dropWhile p := by
  induction L with
  | nil => rfl
  | cons a L ih =>
    simp only [List.cons_append, List.dropWhile_cons, h a (List.mem_cons_self _ _), if_true]
    exact ih fun x hx => h x (List.mem_cons_of_mem _ hx)

theorem succIn_eq (hi : Option Nat) (s : Node K V) (y : Nat) :
    succIn hi s y =
      if y ∈ addrs s then
        some (firstAddrOr hi ((inorder s).dropWhile fun x => x.1 != y).tail)
      else none := by
  induction s generalizing hi with
  | nil => simp [succIn, addrs]
  | node a k v p l r h ihl ihr =>
    unfold succIn
    rw [ihl (some a), ihr hi, addrs_node]
    by_cases hl : y ∈ addrs l
    · have hex : ∃ x ∈ inorder l, (fun x : Nat × K × V => x.1 != y) x = false := by
        obtain ⟨x, hx, rfl⟩ := List.mem_map.1 hl
        exact ⟨x, hx, by simp⟩
      obtain ⟨d, D, h1, h2⟩ := dropWhile_append_of_exists _ ((a, k, v) :: inorder r) hex
      simp only [if_pos hl, inorder_node, List.mem_append, hl, true_or, if_true, h1, h2,
        List.tail_cons, firstAddrOr_append_cons]
    · have hall : ∀ x ∈ inorder l, (fun x : Nat × K × V => x.1 != y) x = true := by
        intro x hx
        have : x.1 ≠ y := fun h => hl (h ▸ List.mem_map_of_mem Prod.fst hx)
        simpa using this
      simp only [if_neg hl, inorder_node, dropWhile_append_of_all _ _ hall]
      by_cases ha : a = y
      · subst ha
        simp [List.dropWhile_cons]
      · have hya : ¬ y = a := fun h => ha h.symm
        have hpa : (a != y) = true := by simpa using ha
        by_cases hr : y ∈ addrs r
        · simp only [if_neg ha, if_pos hr, List.mem_append, List.mem_cons, hr, or_true,
            if_true, List.dropWhile_cons, hpa]
        · simp [if_neg ha, if_neg hr, hl, hya, hr]

theorem succIn_of_split {H : Node K V} (hn : (addrs H).Nodup) (hi : Option Nat)
    {A B : List (Nat × K × V)} {y : Nat × K × V} (hx : inorder H = A ++ y :: B) :
    succIn hi H y.1 = some (firstAddrOr hi B) := by
  have hmem : y.1 ∈ addrs H := by simp [addrs, hx]
  rw [succIn_eq, if_pos hmem, hx]
  have hn2 : ((A ++ y :: B).map Prod.fst).Nodup := by rw [← hx]; exact hn
  rw [List.map_append, List.map_cons, List.nodup_append] at hn2
  have hall : ∀ x ∈ A, (fun x : Nat × K × V => x.1 != y.1) x = true := by
    intro x hxA
    have : x.1 ≠ y.1 := fun h =>
      hn2.2.2 (List.mem_map_of_mem Prod.fst hxA) (by simp [h])
    simpa using this
  rw [dropWhile_append_of_all _ _ hall]
  simp [List.dropWhile_cons]

/-! ## `increment` on a tree with coherent parent links -/

theorem climbRight_none (H : Node K V) (fuel node : Nat) :
    iterator.climbRight H fuel node none = Outcome.ok none := by
  cases fuel <;> rfl

theorem increment_eq_succIn (H : Node K V) (s : Node K V) :
    ∀ (p hi : Option Nat) (c : Nat),
      (∀ a n, nodeAt a s = some n → nodeAt a H = some n) →
      ParentOK p s → (addrs s).Nodup →
      (∀ a, addrOf s = some a → ∀ fuel, c ≤ fuel →
        iterator.climbRight H fuel a p = Outcome.ok hi) →
      c + numNodes s ≤ numNodes H →
      ∀ y res, succIn hi s y = some res → iterator.increment H y = Outcome.ok res := by
  induction s with
  | nil =>
    intro p hi c _ _ _ _ _ y res h
    simp [succIn] at h
  | node a k v q l r h ihl ihr =>
    intro p hi c hE hP hN hC hF y res hres
    obtain ⟨hq, hPl, hPr⟩ := hP
    subst hq
    have hself := nodeAt_root a k v q l r h hN
    have hHa := hE a _ hself
    have hN2 := hN
    rw [addrs_node, List.nodup_append] at hN2
    obtain ⟨hNl, hNr, hdj⟩ := hN2
    rw [List.nodup_cons] at hNr
    have hsize : numNodes (Node.node a k v q l r h) = numNodes l + 1 + numNodes r := rfl
    unfold succIn at hres
    cases e : succIn (some a) l y with
    | some r0 =>
      rw [e] at hres
      simp only [Option.some.injEq] at hres
      subst hres
      refine ihl (some a) (some a) 1 ?_ hPl hNl ?_ (by omega) y r0 e
      · intro b n hb
        apply hE
        simp [nodeAt, hb]
      · intro la hla fuel hfuel
        obtain ⟨f, rfl⟩ : ∃ f, fuel = f + 1 := ⟨fuel - 1, by omega⟩
        unfold iterator.climbRight
        have hne : addrOf r ≠ some la := fun h =>
          hdj (mem_addrs_of_addrOf hla) (by simp [mem_addrs_of_addrOf h])
        simp only [hHa, rightOf, if_neg hne]
    | none =>
      rw [e] at hres
      simp only at hres
      by_cases ha : a = y
      · subst ha
        rw [if_pos rfl] at hres
        simp only [Option.some.injEq] at hres
        subst hres
        unfold iterator.increment
        rw [hHa]
        cases r with
        | nil =>
          simp only [parentOf]
          rw [hC a rfl (numNodes H) (by omega)]
          rfl
        | node ra rk rv rp rl rr rh =>
          simp only [firstAddrOr_inorder_node]
      · rw [if_neg ha] at hres
        refine ihr (some a) hi (c + 1) ?_ hPr hNr.2 ?_ (by omega) y res hres
        · intro b n hb
          apply hE
          have hbr := mem_addrs_of_nodeAt hb
          have h1 : b ∉ addrs l := fun h => hdj h (by simp [hbr])
          have h2 : a ≠ b := fun h => hNr.1 (h ▸ hbr)
          simp [nodeAt, nodeAt_eq_none h1, h2, hb]
        · intro ra hra fuel hfuel
          obtain ⟨f, rfl⟩ : ∃ f, fuel = f + 1 := ⟨fuel - 1, by omega⟩
          unfold iterator.climbRight
          simp only [hHa, rightOf, hra, if_true, parentOf]
          exact hC a rfl f (by omega)

theorem increment_of_split {H : Node K V} (hn : (addrs H).Nodup) (hp : ParentOK none H)
    {A B : List (Nat × K × V)} {y : Nat × K × V} (hx : inorder H = A ++ y :: B) :
    iterator.increment H y.1 = Outcome.ok (firstAddrOr none B) := by
  refine increment_eq_succIn H H none none 0 (fun _ _ h => h) hp hn ?_ (by omega) y.1 _
    (succIn_of_split hn none hx)
  intro a _ fuel _
  exact climbRight_none H fuel a

theorem preIncrement_of_last {H : Node K V} (hn : (addrs H).Nodup) (hp : ParentOK none H)
    {A : List (Nat × K × V)} {y : Nat × K × V} (hx : inorder H = A ++ [y]) (r : Option Nat) :
    iterator.preIncrement H (iterator.mk (some y.1) r) = Outcome.ok (iterator.mk none r) := by
  have h := increment_of_split hn hp (B := []) hx
  simp [iterator.preIncrement, h, firstAddrOr]

theorem preIncrement_of_next {H : Node K V} (hn : (addrs H).Nodup) (hp : ParentOK none H)
    {A B : List (Nat × K × V)} {x y : Nat × K × V} (hx : inorder H = A ++ x :: y :: B)
    (r : Option Nat) :
    iterator.preIncrement H (iterator.mk (some x.1) r)
      = Outcome.ok (iterator.mk (some y.1) r) := by
  have h := increment_of_split hn hp hx
  have hne : y.1 ≠ x.1 := by
    have hn2 : ((A ++ x :: y :: B).map Prod.fst).Nodup := by rw [← hx]; exact hn
    rw [List.map_append, List.nodup_append] at hn2
    have := hn2.2.1
    simp only [List.map_cons, List.nodup_cons, List.mem_cons, not_or] at this
    exact fun h => this.1.1 h.symm
  have hl : firstAddrOr none (y :: B) = some y.1 := rfl
  simp [iterator.preIncrement, h, hl, hne]

end Lemmas

section Claims
variable {K V : Type}

/-- Claim C34: on a tree with BST ordering and coherent parent links (its nodes living at
distinct addresses), `++it` at a node lands on the node's in-order successor, which holds the
smallest key greater than the current key; at the node holding the maximum key it yields
`end`.  The step taken is the leftmost node of the right subtree when a right child exists,
and the climb through the parent links otherwise. -/
theorem C34_increment_is_successor {lt : K → K → Bool} (hlt : StrictWeakOrder lt)
    (H : Node K V) (hb : BST lt H) (hn : (addrs H).Nodup) (hp : ParentOK none H) :
    (∀ A x y B r, inorder H = A ++ x :: y :: B →
      iterator.preIncrement H (iterator.mk (some x.1) r)
        = Outcome.ok (iterator.mk (some y.1) r) ∧
      (iterator.mk (some y.1) r).deref H = some y.2 ∧
      lt x.2.1 y.2.1 = true ∧
      ∀ z ∈ inorder H, ¬ (lt x.2.1 z.2.1 = true ∧ lt z.2.1 y.2.1 = true)) ∧
    (∀ A x r, inorder H = A ++ [x] →
      iterator.preIncrement H (iterator.mk (some x.1) r) = Outcome.ok (iterator.mk none r) ∧
      ∀ z ∈ inorder H, lt x.2.1 z.2.1 = false) ∧
    (∀ y a k v p l ra rk rv rp rl rr rh h,
      nodeAt y H = some (Node.node a k v p l (Node.node ra rk rv rp rl rr rh) h) →
      iterator.increment H y = Outcome.ok (some (leftmostAddr ra rl))) ∧
    (∀ y a k v p l h, nodeAt y H = some (Node.node a k v p l Node.nil h) →
      iterator.increment H y = iterator.climbRight H (numNodes H) y p) := by
  have hs := sorted_of_BST hlt hb
  refine ⟨?_, ?_, ?_, ?_⟩
  · intro A x y B r hx
    have hmem : y ∈ inorder H := by rw [hx]; simp
    obtain ⟨ya, yk, yv⟩ := y
    refine ⟨preIncrement_of_next hn hp hx r, deref_of_mem hn hmem, ?_, ?_⟩
    · rw [hx, List.pairwise_append, List.pairwise_cons] at hs
      exact hs.2.1.1 _ (List.mem_cons_self _ _)
    · rw [hx, List.pairwise_append, List.pairwise_cons, List.pairwise_cons] at hs
      obtain ⟨_, ⟨hxB, hyB, _⟩, hA⟩ := hs
      intro z hz hb
      rw [hx] at hz
      rcases List.mem_append.1 hz with h | h
      · have := hlt.asymm (hA z h _ (List.mem_cons_self _ _))
        rw [hb.1] at this
        cases this
      · rcases List.mem_cons.1 h with rfl | h
        · rw [hlt.irrefl] at hb
          exact absurd hb.1 (by simp)
        · rcases List.mem_cons.1 h with rfl | h
          · rw [hlt.irrefl] at hb
            exact absurd hb.2 (by simp)
          · have := hlt.asymm (hyB z h)
            rw [hb.2] at this
            cases this
  · intro A x r hx
    refine ⟨preIncrement_of_last hn hp hx r, ?_⟩
    rw [hx, List.pairwise_append] at hs
    intro z hz
    rw [hx] at hz
    rcases List.mem_append.1 hz with h | h
    · exact hlt.asymm (hs.2.2 z h x (List.mem_singleton_self _))
    · rw [List.mem_singleton.1 h]
      exact hlt.irrefl _
  · intro y a k v p l ra rk rv rp rl rr rh h e
    simp only [iterator.increment, e]
  · intro y a k v p l h e
    simp only [iterator.increment, e, parentOf]

/-- A concrete instance of C34: the tree holding 1, 2, 3 with coherent parent links. -/
theorem C34_witness :
    StrictWeakOrder ltNat ∧ BST ltNat sample3.m_root ∧ (addrs sample3.m_root).Nodup ∧
    ParentOK none sample3.m_root ∧
    inorder sample3.m_root = [(1, 1, 10)] ++ (0, 2, 20) :: (2, 3, 30) :: [] ∧
    iterator.preIncrement sample3.m_root (iterator.mk (some 0) (some 0))
      = Outcome.ok (iterator.mk (some 2) (some 0)) ∧
    iterator.preIncrement sample3.m_root (iterator.mk (some 2) (some 0))
      = Outcome.ok (iterator.mk none (some 0)) :=
  ⟨strictWeakOrder_ltNat, sample3_wellFormed.bst, sample3_wellFormed.nodup,
    sample3_wellFormed.parents, rfl,
    ((C34_increment_is_successor strictWeakOrder_ltNat sample3.m_root sample3_wellFormed.bst
      sample3_wellFormed.nodup sample3_wellFormed.parents).1
        [(1, 1, 10)] (0, 2, 20) (2, 3, 30) [] (some 0) rfl).1,
    ((C34_increment_is_successor strictWeakOrder_ltNat sample3.m_root sample3_wellFormed.bst
      sample3_wellFormed.nodup sample3_wellFormed.parents).2.1
        [(1, 1, 10), (0, 2, 20)] (2, 3, 30) (some 0) rfl).1⟩

end Claims
end Avl
namespace Avl
section Lemmas
variable {K V : Type}

/-! ## Insertion keeps the tree a valid AVL tree -/

theorem AVLCached_setParentIfPresent (p : Option Nat) {n : Node K V} (h : AVLCached n) :
    AVLCached (setParentIfPresent p n) := by
  cases n with
  | nil => exact h
  | node a k v q l r ht => exact h

theorem calculateBalanceFactor_setParentIfPresent (p : Option Nat) (n : Node K V) :
    calculateBalanceFactor (setParentIfPresent p n) = calculateBalanceFactor n := by
  cases n <;> rfl

theorem AVLCached.cached_pos {n : Node K V} (h : AVLCached n) : HPos n := by
  induction n with
  | nil => trivial
  | node a k v p l r ht ihl ihr =>
    obtain ⟨e, _, _, hl, hr⟩ := h
    have h1 := heightOf_nonneg (ihl hl)
    have h2 := heightOf_nonneg (ihr hr)
    exact ⟨by omega, ihl hl, ihr hr⟩

theorem AVLCached.factor_range {n : Node K V} (h : AVLCached n) :
    -1 ≤ calculateBalanceFactor n ∧ calculateBalanceFactor n ≤ 1 := by
  cases n with
  | nil => simp [calculateBalanceFactor]
  | node a k v p l r ht =>
    obtain ⟨_, h1, h2, _, _⟩ := h
    rw [calculateBalanceFactor_node]
    omega

theorem balance_rr_AVLCached (a : Nat) (k : K) (v : V) (p : Option Nat) (l r : Node K V)
    (h : Int) (hl : AVLCached l) (hr : AVLCached r)
    (hh : h = 1 + max (heightOf l) (heightOf r))
    (c1 : heightOf l - heightOf r = -2 ∧ calculateBalanceFactor r = -1) :
    ∃ m, rotateLeft (Node.node a k v p l r h) = some m ∧ AVLCached m ∧ m ≠ Node.nil ∧
      heightOf m = h - 1 := by
  have hl0 := heightOf_nonneg hl.cached_pos
  cases r with
  | nil => simp only [heightOf_nil] at c1; omega
  | node ra rk rv rp rl rr rh =>
    obtain ⟨e1, e2, e3, hrl, hrr⟩ := hr
    rw [calculateBalanceFactor_node] at c1
    simp only [heightOf_node] at c1 hh
    refine ⟨_, rfl, ⟨?_, ?_, ?_, ⟨?_, ?_, ?_, hl, AVLCached_setParentIfPresent _ hrl⟩, hrr⟩,
      by simp, ?_⟩ <;>
      simp only [heightOf_node, heightOf_setParentIfPresent] <;> omega

theorem balance_ll_AVLCached (a : Nat) (k : K) (v : V) (p : Option Nat) (l r : Node K V)
    (h : Int) (hl : AVLCached l) (hr : AVLCached r)
    (hh : h = 1 + max (heightOf l) (heightOf r))
    (c2 : heightOf l - heightOf r = 2 ∧ calculateBalanceFactor l = 1) :
    ∃ m, rotateRight (Node.node a k v p l r h) = some m ∧ AVLCached m ∧ m ≠ Node.nil ∧
      heightOf m = h - 1 := by
  have hr0 := heightOf_nonneg hr.cached_pos
  cases l with
  | nil => simp only [heightOf_nil] at c2; omega
  | node la lk lv lp ll lr lh =>
    obtain ⟨e1, e2, e3, hll, hlr⟩ := hl
    rw [calculateBalanceFactor_node] at c2
    simp only [heightOf_node] at c2 hh
    refine ⟨_, rfl, ⟨?_, ?_, ?_, hll, ?_, ?_, ?_, AVLCached_setParentIfPresent _ hlr, hr⟩,
      by simp, ?_⟩ <;>
      simp only [heightOf_node, heightOf_setParentIfPresent] <;> omega

theorem balance_rl_AVLCached (a : Nat) (k : K) (v : V) (p : Option Nat) (l r : Node K V)
    (h : Int) (hl : AVLCached l) (hr : AVLCached r)
    (hh : h = 1 + max (heightOf l) (heightOf r))
    (c3 : heightOf l - heightOf r = -2 ∧ calculateBalanceFactor r = 1) :
    ∃ m, ((rotateRight r).bind fun r1 => (setParent (some a) r1).bind fun r2 =>
        rotateLeft (Node.node a k v p l r2 h)) = some m ∧ AVLCached m ∧ m ≠ Node.nil ∧
      heightOf m = h - 1 := by
  have hl0 := heightOf_nonneg hl.cached_pos
  cases r with
  | nil => simp only [heightOf_nil] at c3; omega
  | node ra rk rv rp rl rr rh =>
    obtain ⟨e1, e2, e3, hrl, hrr⟩ := hr
    rw [calculateBalanceFactor_node] at c3
    simp only [heightOf_node] at c3 hh
    have hrr0 := heightOf_nonneg hrr.cached_pos
    cases rl with
    | nil => simp only [heightOf_nil] at c3; omega
    | node xa xk xv xp xl xr xh =>
      obtain ⟨f1, f2, f3, hxl, hxr⟩ := hrl
      simp only [heightOf_node] at c3 e1 e2 e3
      refine ⟨_, rfl, ⟨?_, ?_, ?_, ⟨?_, ?_, ?_, hl, AVLCached_setParentIfPresent _ hxl⟩,
        ⟨?_, ?_, ?_, AVLCached_setParentIfPresent _ hxr, hrr⟩⟩, by simp, ?_⟩ <;>
        simp only [heightOf_node, heightOf_setParentIfPresent] <;> omega

theorem balance_lr_AVLCached (a : Nat) (k : K) (v : V) (p : Option Nat) (l r : Node K V)
    (h : Int) (hl : AVLCached l) (hr : AVLCached r)
    (hh : h = 1 + max (heightOf l) (heightOf r))
    (c4 : heightOf l - heightOf r = 2 ∧ calculateBalanceFactor l = -1) :
    ∃ m, ((rotateLeft l).bind fun l1 => (setParent (some a) l1).bind fun l2 =>
        rotateRight (Node.node a k v p l2 r h)) = some m ∧ AVLCached m ∧ m ≠ Node.nil ∧
      heightOf m = h - 1 := by
  have hr0 := heightOf_nonneg hr.cached_pos
  cases l with
  | nil => simp only [heightOf_nil] at c4; omega
  | node la lk lv lp ll lr lh =>
    obtain ⟨e1, e2, e3, hll, hlr⟩ := hl
    rw [calculateBalanceFactor_node] at c4
    simp only [heightOf_node] at c4 hh
    have hll0 := heightOf_nonneg hll.cached_pos
    cases lr with
    | nil => simp only [heightOf_nil] at c4; omega
    | node xa xk xv xp xl xr xh =>
      obtain ⟨f1, f2, f3, hxl, hxr⟩ := hlr
      simp only [heightOf_node] at c4 e1 e2 e3
      refine ⟨_, rfl, ⟨?_, ?_, ?_, ⟨?_, ?_, ?_, hll, AVLCached_setParentIfPresent _ hxl⟩,
        ⟨?_, ?_, ?_, AVLCached_setParentIfPresent _ hxr, hr⟩⟩, by simp, ?_⟩ <;>
        simp only [heightOf_node, heightOf_setParentIfPresent] <;> omega

/-- The step `balance` takes where `insertImpl` calls it: the children are valid AVL trees over
their cached heights, the node's height has just been recomputed, the factor is within -2
and 2, and a child that makes the factor -2 or 2 does not itself have factor 0. -/
theorem balance_AVLCached (a : Nat) (k : K) (v : V) (p : Option Nat) (l r : Node K V) (h : Int)
    (hl : AVLCached l) (hr : AVLCached r) (hh : h = 1 + max (heightOf l) (heightOf r))
    (hb : heightOf l - heightOf r ≤ 2 ∧ heightOf r - heightOf l ≤ 2)
    (hR : heightOf l - heightOf r = -2 → calculateBalanceFactor r ≠ 0)
    (hL : heightOf l - heightOf r = 2 → calculateBalanceFactor l ≠ 0) :
    ∃ m, balance (Node.node a k v p l r h) = some m ∧ AVLCached m ∧ m ≠ Node.nil ∧
      (heightOf l - heightOf r ≤ 1 ∧ heightOf r - heightOf l ≤ 1 →
        m = Node.node a k v p l r h) ∧
      (heightOf l - heightOf r = 2 ∨ heightOf l - heightOf r = -2 → heightOf m = h - 1) := by
  have hfl := hl.factor_range
  have hfr := hr.factor_range
  unfold balance
  simp only [calculateBalanceFactor_node]
  split_ifs with c1 c2 c3 c4
  · obtain ⟨m, e, hm, hne, hh1⟩ := balance_rr_AVLCached a k v p l r h hl hr hh c1
    exact ⟨m, e, hm, hne, fun hc => by omega, fun _ => hh1⟩
  · obtain ⟨m, e, hm, hne, hh1⟩ := balance_ll_AVLCached a k v p l r h hl hr hh c2
    exact ⟨m, e, hm, hne, fun hc => by omega, fun _ => hh1⟩
  · obtain ⟨m, e, hm, hne, hh1⟩ := balance_rl_AVLCached a k v p l r h hl hr hh c3
    exact ⟨m, e, hm, hne, fun hc => by omega, fun _ => hh1⟩
  · obtain ⟨m, e, hm, hne, hh1⟩ := balance_lr_AVLCached a k v p l r h hl hr hh c4
    exact ⟨m, e, hm, hne, fun hc => by omega, fun _ => hh1⟩
  · have hrange : heightOf l - heightOf r ≤ 1 ∧ heightOf r - heightOf l ≤ 1 := by
      constructor
      · by_contra hc
        have h2 : heightOf l - heightOf r = 2 := by omega
        have := hL h2
        have h3 : calculateBalanceFactor l = 1 ∨ calculateBalanceFactor l = -1 := by omega
        rcases h3 with h3 | h3
        · exact c2 ⟨h2, h3⟩
        · exact c4 ⟨h2, h3⟩
      · by_contra hc
        have h2 : heightOf l - heightOf r = -2 := by omega
        have := hR h2
        have h3 : calculateBalanceFactor r = -1 ∨ calculateBalanceFactor r = 1 := by omega
        rcases h3 with h3 | h3
        · exact c1 ⟨h2, h3⟩
        · exact c3 ⟨h2, h3⟩
    refine ⟨_, rfl, ⟨hh, hrange.1, hrange.2, hl, hr⟩, by simp, fun _ => rfl, ?_⟩
    intro h2
    omega

theorem insertImpl_AVLCached (lt : K → K → Bool) (key : K) (value : V) (fresh : Nat)
    (rep : Bool) (n : Node K V) (hn : AVLCached n) :
    ∃ m ins did, insertImpl lt key value fresh rep n = some (m, ins, did) ∧
      AVLCached m ∧ m ≠ Node.nil ∧
      (heightOf m = heightOf n ∨
        (heightOf m = heightOf n + 1 ∧ (n = Node.nil ∨ calculateBalanceFactor m ≠ 0))) := by
  induction n with
  | nil =>
    exact ⟨_, _, _, rfl, ⟨rfl, by simp, by simp, trivial, trivial⟩, by simp,
      Or.inr ⟨rfl, Or.inl rfl⟩⟩
  | node a k v p l r h ihl ihr =>
    obtain ⟨e, b1, b2, hl, hr⟩ := hn
    have hl0 := heightOf_nonneg hl.cached_pos
    have hr0 := heightOf_nonneg hr.cached_pos
    unfold insertImpl
    by_cases c1 : lt k key = true
    · obtain ⟨r1, ins, did, er, hr1, hne, hh⟩ := ihr hr
      have hr2 := AVLCached_setParentIfPresent (some a) hr1
      obtain ⟨m, em, hm, hmne, hsame, hrot⟩ :=
        balance_AVLCached a k v p l (setParentIfPresent (some a) r1)
          (max (heightOf (setParentIfPresent (some a) r1)) (heightOf l) + 1) hl hr2
          (by rw [max_comm]; omega)
          (by simp only [heightOf_setParentIfPresent]; omega)
          (by
            simp only [heightOf_setParentIfPresent, calculateBalanceFactor_setParentIfPresent]
            intro h2
            rcases hh with hh | ⟨hh, hh2 | hh2⟩
            · omega
            · subst hh2
              simp only [heightOf_nil] at hh h2 hr0 b1 b2
              omega
            · exact hh2)
          (by simp only [heightOf_setParentIfPresent]; intro h2; omega)
      refine ⟨m, ins, did, ?_, hm, hmne, ?_⟩
      · simp only [if_pos c1, er, Option.some_bind, setParent_of_ne_nil (some a) hne, em]
      · simp only [heightOf_setParentIfPresent] at hsame hrot
        simp only [heightOf_node]
        by_cases hin : heightOf l - heightOf r1 ≤ 1 ∧ heightOf r1 - heightOf l ≤ 1
        · rw [hsame hin]
          simp only [heightOf_node, calculateBalanceFactor_node, heightOf_setParentIfPresent]
          rcases hh with hh | ⟨hh, _⟩
          · left; omega
          · by_cases hq : heightOf l = heightOf r
            · right
              refine ⟨by omega, Or.inr (by omega)⟩
            · left; omega
        · have h2 : heightOf l - heightOf r1 = 2 ∨ heightOf l - heightOf r1 = -2 := by omega
          left
          rw [hrot h2]
          omega
    · by_cases c2 : lt key k = true
      · obtain ⟨l1, ins, did, el, hl1, hne, hh⟩ := ihl hl
        have hl2 := AVLCached_setParentIfPresent (some a) hl1
        obtain ⟨m, em, hm, hmne, hsame, hrot⟩ :=
          balance_AVLCached a k v p (setParentIfPresent (some a) l1) r
            (max (heightOf r) (heightOf (setParentIfPresent (some a) l1)) + 1) hl2 hr
            (by rw [max_comm]; omega)
            (by simp only [heightOf_setParentIfPresent]; omega)
            (by simp only [heightOf_setParentIfPresent]; intro h2; omega)
            (by
              simp only [heightOf_setParentIfPresent, calculateBalanceFactor_setParentIfPresent]
              intro h2
              rcases hh with hh | ⟨hh, hh2 | hh2⟩
              · omega
              · subst hh2
                simp only [heightOf_nil] at hh h2 hl0 b1 b2
                omega
              · exact hh2)
        refine ⟨m, ins, did, ?_, hm, hmne, ?_⟩
        · simp only [if_neg c1, if_pos c2, el, Option.some_bind,
            setParent_of_ne_nil (some a) hne, em]
        · simp only [heightOf_setParentIfPresent] at hsame hrot
          simp only [heightOf_node]
          by_cases hin : heightOf l1 - heightOf r ≤ 1 ∧ heightOf r - heightOf l1 ≤ 1
          · rw [hsame hin]
            simp only [heightOf_node, calculateBalanceFactor_node, heightOf_setParentIfPresent]
            rcases hh with hh | ⟨hh, _⟩
            · left; omega
            · by_cases hq : heightOf l = heightOf r
              · right
                refine ⟨by omega, Or.inr (by omega)⟩
              · left; omega
          · have h2 : heightOf l1 - heightOf r = 2 ∨ heightOf l1 - heightOf r = -2 := by omega
            left
            rw [hrot h2]
            omega
      · refine ⟨Node.node a k (if rep then value else v) p l r h, some a, false, ?_, ?_,
          by simp, Or.inl rfl⟩
        · simp only [if_neg c1, if_neg c2]
        · exact ⟨e, b1, b2, hl, hr⟩

theorem heightOf_eq_trueHeight {n : Node K V} (h : HeightCoherent n) :
    heightOf n = (trueHeight n : Int) := by
  induction n with
  | nil => rfl
  | node a k v p l r ht ihl ihr =>
    obtain ⟨e, hl, hr⟩ := h
    simp only [heightOf_node, trueHeight, e, ihl hl, ihr hr]
    push_cast
    omega

theorem AVLCached_iff (n : Node K V) :
    AVLCached n ↔ HeightCoherent n ∧ AVLBalanced n = true := by
  induction n with
  | nil => simp [AVLCached, HeightCoherent, AVLBalanced]
  | node a k v p l r ht ihl ihr =>
    simp only [AVLCached, HeightCoherent, AVLBalanced, Bool.and_eq_true, decide_eq_true_eq, ihl,
      ihr]
    constructor
    · rintro ⟨e, b1, b2, ⟨hl, bl⟩, hr, br⟩
      rw [heightOf_eq_trueHeight hl, heightOf_eq_trueHeight hr] at b1 b2
      exact ⟨⟨e, hl, hr⟩, ⟨⟨by omega, by omega⟩, bl⟩, br⟩
    · rintro ⟨⟨e, hl, hr⟩, ⟨⟨b1, b2⟩, bl⟩, br⟩
      refine ⟨e, ?_, ?_, ⟨hl, bl⟩, hr, br⟩
      · rw [heightOf_eq_trueHeight hl, heightOf_eq_trueHeight hr]; omega
      · rw [heightOf_eq_trueHeight hl, heightOf_eq_trueHeight hr]; omega

/-- One `insert` or `insert_or_assign` on a tree with BST ordering that is a valid AVL tree
over its cached heights. -/
theorem insertWith_AVLCached {lt : K → K → Bool} (hlt : StrictWeakOrder lt) (rep : Bool)
    (t : AvlTree K V) (k : K) (v : V) (hb : BST lt t.m_root) (ha : AVLCached t.m_root) :
    ∃ t1 it did, AvlTree.insertWith lt rep t k v = some (t1, it, did) ∧
      BST lt t1.m_root ∧ AVLCached t1.m_root := by
  obtain ⟨m, ins, did, e, hm, hne, _⟩ := insertImpl_AVLCached lt k v t.heapTop rep t.m_root ha
  obtain ⟨m1, ins1, did1, e1, hins, _, _⟩ :=
    insertImpl_spec hlt k v t.heapTop rep t.m_root hb ha.cached_pos
  rw [e] at e1
  simp only [Option.some.injEq, Prod.mk.injEq] at e1
  obtain ⟨rfl, rfl, rfl⟩ := e1
  refine ⟨AvlTree.mk (setParentIfPresent none m)
      (if did then t.m_nodeCount + 1 else t.m_nodeCount)
      (if did then t.heapTop + 1 else t.heapTop),
    iterator.mk ins (addrOf (setParentIfPresent none m)), did,
    by simp [AvlTree.insertWith, e, setParent_of_ne_nil none hne], ?_, ?_⟩
  · apply BST_of_sorted hlt
    simpa using hins.sorted (sorted_of_BST hlt hb)
  · exact AVLCached_setParentIfPresent none hm

theorem run_insertions_AVLCached {lt : K → K → Bool} (hlt : StrictWeakOrder lt)
    (ops : List (Op K V)) :
    ∀ t : AvlTree K V, (∀ op ∈ ops, op.isInsertion = true) → BST lt t.m_root →
      AVLCached t.m_root →
      ∃ t1, run lt t ops = some t1 ∧ BST lt t1.m_root ∧ AVLCached t1.m_root := by
  induction ops with
  | nil => exact fun t _ hb ha => ⟨t, rfl, hb, ha⟩
  | cons op ops ih =>
    intro t hops hb ha
    have hop := hops op (List.mem_cons_self _ _)
    have hrest : ∀ o ∈ ops, o.isInsertion = true := fun o ho =>
      hops o (List.mem_cons_of_mem _ ho)
    cases op with
    | insert key value =>
      obtain ⟨t1, it, did, e, hb1, ha1⟩ := insertWith_AVLCached hlt false t key value hb ha
      obtain ⟨t2, e2, h2⟩ := ih t1 hrest hb1 ha1
      exact ⟨t2, by simp [run, step, AvlTree.insert, e, e2], h2⟩
    | insert_or_assign key value =>
      obtain ⟨t1, it, did, e, hb1, ha1⟩ := insertWith_AVLCached hlt true t key value hb ha
      obtain ⟨t2, e2, h2⟩ := ih t1 hrest hb1 ha1
      exact ⟨t2, by simp [run, step, AvlTree.insert_or_assign, e, e2], h2⟩
    | erase key => simp [Op.isInsertion] at hop
    | clear => simp [Op.isInsertion] at hop

end Lemmas

section Claims
variable {K V : Type}

/-- Claim C35: `insert` and `insert_or_assign` preserve full AVL validity: on a tree with BST
ordering, AVL balance and height coherence, the call returns and the tree afterwards has all
three; hence every tree built from the empty tree by insertions only has BST ordering, AVL
balance and height coherence. -/
theorem C35_insert_preserves_avl {lt : K → K → Bool} (hlt : StrictWeakOrder lt) :
    (∀ (t : AvlTree K V) (k : K) (v : V),
      BST lt t.m_root → AVLBalanced t.m_root = true → HeightCoherent t.m_root →
      (∃ t1 it did, t.insert lt k v = some (t1, it, did) ∧
        BST lt t1.m_root ∧ AVLBalanced t1.m_root = true ∧ HeightCoherent t1.m_root) ∧
      (∃ t1 it did, t.insert_or_assign lt k v = some (t1, it, did) ∧
        BST lt t1.m_root ∧ AVLBalanced t1.m_root = true ∧ HeightCoherent t1.m_root)) ∧
    (∀ (top : Nat) (ops : List (Op K V)), (∀ op ∈ ops, op.isInsertion = true) →
      ∃ t1, run lt (AvlTree.empty top) ops = some t1 ∧
        BST lt t1.m_root ∧ AVLBalanced t1.m_root = true ∧ HeightCoherent t1.m_root) := by
  constructor
  · intro t k v hb hbal hc
    have ha := (AVLCached_iff t.m_root).2 ⟨hc, hbal⟩
    constructor
    · obtain ⟨t1, it, did, e, hb1, ha1⟩ := insertWith_AVLCached hlt false t k v hb ha
      have h1 := (AVLCached_iff t1.m_root).1 ha1
      exact ⟨t1, it, did, e, hb1, h1.2, h1.1⟩
    · obtain ⟨t1, it, did, e, hb1, ha1⟩ := insertWith_AVLCached hlt true t k v hb ha
      have h1 := (AVLCached_iff t1.m_root).1 ha1
      exact ⟨t1, it, did, e, hb1, h1.2, h1.1⟩
  · intro top ops hops
    obtain ⟨t1, e, hb1, ha1⟩ :=
      run_insertions_AVLCached hlt ops (AvlTree.empty top) hops trivial trivial
    have h1 := (AVLCached_iff t1.m_root).1 ha1
    exact ⟨t1, e, hb1, h1.2, h1.1⟩

/-- A concrete instance of C35: inserting 4 into the tree holding 1, 2, 3, and the tree
built by inserting 1 to 7 in increasing order, which is the perfect tree 4(2(1,3), 6(5,7)). -/
theorem C35_witness :
    StrictWeakOrder ltNat ∧ BST ltNat sample3.m_root ∧ AVLBalanced sample3.m_root = true ∧
    HeightCoherent sample3.m_root ∧
    (∃ t1 it did, sample3.insert ltNat 4 40 = some (t1, it, did) ∧
      BST ltNat t1.m_root ∧ AVLBalanced t1.m_root = true ∧ HeightCoherent t1.m_root) ∧
    (∃ t1, run ltNat (AvlTree.empty 0)
        [Op.insert 1 1, Op.insert 2 2, Op.insert 3 3, Op.insert 4 4, Op.insert 5 5,
          Op.insert_or_assign 6 6, Op.insert 7 7] = some t1 ∧
      BST ltNat t1.m_root ∧ AVLBalanced t1.m_root = true ∧ HeightCoherent t1.m_root) ∧
    (run ltNat (AvlTree.empty 0)
        [Op.insert 1 1, Op.insert 2 2, Op.insert 3 3, Op.insert 4 4, Op.insert 5 5,
          Op.insert_or_assign 6 6, Op.insert 7 7]).map (fun t1 => shapeOf t1.m_root)
      = some (Shape.node
          (Shape.node (Shape.node Shape.leaf 1 Shape.leaf) 2 (Shape.node Shape.leaf 3 Shape.leaf))
          4
          (Shape.node (Shape.node Shape.leaf 5 Shape.leaf) 6
            (Shape.node Shape.leaf 7 Shape.leaf))) :=
  ⟨strictWeakOrder_ltNat, sample3_wellFormed.bst, rfl,
    ⟨rfl, ⟨rfl, trivial, trivial⟩, ⟨rfl, trivial, trivial⟩⟩,
    ((C35_insert_preserves_avl strictWeakOrder_ltNat).1 sample3 4 40 sample3_wellFormed.bst rfl
      ⟨rfl, ⟨rfl, trivial, trivial⟩, ⟨rfl, trivial, trivial⟩⟩).1,
    (C35_insert_preserves_avl strictWeakOrder_ltNat).2 0 _ (by decide),
    rfl⟩

end Claims
end Avl
namespace Avl
section Lemmas
variable {K V : Type}

/-! ## The frame of `erase` and `insert`, and definedness from positive cached heights -/

theorem Erased.eq_filter {lt : K → K → Bool} (hlt : StrictWeakOrder lt) {key : K}
    {heap : Node K V} {xs ys : List (Nat × K × V)} {next next1 : Outcome iterator}
    {cnt cnt1 : Nat} (h : Erased lt key heap xs ys next cnt next1 cnt1)
    (hs : xs.Pairwise (fun x y => lt x.2.1 y.2.1 = true)) :
    ys = xs.filter (fun x => !(!lt key x.2.1 && !lt x.2.1 key)) := by
  have hkeep : ∀ zs : List (Nat × K × V), (∀ x ∈ zs, ¬ Equiv lt key x.2.1) →
      zs.filter (fun x => !(!lt key x.2.1 && !lt x.2.1 key)) = zs := by
    intro zs hz
    rw [List.filter_eq_self]
    intro x hx
    have : (!lt key x.2.1 && !lt x.2.1 key) = false := by
      rw [Bool.eq_false_iff, Ne, equiv_iff_pred]
      exact hz x hx
    rw [this]
    rfl
  cases h with
  | absent hy hn =>
    subst hy
    exact (hkeep _ hn).symm
  | removed L R a k0 v0 hx hy he =>
    subst hx hy
    rw [List.pairwise_append, List.pairwise_cons] at hs
    have hL : ∀ x ∈ L, ¬ Equiv lt key x.2.1 := fun x hx =>
      not_equiv_of_gt (hlt.lt_of_lt_of_equiv (hs.2.2 x hx _ (List.mem_cons_self _ _)) he.symm)
    have hR : ∀ x ∈ R, ¬ Equiv lt key x.2.1 := fun x hx =>
      not_equiv_of_lt (hlt.lt_of_equiv_of_lt he (hs.2.1.1 x hx))
    have hp : (!lt key k0 && !lt k0 key) = true := (equiv_iff_pred key k0).2 he
    rw [List.filter_append, List.filter_cons, hkeep L hL, hkeep R hR]
    simp [hp]

theorem insertImpl_defined (lt : K → K → Bool) (key : K) (value : V) (fresh : Nat)
    (rep : Bool) (n : Node K V) (hp : HPos n) :
    ∃ m ins did, insertImpl lt key value fresh rep n = some (m, ins, did) ∧
      HPos m ∧ m ≠ Node.nil := by
  induction n with
  | nil => exact ⟨_, _, _, rfl, ⟨le_refl _, trivial, trivial⟩, by simp⟩
  | node a k v p l r h ihl ihr =>
    obtain ⟨h1, pl, pr⟩ := hp
    have hl0 := heightOf_nonneg pl
    have hr0 := heightOf_nonneg pr
    unfold insertImpl
    by_cases c1 : lt k key = true
    · obtain ⟨r1, ins, did, e, pr1, nr1⟩ := ihr pr
      have hr1 := heightOf_nonneg pr1
      obtain ⟨m, em, sm⟩ := balance_spec a k v p l (setParentIfPresent (some a) r1)
        (max (heightOf (setParentIfPresent (some a) r1)) (heightOf l) + 1)
        ⟨by simp only [heightOf_setParentIfPresent]; omega, pl,
          HPos_setParentIfPresent _ pr1⟩
      refine ⟨m, ins, did, ?_, sm.hpos, sm.ne_nil⟩
      simp only [heightOf_setParentIfPresent] at em
      simp [c1, e, setParent_of_ne_nil (some a) nr1, em]
    · by_cases c2 : lt key k = true
      · obtain ⟨l1, ins, did, e, pl1, nl1⟩ := ihl pl
        have hl1 := heightOf_nonneg pl1
        obtain ⟨m, em, sm⟩ := balance_spec a k v p (setParentIfPresent (some a) l1) r
          (max (heightOf r) (heightOf (setParentIfPresent (some a) l1)) + 1)
          ⟨by simp only [heightOf_setParentIfPresent]; omega,
            HPos_setParentIfPresent _ pl1, pr⟩
        refine ⟨m, ins, did, ?_, sm.hpos, sm.ne_nil⟩
        simp only [heightOf_setParentIfPresent] at em
        simp [c1, c2, e, setParent_of_ne_nil (some a) nl1, em]
      · exact ⟨Node.node a k (if rep then value else v) p l r h, some a, false,
          by simp [c1, c2], (show HPos (Node.node a k _ p l r h) from ⟨h1, pl, pr⟩), by simp⟩

theorem eraseImpl_defined (lt : K → K → Bool) (heap : Node K V) (key : K)
    (next : Outcome iterator) (cnt : Nat) (n : Node K V) (hp : HPos n) :
    ∃ m next1 cnt1, eraseImpl lt heap key n next cnt = some (m, next1, cnt1) ∧ HPos m := by
  induction n with
  | nil => exact ⟨_, _, _, rfl, trivial⟩
  | node a k v p l r h ihl ihr =>
    obtain ⟨h1, pl, pr⟩ := hp
    have hl0 := heightOf_nonneg pl
    have hr0 := heightOf_nonneg pr
    unfold eraseImpl
    by_cases c1 : lt k key = true
    · obtain ⟨r1, nx, ct, e, pr1⟩ := ihr pr
      have hr1 := heightOf_nonneg pr1
      obtain ⟨m, em, sm⟩ := balance_spec a k v p l (setParentIfPresent (some a) r1)
        (max (heightOf (setParentIfPresent (some a) r1)) (heightOf l) + 1)
        ⟨by simp only [heightOf_setParentIfPresent]; omega, pl,
          HPos_setParentIfPresent _ pr1⟩
      refine ⟨m, nx, ct, ?_, sm.hpos⟩
      simp only [heightOf_setParentIfPresent] at em
      simp [c1, e, em]
    · by_cases c2 : lt key k = true
      · obtain ⟨l1, nx, ct, e, pl1⟩ := ihl pl
        have hl1 := heightOf_nonneg pl1
        obtain ⟨m, em, sm⟩ := balance_spec a k v p (setParentIfPresent (some a) l1) r
          (max (heightOf r) (heightOf (setParentIfPresent (some a) l1)) + 1)
          ⟨by simp only [heightOf_setParentIfPresent]; omega,
            HPos_setParentIfPresent _ pl1, pr⟩
        refine ⟨m, nx, ct, ?_, sm.hpos⟩
        simp only [heightOf_setParentIfPresent] at em
        simp [c1, c2, e, em]
      · obtain ⟨d, m, ed, _, pm⟩ := detachNode_spec a k v p l r h ⟨h1, pl, pr⟩
        cases m with
        | nil =>
          exact ⟨Node.nil, iterator.preIncrement heap (iterator.mk (some a) (addrOf heap)),
            cnt - 1, by simp [c1, c2, ed], trivial⟩
        | node a1 k1 v1 p1 l1 r1 h2 =>
          have hl1 := heightOf_nonneg pm.2.1
          have hr1 := heightOf_nonneg pm.2.2
          obtain ⟨b, eb, sb⟩ := balance_spec a1 k1 v1 p1 l1 r1
            (max (heightOf r1) (heightOf l1) + 1) ⟨by omega, pm.2.1, pm.2.2⟩
          exact ⟨b, iterator.preIncrement heap (iterator.mk (some a) (addrOf heap)),
            cnt - 1, by simp [c1, c2, ed, eb], sb.hpos⟩

theorem erase_of_eraseImpl {lt : K → K → Bool} {t : AvlTree K V} {key : K} {m : Node K V}
    {next1 : Outcome iterator} {cnt1 : Nat} (hE : ¬ t.isEmpty = true)
    (e : eraseImpl lt t.m_root key t.m_root (Outcome.ok t.end) t.m_nodeCount
      = some (m, next1, cnt1)) :
    ∃ o, t.erase lt key = some (AvlTree.mk (setParentIfPresent none m) cnt1 t.heapTop, o) :=
  ⟨_, by simp only [AvlTree.erase, hE, e, Option.some_bind]; rfl⟩

end Lemmas

section Claims
variable {K V : Type}

/-- Claim C36 fails in the code: insert 2, 1, 4, 3 and erase 2.  The resulting tree 3(1, 4)
satisfies BST ordering (every cached height is at least 1 and `size()` is the number of
nodes), but `detachNode` has left the parent links of nodes 1 and 4 naming the released node
2.  `erase(4)` finds node 4, which has no right child, and takes the successor step
`++(*next)` through the dangling parent link: the call has no defined behaviour, so there is
no in-order sequence afterwards that equals the one before without the entry for 4. -/
theorem C36_erase_undefined_on_bst_tree :
    ∃ t, run ltNat (AvlTree.empty 0)
        [Op.insert 2 20, Op.insert 1 10, Op.insert 4 40, Op.insert 3 30, Op.erase 2]
        = some t ∧
      BST ltNat t.m_root ∧ HPos t.m_root ∧ t.m_nodeCount = numNodes t.m_root ∧
      shapeOf t.m_root
        = Shape.node (Shape.node Shape.leaf 1 Shape.leaf) 3 (Shape.node Shape.leaf 4 Shape.leaf) ∧
      toList t.m_root = [(1, 10), (3, 30), (4, 40)] ∧
      ¬ ParentOK none t.m_root ∧
      parentOf (rightOf t.m_root) = some 0 ∧ nodeAt 0 t.m_root = none ∧
      iterator.increment t.m_root 2 = Outcome.undefined ∧
      (t.erase ltNat 4).map Prod.snd = some Outcome.undefined :=
  ⟨_, rfl,
    (reachable_inv strictWeakOrder_ltNat
      ⟨0, [Op.insert 2 20, Op.insert 1 10, Op.insert 4 40, Op.insert 3 30, Op.erase 2],
        rfl⟩).bst,
    (reachable_inv strictWeakOrder_ltNat
      ⟨0, [Op.insert 2 20, Op.insert 1 10, Op.insert 4 40, Op.insert 3 30, Op.erase 2],
        rfl⟩).hpos,
    rfl, rfl, rfl,
    (fun h => absurd (show (some 0 : Option Nat) = some 3 from h.2.1.1) (by decide)),
    rfl, rfl, rfl, rfl⟩

/-- Claim C37: `insert` touches only the inserted key.  On a tree with BST ordering (every
cached height at least 1) in which `k` is not present, `insert(k, v)` returns with
`didInsert = true`, and the in-order sequence of (key, value) pairs afterwards is the sequence
before with (k, v) added at its sorted position: after the entries with a smaller key and
before those with a greater key, all of which keep their values and their order, whatever
rotations take place. -/
theorem C37_insert_adds_only_the_key {lt : K → K → Bool} (hlt : StrictWeakOrder lt)
    (t : AvlTree K V) (k : K) (v : V) (hb : BST lt t.m_root) (hp : HPos t.m_root)
    (hk : t.find lt k = t.end) :
    ∃ t1 it, t.insert lt k v = some (t1, it, true) ∧ BST lt t1.m_root ∧
      ∃ L R, toList t.m_root = L ++ R ∧ toList t1.m_root = L ++ (k, v) :: R ∧
        (∀ x ∈ L, lt x.1 k = true) ∧ (∀ x ∈ R, lt k x.1 = true) := by
  obtain ⟨m, ins, did, e, hins, _, hne⟩ :=
    insertImpl_spec hlt k v t.heapTop false t.m_root hb hp
  have habs := find_eq_end hlt hb hk
  have hbst : BST lt (setParentIfPresent none m) := by
    apply BST_of_sorted hlt
    simpa using hins.sorted (sorted_of_BST hlt hb)
  cases hins with
  | found L R a k0 v0 hx hy he hL hR =>
    exact absurd he (habs (a, k0, v0) (by rw [hx]; simp))
  | added L R hx hy hL hR =>
    refine ⟨AvlTree.mk (setParentIfPresent none m) (t.m_nodeCount + 1) (t.heapTop + 1),
      iterator.mk (some t.heapTop) (addrOf (setParentIfPresent none m)), ?_, hbst,
      L.map Prod.snd, R.map Prod.snd, ?_, ?_, ?_, ?_⟩
    · simp [AvlTree.insert, AvlTree.insertWith, e, setParent_of_ne_nil none hne]
    · simp [toList, hx]
    · simp [toList, hy]
    · intro x hx1
      obtain ⟨y, hy1, rfl⟩ := List.mem_map.1 hx1
      exact hL y hy1
    · intro x hx1
      obtain ⟨y, hy1, rfl⟩ := List.mem_map.1 hx1
      exact hR y hy1

/-- A concrete instance of C37: inserting key 4 into the tree holding 1, 2, 3. -/
theorem C37_witness :
    StrictWeakOrder ltNat ∧ BST ltNat sample3.m_root ∧ HPos sample3.m_root ∧
    sample3.find ltNat 4 = sample3.end ∧
    (sample3.insert ltNat 4 40).map (fun res => toList res.1.m_root)
      = some [(1, 10), (2, 20), (3, 30), (4, 40)] ∧
    ∃ t1 it, sample3.insert ltNat 4 40 = some (t1, it, true) ∧ BST ltNat t1.m_root ∧
      ∃ L R, toList sample3.m_root = L ++ R ∧ toList t1.m_root = L ++ (4, 40) :: R ∧
        (∀ x ∈ L, ltNat x.1 4 = true) ∧ (∀ x ∈ R, ltNat 4 x.1 = true) :=
  ⟨strictWeakOrder_ltNat, sample3_wellFormed.bst,
    (reachable_inv strictWeakOrder_ltNat sample3_reachable).hpos, rfl, rfl,
    C37_insert_adds_only_the_key strictWeakOrder_ltNat sample3 4 40 sample3_wellFormed.bst
      (reachable_inv strictWeakOrder_ltNat sample3_reachable).hpos rfl⟩

/-- Claim C38: rotations are never applied without their pivot.  When every cached height is
at least 1, each row of the resolution table of `balance` that rotates has its pivot child
present, in the double rotations the inner pivot as well, so `balance` returns; a rotation
is undefined exactly on a node without the pivot child; and `insert`, `insert_or_assign` and
`erase` on such a tree return a tree, again with every cached height at least 1. -/
theorem C38_rotation_pivots_present (lt : K → K → Bool) :
    (∀ (a : Nat) (k : K) (v : V) (p : Option Nat) (l r : Node K V) (h : Int),
      HPos (Node.node a k v p l r h) →
      (heightOf l - heightOf r = -2 ∧ calculateBalanceFactor r = -1 → r ≠ Node.nil) ∧
      (heightOf l - heightOf r = 2 ∧ calculateBalanceFactor l = 1 → l ≠ Node.nil) ∧
      (heightOf l - heightOf r = -2 ∧ calculateBalanceFactor r = 1 →
        r ≠ Node.nil ∧ leftOf r ≠ Node.nil) ∧
      (heightOf l - heightOf r = 2 ∧ calculateBalanceFactor l = -1 →
        l ≠ Node.nil ∧ rightOf l ≠ Node.nil) ∧
      ∃ m, balance (Node.node a k v p l r h) = some m ∧ HPos m ∧ m ≠ Node.nil) ∧
    (∀ (a : Nat) (k : K) (v : V) (p : Option Nat) (l r : Node K V) (h : Int),
      (rotateLeft (Node.node a k v p l r h) = none ↔ r = Node.nil) ∧
      (rotateRight (Node.node a k v p l r h) = none ↔ l = Node.nil)) ∧
    (∀ (t : AvlTree K V) (k : K) (v : V), HPos t.m_root →
      (∃ res, t.insert lt k v = some res ∧ HPos res.1.m_root) ∧
      (∃ res, t.insert_or_assign lt k v = some res ∧ HPos res.1.m_root) ∧
      (∃ res, t.erase lt k = some res ∧ HPos res.1.m_root)) := by
  refine ⟨?_, ?_, ?_⟩
  · intro a k v p l r h hp
    have hl0 := heightOf_nonneg hp.2.1
    have hr0 := heightOf_nonneg hp.2.2
    refine ⟨?_, ?_, ?_, ?_, ?_⟩
    · intro c
      exact ne_nil_of_heightOf_pos (by omega)
    · intro c
      exact ne_nil_of_heightOf_pos (by omega)
    · intro c
      refine ⟨ne_nil_of_heightOf_pos (by omega), ?_⟩
      cases r with
      | nil => simp only [heightOf_nil] at c; omega
      | node ra rk rv rp rl rr rh =>
        have hrr0 := heightOf_nonneg hp.2.2.2.2
        rw [calculateBalanceFactor_node] at c
        show rl ≠ Node.nil
        exact ne_nil_of_heightOf_pos (by omega)
    · intro c
      refine ⟨ne_nil_of_heightOf_pos (by omega), ?_⟩
      cases l with
      | nil => simp only [heightOf_nil] at c; omega
      | node la lk lv lp ll lr lh =>
        have hll0 := heightOf_nonneg hp.2.1.2.1
        rw [calculateBalanceFactor_node] at c
        show lr ≠ Node.nil
        exact ne_nil_of_heightOf_pos (by omega)
    · obtain ⟨m, e, sm⟩ := balance_spec a k v p l r h hp
      exact ⟨m, e, sm.hpos, sm.ne_nil⟩
  · intro a k v p l r h
    constructor
    · cases r <;> simp [rotateLeft]
    · cases l <;> simp [rotateRight]
  · intro t k v hp
    refine ⟨?_, ?_, ?_⟩
    · obtain ⟨m, ins, did, e, pm, hne⟩ := insertImpl_defined lt k v t.heapTop false t.m_root hp
      exact ⟨(AvlTree.mk (setParentIfPresent none m)
          (if did then t.m_nodeCount + 1 else t.m_nodeCount)
          (if did then t.heapTop + 1 else t.heapTop),
          iterator.mk ins (addrOf (setParentIfPresent none m)), did),
        by simp [AvlTree.insert, AvlTree.insertWith, e, setParent_of_ne_nil none hne],
        HPos_setParentIfPresent none pm⟩
    · obtain ⟨m, ins, did, e, pm, hne⟩ := insertImpl_defined lt k v t.heapTop true t.m_root hp
      exact ⟨(AvlTree.mk (setParentIfPresent none m)
          (if did then t.m_nodeCount + 1 else t.m_nodeCount)
          (if did then t.heapTop + 1 else t.heapTop),
          iterator.mk ins (addrOf (setParentIfPresent none m)), did),
        by simp [AvlTree.insert_or_assign, AvlTree.insertWith, e,
          setParent_of_ne_nil none hne],
        HPos_setParentIfPresent none pm⟩
    · by_cases hE : t.isEmpty = true
      · exact ⟨(t, Outcome.ok t.end), by simp [AvlTree.erase, hE], hp⟩
      · obtain ⟨m, next1, cnt1, e, pm⟩ :=
          eraseImpl_defined lt t.m_root k (Outcome.ok t.end) t.m_nodeCount t.m_root hp
        obtain ⟨o, ho⟩ := erase_of_eraseImpl hE e
        exact ⟨_, ho, HPos_setParentIfPresent none pm⟩

/-- A concrete instance of C38: the zigzag 1(-, 3(2)) has factor -2 over a right child of
factor 1, and both pivots are present; insert and erase on the tree holding 1, 2, 3
return. -/
theorem C38_witness :
    HPos (Node.node 0 1 10 none Node.nil
      (Node.node 1 3 30 (some 0) (Node.node 2 2 20 (some 1) Node.nil Node.nil 1) Node.nil 2)
      3 : Node Nat Nat) ∧
    HPos sample3.m_root ∧
    ((Node.node 1 3 30 (some 0) (Node.node 2 2 20 (some 1) Node.nil Node.nil 1) Node.nil 2
        : Node Nat Nat) ≠ Node.nil ∧
      leftOf (Node.node 1 3 30 (some 0) (Node.node 2 2 20 (some 1) Node.nil Node.nil 1)
        Node.nil 2 : Node Nat Nat) ≠ Node.nil) ∧
    (∃ res, sample3.erase ltNat 2 = some res ∧ HPos res.1.m_root) :=
  ⟨⟨by decide, trivial, by decide, ⟨by decide, trivial, trivial⟩, trivial⟩,
    (reachable_inv strictWeakOrder_ltNat sample3_reachable).hpos,
    ((C38_rotation_pivots_present ltNat).1 0 1 10 none Node.nil
      (Node.node 1 3 30 (some 0) (Node.node 2 2 20 (some 1) Node.nil Node.nil 1) Node.nil 2) 3
      ⟨by decide, trivial, by decide, ⟨by decide, trivial, trivial⟩, trivial⟩).2.2.1
      ⟨by decide, by decide⟩,
    ((C38_rotation_pivots_present ltNat).2.2 sample3 2 20
      (reachable_inv strictWeakOrder_ltNat sample3_reachable).hpos).2.2⟩

end Claims
end Avl
namespace Avl
section Lemmas
variable {K V : Type}

/-! ## Calls that change no key set leave a valid AVL tree as it is -/

theorem layout_setParentIfPresent (p : Option Nat) (n : Node K V) :
    layout (setParentIfPresent p n) = layout n := by
  cases n <;> rfl

theorem heightOf_of_layout {m n : Node K V} (h : layout m = layout n) :
    heightOf m = heightOf n := by
  cases m with
  | nil =>
    cases n with
    | nil => rfl
    | node _ _ _ _ _ _ _ => simp [layout] at h
  | node a k v p l r ht =>
    cases n with
    | nil => simp [layout] at h
    | node b kb vb pb lb rb hb =>
      simp only [layout, Shape.node.injEq, Prod.mk.injEq] at h
      simp only [heightOf_node]
      exact h.2.1.2.2

theorem shapeOf_of_layout {m n : Node K V} (h : layout m = layout n) :
    shapeOf m = shapeOf n := by
  induction m generalizing n with
  | nil =>
    cases n with
    | nil => rfl
    | node _ _ _ _ _ _ _ => simp [layout] at h
  | node a k v p l r ht ihl ihr =>
    cases n with
    | nil => simp [layout] at h
    | node b kb vb pb lb rb hb =>
      simp only [layout, Shape.node.injEq, Prod.mk.injEq] at h
      simp only [shapeOf, ihl h.1, ihr h.2.2, h.2.1.2.1]

theorem balance_of_factor_range (a : Nat) (k : K) (v : V) (p : Option Nat) (l r : Node K V)
    (h : Int) (h1 : heightOf l - heightOf r ≤ 1) (h2 : heightOf r - heightOf l ≤ 1) :
    balance (Node.node a k v p l r h) = some (Node.node a k v p l r h) := by
  have c1 : ¬ (heightOf l - heightOf r = -2 ∧ calculateBalanceFactor r = -1) := by
    intro c; omega
  have c2 : ¬ (heightOf l - heightOf r = 2 ∧ calculateBalanceFactor l = 1) := by
    intro c; omega
  have c3 : ¬ (heightOf l - heightOf r = -2 ∧ calculateBalanceFactor r = 1) := by
    intro c; omega
  have c4 : ¬ (heightOf l - heightOf r = 2 ∧ calculateBalanceFactor l = -1) := by
    intro c; omega
  simp only [balance, calculateBalanceFactor_node, if_neg c1, if_neg c2, if_neg c3, if_neg c4]

theorem insertImpl_present_layout {lt : K → K → Bool} (hlt : StrictWeakOrder lt) (key : K)
    (value : V) (fresh : Nat) (rep : Bool) (n : Node K V) (ha : AVLCached n) (a0 : Nat)
    (hf : findLoop lt key n = some a0) :
    ∃ m, insertImpl lt key value fresh rep n = some (m, some a0, false) ∧
      layout m = layout n ∧ m ≠ Node.nil ∧ (rep = false → inorder m = inorder n) := by
  induction n with
  | nil => simp [findLoop] at hf
  | node a k v p l r h ihl ihr =>
    obtain ⟨e, b1, b2, hl, hr⟩ := ha
    unfold findLoop at hf
    unfold insertImpl
    by_cases c1 : lt k key = true
    · have c2 : ¬ lt key k = true := by
        have := hlt.asymm c1
        simp [this]
      rw [if_neg c2, if_pos c1] at hf
      obtain ⟨r1, er, hlay, hne, hin⟩ := ihr hr hf
      have hh := heightOf_of_layout hlay
      refine ⟨Node.node a k v p l (setParentIfPresent (some a) r1) h, ?_, ?_, by simp, ?_⟩
      · have hht : max (heightOf (setParentIfPresent (some a) r1)) (heightOf l) + 1 = h := by
          rw [heightOf_setParentIfPresent, hh, max_comm]
          omega
        simp only [if_pos c1, er, Option.some_bind, setParent_of_ne_nil (some a) hne, hht]
        rw [balance_of_factor_range]
        · rfl
        · rw [heightOf_setParentIfPresent, hh]; exact b1
        · rw [heightOf_setParentIfPresent, hh]; exact b2
      · simp only [layout, layout_setParentIfPresent, hlay]
      · intro hrep
        simp only [inorder_node, inorder_setParentIfPresent, hin hrep]
    · by_cases c2 : lt key k = true
      · rw [if_pos c2] at hf
        obtain ⟨l1, el, hlay, hne, hin⟩ := ihl hl hf
        have hh := heightOf_of_layout hlay
        refine ⟨Node.node a k v p (setParentIfPresent (some a) l1) r h, ?_, ?_, by simp, ?_⟩
        · have hht : max (heightOf r) (heightOf (setParentIfPresent (some a) l1)) + 1 = h := by
            rw [heightOf_setParentIfPresent, hh, max_comm]
            omega
          simp only [if_neg c1, if_pos c2, el, Option.some_bind,
            setParent_of_ne_nil (some a) hne, hht]
          rw [balance_of_factor_range]
          · rfl
          · rw [heightOf_setParentIfPresent, hh]; exact b1
          · rw [heightOf_setParentIfPresent, hh]; exact b2
        · simp only [layout, layout_setParentIfPresent, hlay]
        · intro hrep
          simp only [inorder_node, inorder_setParentIfPresent, hin hrep]
      · rw [if_neg c2, if_neg c1] at hf
        simp only [Option.some.injEq] at hf
        subst hf
        refine ⟨Node.node a k (if rep then value else v) p l r h, ?_, rfl, by simp, ?_⟩
        · simp only [if_neg c1, if_neg c2]
        · intro hrep
          simp [hrep]

theorem eraseImpl_absent_layout {lt : K → K → Bool} (hlt : StrictWeakOrder lt)
    (heap : Node K V) (key : K) (next : Outcome iterator) (cnt : Nat) (n : Node K V)
    (ha : AVLCached n) (hf : findLoop lt key n = none) :
    ∃ m, eraseImpl lt heap key n next cnt = some (m, next, cnt) ∧
      layout m = layout n ∧ inorder m = inorder n := by
  induction n with
  | nil => exact ⟨Node.nil, rfl, rfl, rfl⟩
  | node a k v p l r h ihl ihr =>
    obtain ⟨e, b1, b2, hl, hr⟩ := ha
    unfold findLoop at hf
    unfold eraseImpl
    by_cases c1 : lt k key = true
    · have c2 : ¬ lt key k = true := by
        have := hlt.asymm c1
        simp [this]
      rw [if_neg c2, if_pos c1] at hf
      obtain ⟨r1, er, hlay, hin⟩ := ihr hr hf
      have hh := heightOf_of_layout hlay
      refine ⟨Node.node a k v p l (setParentIfPresent (some a) r1) h, ?_, ?_, ?_⟩
      · have hht : max (heightOf (setParentIfPresent (some a) r1)) (heightOf l) + 1 = h := by
          rw [heightOf_setParentIfPresent, hh, max_comm]
          omega
        simp only [if_pos c1, er, Option.some_bind, hht]
        rw [balance_of_factor_range]
        · rfl
        · rw [heightOf_setParentIfPresent, hh]; exact b1
        · rw [heightOf_setParentIfPresent, hh]; exact b2
      · simp only [layout, layout_setParentIfPresent, hlay]
      · simp only [inorder_node, inorder_setParentIfPresent, hin]
    · by_cases c2 : lt key k = true
      · rw [if_pos c2] at hf
        obtain ⟨l1, el, hlay, hin⟩ := ihl hl hf
        have hh := heightOf_of_layout hlay
        refine ⟨Node.node a k v p (setParentIfPresent (some a) l1) r h, ?_, ?_, ?_⟩
        · have hht : max (heightOf r) (heightOf (setParentIfPresent (some a) l1)) + 1 = h := by
            rw [heightOf_setParentIfPresent, hh, max_comm]
            omega
          simp only [if_neg c1, if_pos c2, el, Option.some_bind, hht]
          rw [balance_of_factor_range]
          · rfl
          · rw [heightOf_setParentIfPresent, hh]; exact b1
          · rw [heightOf_setParentIfPresent, hh]; exact b2
        · simp only [layout, layout_setParentIfPresent, hlay]
        · simp only [inorder_node, inorder_setParentIfPresent, hin]
      · rw [if_neg c2, if_neg c1] at hf
        cases hf

theorem insertWith_present_layout {lt : K → K → Bool} (hlt : StrictWeakOrder lt) (rep : Bool)
    (t : AvlTree K V) (k : K) (v : V) (ha : AVLCached t.m_root) (hk : t.find lt k ≠ t.end) :
    ∃ t1 it, AvlTree.insertWith lt rep t k v = some (t1, it, false) ∧
      layout t1.m_root = layout t.m_root ∧ shapeOf t1.m_root = shapeOf t.m_root ∧
      t1.size = t.size ∧ it.m_node = (t.find lt k).m_node ∧
      (rep = false → inorder t1.m_root = inorder t.m_root) := by
  cases hf : findLoop lt k t.m_root with
  | none => simp [AvlTree.find, hf] at hk
  | some a0 =>
    obtain ⟨m, e, hlay, hne, hin⟩ :=
      insertImpl_present_layout hlt k v t.heapTop rep t.m_root ha a0 hf
    have hlay1 : layout (setParentIfPresent none m) = layout t.m_root := by
      rw [layout_setParentIfPresent, hlay]
    refine ⟨AvlTree.mk (setParentIfPresent none m) t.m_nodeCount t.heapTop,
      iterator.mk (some a0) (addrOf (setParentIfPresent none m)), ?_, hlay1,
      shapeOf_of_layout hlay1, rfl, ?_, ?_⟩
    · simp [AvlTree.insertWith, e, setParent_of_ne_nil none hne]
    · simp [AvlTree.find, hf]
    · intro hrep
      simp only [inorder_setParentIfPresent, hin hrep]

end Lemmas

section Claims
variable {K V : Type}

/-- Claim C39: on a tree that satisfies height coherence and AVL balance, the calls that
change no key set perform no rotation and leave the layout as it was: the same nodes stand at
the same positions with the same cached heights.  This holds of `insert(k, v)` and
`insert_or_assign(k, v)` when `find(k)` is not `end` (they report `didInsert = false`, and
`insert` leaves every value as it was), and of `erase(k)` when `find(k)` is `end`. -/
theorem C39_no_change_without_key_change {lt : K → K → Bool} (hlt : StrictWeakOrder lt)
    (t : AvlTree K V) (k : K) (v : V) (hc : HeightCoherent t.m_root)
    (hbal : AVLBalanced t.m_root = true) :
    (t.find lt k ≠ t.end →
      (∃ t1 it, t.insert lt k v = some (t1, it, false) ∧
        layout t1.m_root = layout t.m_root ∧ shapeOf t1.m_root = shapeOf t.m_root ∧
        inorder t1.m_root = inorder t.m_root ∧ t1.size = t.size) ∧
      (∃ t1 it, t.insert_or_assign lt k v = some (t1, it, false) ∧
        layout t1.m_root = layout t.m_root ∧ shapeOf t1.m_root = shapeOf t.m_root ∧
        t1.size = t.size)) ∧
    (t.find lt k = t.end →
      ∃ t1 o, t.erase lt k = some (t1, o) ∧
        layout t1.m_root = layout t.m_root ∧ shapeOf t1.m_root = shapeOf t.m_root ∧
        inorder t1.m_root = inorder t.m_root ∧ t1.size = t.size) := by
  have ha := (AVLCached_iff t.m_root).2 ⟨hc, hbal⟩
  constructor
  · intro hk
    constructor
    · obtain ⟨t1, it, e, h1, h2, h3, _, h5⟩ := insertWith_present_layout hlt false t k v ha hk
      exact ⟨t1, it, e, h1, h2, h5 rfl, h3⟩
    · obtain ⟨t1, it, e, h1, h2, h3, _, _⟩ := insertWith_present_layout hlt true t k v ha hk
      exact ⟨t1, it, e, h1, h2, h3⟩
  · intro hk
    by_cases hE : t.isEmpty = true
    · exact ⟨t, Outcome.ok t.end, by simp [AvlTree.erase, hE], rfl, rfl, rfl, rfl⟩
    · have hf : findLoop lt k t.m_root = none := by
        cases e : findLoop lt k t.m_root with
        | none => rfl
        | some a => simp [AvlTree.find, e, AvlTree.end] at hk
      obtain ⟨m, e, hlay, hin⟩ :=
        eraseImpl_absent_layout hlt t.m_root k (Outcome.ok t.end) t.m_nodeCount t.m_root ha hf
      obtain ⟨o, ho⟩ := erase_of_eraseImpl hE e
      have hlay1 : layout (setParentIfPresent none m) = layout t.m_root := by
        rw [layout_setParentIfPresent, hlay]
      exact ⟨_, o, ho, hlay1, shapeOf_of_layout hlay1,
        by simp only [inorder_setParentIfPresent, hin], rfl⟩

/-- A concrete instance of C39: on the tree holding 1, 2, 3, inserting the present key 1 and
erasing the absent key 7. -/
theorem C39_witness :
    StrictWeakOrder ltNat ∧ HeightCoherent sample3.m_root ∧
    AVLBalanced sample3.m_root = true ∧
    sample3.find ltNat 1 ≠ sample3.end ∧ sample3.find ltNat 7 = sample3.end ∧
    (∃ t1 it, sample3.insert_or_assign ltNat 1 55 = some (t1, it, false) ∧
      layout t1.m_root = layout sample3.m_root ∧ shapeOf t1.m_root = shapeOf sample3.m_root ∧
      t1.size = sample3.size) ∧
    (∃ t1 o, sample3.erase ltNat 7 = some (t1, o) ∧
      layout t1.m_root = layout sample3.m_root ∧ shapeOf t1.m_root = shapeOf sample3.m_root ∧
      inorder t1.m_root = inorder sample3.m_root ∧ t1.size = sample3.size) :=
  ⟨strictWeakOrder_ltNat, ⟨rfl, ⟨rfl, trivial, trivial⟩, ⟨rfl, trivial, trivial⟩⟩, rfl,
    by decide, rfl,
    ((C39_no_change_without_key_change strictWeakOrder_ltNat sample3 1 55
      ⟨rfl, ⟨rfl, trivial, trivial⟩, ⟨rfl, trivial, trivial⟩⟩ rfl).1 (by decide)).2,
    (C39_no_change_without_key_change strictWeakOrder_ltNat sample3 7 55
      ⟨rfl, ⟨rfl, trivial, trivial⟩, ⟨rfl, trivial, trivial⟩⟩ rfl).2 rfl⟩

end Claims
end Avl
namespace Avl
section Lemmas
variable {K V : Type}

/-! ## A cached height never underestimates -/

theorem trueHeight_setParentIfPresent (p : Option Nat) (n : Node K V) :
    trueHeight (setParentIfPresent p n) = trueHeight n := by
  cases n <;> rfl

theorem HeightBound_setParentIfPresent (p : Option Nat) {n : Node K V} (h : HeightBound n) :
    HeightBound (setParentIfPresent p n) := by
  cases n with
  | nil => exact h
  | node a k v q l r ht => exact h

theorem HeightBound.le {n : Node K V} (h : HeightBound n) :
    (trueHeight n : Int) ≤ heightOf n := by
  cases n with
  | nil => simp [trueHeight]
  | node a k v p l r ht => exact h.2.1

theorem HeightBound.bound_pos {n : Node K V} (h : HeightBound n) : HPos n := by
  induction n with
  | nil => trivial
  | node a k v p l r ht ihl ihr => exact ⟨h.1, ihl h.2.2.1, ihr h.2.2.2⟩

theorem HeightBound.of_nodeAt {H n : Node K V} {a : Nat} (h : HeightBound H)
    (e : nodeAt a H = some n) : HeightBound n := by
  induction H with
  | nil => simp [nodeAt] at e
  | node b k v p l r ht ihl ihr =>
    unfold nodeAt at e
    cases el : nodeAt a l with
    | some n1 =>
      rw [el] at e
      simp only [Option.some.injEq] at e
      subst e
      exact ihl h.2.2.1 el
    | none =>
      rw [el] at e
      simp only at e
      by_cases hb : b = a
      · rw [if_pos hb] at e
        simp only [Option.some.injEq] at e
        subst e
        exact h
      · rw [if_neg hb] at e
        exact ihr h.2.2.2 e

/-- A node whose height has just been recomputed from children that satisfy the bound
satisfies it as well. -/
theorem HeightBound_recomputed (a : Nat) (k : K) (v : V) (p : Option Nat) {l r : Node K V}
    (hl : HeightBound l) (hr : HeightBound r) :
    HeightBound (Node.node a k v p l r (max (heightOf r) (heightOf l) + 1)) := by
  have h1 := hl.le
  have h2 := hr.le
  refine ⟨?_, ?_, hl, hr⟩
  · omega
  · push_cast
    omega

theorem rotateRight_HeightBound {n m : Node K V} (e : rotateRight n = some m)
    (hl : HeightBound (leftOf n)) (hr : HeightBound (rightOf n)) : HeightBound m := by
  cases n with
  | nil => simp [rotateRight] at e
  | node a k v p l r h =>
    cases l with
    | nil => simp [rotateRight] at e
    | node la lk lv lp ll lr lh =>
      simp only [rotateRight, Option.some.injEq] at e
      subst e
      have h1 := HeightBound_recomputed a k v (some la)
        (HeightBound_setParentIfPresent (some a) hl.2.2.2) hr
      have h2 := HeightBound_recomputed la lk lv lp hl.2.2.1 h1
      exact h2

theorem rotateLeft_HeightBound {n m : Node K V} (e : rotateLeft n = some m)
    (hl : HeightBound (leftOf n)) (hr : HeightBound (rightOf n)) : HeightBound m := by
  cases n with
  | nil => simp [rotateLeft] at e
  | node a k v p l r h =>
    cases r with
    | nil => simp [rotateLeft] at e
    | node ra rk rv rp rl rr rh =>
      simp only [rotateLeft, Option.some.injEq] at e
      subst e
      have h1 : HeightBound (Node.node a k v (some ra) l (setParentIfPresent (some a) rl)
          (max (heightOf (setParentIfPresent (some a) rl)) (heightOf l) + 1)) :=
        HeightBound_recomputed a k v (some ra) hl
          (HeightBound_setParentIfPresent (some a) hr.2.2.1)
      have h2 := HeightBound_recomputed ra rk rv rp h1 hr.2.2.2
      exact h2

theorem balance_HeightBound {n m : Node K V} (e : balance n = some m) (h : HeightBound n) :
    HeightBound m := by
  cases n with
  | nil =>
    simp only [balance, Option.some.injEq] at e
    subst e
    trivial
  | node a k v p l r ht =>
    unfold balance at e
    simp only [calculateBalanceFactor_node] at e
    split_ifs at e with c1 c2 c3 c4
    · exact rotateLeft_HeightBound e h.2.2.1 h.2.2.2
    · exact rotateRight_HeightBound e h.2.2.1 h.2.2.2
    · cases e1 : rotateRight r with
      | none => simp [e1] at e
      | some r1 =>
        have hr1 : HeightBound r1 := by
          cases r with
          | nil => simp [rotateRight] at e1
          | node ra rk rv rp rl rr rh =>
            exact rotateRight_HeightBound e1 h.2.2.2.2.2.1 h.2.2.2.2.2.2
        cases e2 : setParent (some a) r1 with
        | none => simp [e1, e2] at e
        | some r2 =>
          simp only [e1, e2, Option.some_bind] at e
          rw [(setParent_eq_some e2).1] at e
          exact rotateLeft_HeightBound e h.2.2.1 (HeightBound_setParentIfPresent _ hr1)
    · cases e1 : rotateLeft l with
      | none => simp [e1] at e
      | some l1 =>
        have hl1 : HeightBound l1 := by
          cases l with
          | nil => simp [rotateLeft] at e1
          | node la lk lv lp ll lr lh =>
            exact rotateLeft_HeightBound e1 h.2.2.1.2.2.1 h.2.2.1.2.2.2
        cases e2 : setParent (some a) l1 with
        | none => simp [e1, e2] at e
        | some l2 =>
          simp only [e1, e2, Option.some_bind] at e
          rw [(setParent_eq_some e2).1] at e
          exact rotateRight_HeightBound e (HeightBound_setParentIfPresent _ hl1) h.2.2.2
    · simp only [Option.some.injEq] at e
      subst e
      exact h

theorem balance_recomputed_HeightBound (a : Nat) (k : K) (v : V) (p : Option Nat)
    {l r : Node K V} (hl : HeightBound l) (hr : HeightBound r) :
    ∃ m, balance (Node.node a k v p l r (max (heightOf r) (heightOf l) + 1)) = some m ∧
      HeightBound m ∧ m ≠ Node.nil := by
  have hb := HeightBound_recomputed a k v p hl hr
  obtain ⟨m, e, sm⟩ := balance_spec a k v p l r _ hb.bound_pos
  exact ⟨m, e, balance_HeightBound e hb, sm.ne_nil⟩

theorem insertImpl_HeightBound (lt : K → K → Bool) (key : K) (value : V) (fresh : Nat)
    (rep : Bool) (n : Node K V) (hp : HeightBound n) :
    ∃ m ins did, insertImpl lt key value fresh rep n = some (m, ins, did) ∧
      HeightBound m ∧ m ≠ Node.nil := by
  induction n with
  | nil =>
    exact ⟨_, _, _, rfl, ⟨le_refl _, by simp [trueHeight], trivial, trivial⟩, by simp⟩
  | node a k v p l r h ihl ihr =>
    obtain ⟨h1, h2, pl, pr⟩ := hp
    unfold insertImpl
    by_cases c1 : lt k key = true
    · obtain ⟨r1, ins, did, e, pr1, nr1⟩ := ihr pr
      obtain ⟨m, em, hm, hne⟩ := balance_recomputed_HeightBound a k v p pl
        (HeightBound_setParentIfPresent (some a) pr1)
      simp only [heightOf_setParentIfPresent] at em
      exact ⟨m, ins, did, by simp [c1, e, setParent_of_ne_nil (some a) nr1, em], hm, hne⟩
    · by_cases c2 : lt key k = true
      · obtain ⟨l1, ins, did, e, pl1, nl1⟩ := ihl pl
        obtain ⟨m, em, hm, hne⟩ := balance_recomputed_HeightBound a k v p
          (HeightBound_setParentIfPresent (some a) pl1) pr
        simp only [heightOf_setParentIfPresent] at em
        exact ⟨m, ins, did, by simp [c1, c2, e, setParent_of_ne_nil (some a) nl1, em], hm,
          hne⟩
      · exact ⟨Node.node a k (if rep then value else v) p l r h, some a, false,
          by simp [c1, c2], (show HeightBound (Node.node a k _ p l r h) from ⟨h1, h2, pl, pr⟩),
          by simp⟩

theorem detachLeftmostNode_HeightBound {n d m : Node K V}
    (e : detachLeftmostNode n = some (d, m)) (h : HeightBound n) :
    HeightBound m ∧ trueHeight m ≤ trueHeight n := by
  induction n generalizing d m with
  | nil => simp [detachLeftmostNode] at e
  | node a k v p l r ht ihl _ =>
    cases l with
    | nil =>
      cases r with
      | nil =>
        simp only [detachLeftmostNode, Option.some.injEq, Prod.mk.injEq] at e
        obtain ⟨_, rfl⟩ := e
        exact ⟨trivial, Nat.zero_le _⟩
      | node ra rk rv rp rl rr rh =>
        simp only [detachLeftmostNode, setParent, Option.some_bind, Option.some.injEq,
          Prod.mk.injEq] at e
        obtain ⟨_, rfl⟩ := e
        refine ⟨h.2.2.2, ?_⟩
        simp only [trueHeight]
        omega
    | node la lk lv lp ll lr lh =>
      cases e1 : detachLeftmostNode (Node.node la lk lv lp ll lr lh) with
      | none => simp [detachLeftmostNode, e1] at e
      | some res =>
        obtain ⟨d1, m1⟩ := res
        simp only [detachLeftmostNode, e1, Option.some_bind, Option.some.injEq,
          Prod.mk.injEq] at e
        obtain ⟨_, rfl⟩ := e
        obtain ⟨hm1, ht1⟩ := ihl e1 h.2.2.1
        have hb := h.2.1
        simp only [trueHeight] at ht1 hb ⊢
        refine ⟨⟨h.1, ?_, hm1, h.2.2.2⟩, ?_⟩
        · push_cast at hb ⊢
          omega
        · omega

theorem detachNode_HeightBound {n d m : Node K V} (e : detachNode n = some (d, m))
    (h : HeightBound n) : HeightBound (leftOf m) ∧ HeightBound (rightOf m) := by
  cases n with
  | nil => simp [detachNode] at e
  | node a k v p l r ht =>
    cases l with
    | nil =>
      cases r with
      | nil =>
        simp only [detachNode, Option.some.injEq, Prod.mk.injEq] at e
        obtain ⟨_, rfl⟩ := e
        exact ⟨trivial, trivial⟩
      | node ra rk rv rp rl rr rh =>
        simp only [detachNode, setParent, Option.some_bind, Option.some.injEq,
          Prod.mk.injEq] at e
        obtain ⟨_, rfl⟩ := e
        exact ⟨h.2.2.2.2.2.1, h.2.2.2.2.2.2⟩
    | node la lk lv lp ll lr lh =>
      cases r with
      | nil =>
        simp only [detachNode, setParent, Option.some_bind, Option.some.injEq,
          Prod.mk.injEq] at e
        obtain ⟨_, rfl⟩ := e
        exact ⟨h.2.2.1.2.2.1, h.2.2.1.2.2.2⟩
      | node ra rk rv rp rl rr rh =>
        cases e1 : detachLeftmostNode (Node.node ra rk rv rp rl rr rh) with
        | none => simp [detachNode, e1] at e
        | some res =>
          obtain ⟨d1, m1⟩ := res
          have hm1 := (detachLeftmostNode_HeightBound e1 h.2.2.2).1
          cases d1 with
          | nil => simp [detachNode, e1] at e
          | node da dk dv dp dl dr dh =>
            simp only [detachNode, e1, Option.some_bind, Option.some.injEq,
              Prod.mk.injEq] at e
            obtain ⟨_, rfl⟩ := e
            exact ⟨h.2.2.1, hm1⟩

theorem eraseImpl_HeightBound (lt : K → K → Bool) (heap : Node K V) (key : K)
    (next : Outcome iterator) (cnt : Nat) (n : Node K V) (hp : HeightBound n) :
    ∃ m next1 cnt1, eraseImpl lt heap key n next cnt = some (m, next1, cnt1) ∧
      HeightBound m := by
  induction n with
  | nil => exact ⟨_, _, _, rfl, trivial⟩
  | node a k v p l r h ihl ihr =>
    obtain ⟨h1, h2, pl, pr⟩ := hp
    unfold eraseImpl
    by_cases c1 : lt k key = true
    · obtain ⟨r1, nx, ct, e, pr1⟩ := ihr pr
      obtain ⟨m, em, hm, _⟩ := balance_recomputed_HeightBound a k v p pl
        (HeightBound_setParentIfPresent (some a) pr1)
      simp only [heightOf_setParentIfPresent] at em
      exact ⟨m, nx, ct, by simp [c1, e, em], hm⟩
    · by_cases c2 : lt key k = true
      · obtain ⟨l1, nx, ct, e, pl1⟩ := ihl pl
        obtain ⟨m, em, hm, _⟩ := balance_recomputed_HeightBound a k v p
          (HeightBound_setParentIfPresent (some a) pl1) pr
        simp only [heightOf_setParentIfPresent] at em
        exact ⟨m, nx, ct, by simp [c1, c2, e, em], hm⟩
      · have hn : HeightBound (Node.node a k v p l r h) := ⟨h1, h2, pl, pr⟩
        obtain ⟨d, m, ed, _, _⟩ := detachNode_spec a k v p l r h hn.bound_pos
        cases m with
        | nil =>
          exact ⟨Node.nil, iterator.preIncrement heap (iterator.mk (some a) (addrOf heap)),
            cnt - 1, by simp [c1, c2, ed], trivial⟩
        | node a1 k1 v1 p1 l1 r1 h3 =>
          have hch : HeightBound l1 ∧ HeightBound r1 := detachNode_HeightBound ed hn
          obtain ⟨b, eb, hb, _⟩ := balance_recomputed_HeightBound a1 k1 v1 p1 hch.1 hch.2
          exact ⟨b, iterator.preIncrement heap (iterator.mk (some a) (addrOf heap)),
            cnt - 1, by simp [c1, c2, ed, eb], hb⟩

theorem step_HeightBound (lt : K → K → Bool) {t t1 : AvlTree K V} (op : Op K V)
    (h : HeightBound t.m_root) (e : step lt t op = some t1) : HeightBound t1.m_root := by
  cases op with
  | insert key value =>
    obtain ⟨m, ins, did, em, hm, hne⟩ :=
      insertImpl_HeightBound lt key value t.heapTop false t.m_root h
    simp only [step, AvlTree.insert, AvlTree.insertWith, em, Option.some_bind,
      setParent_of_ne_nil none hne, Option.map_some', Option.some.injEq] at e
    subst e
    exact HeightBound_setParentIfPresent none hm
  | insert_or_assign key value =>
    obtain ⟨m, ins, did, em, hm, hne⟩ :=
      insertImpl_HeightBound lt key value t.heapTop true t.m_root h
    simp only [step, AvlTree.insert_or_assign, AvlTree.insertWith, em, Option.some_bind,
      setParent_of_ne_nil none hne, Option.map_some', Option.some.injEq] at e
    subst e
    exact HeightBound_setParentIfPresent none hm
  | erase key =>
    by_cases hE : t.isEmpty = true
    · simp only [step, AvlTree.erase, hE, if_true, Option.map_some', Option.some.injEq] at e
      subst e
      exact h
    · obtain ⟨m, next1, cnt1, em, hm⟩ :=
        eraseImpl_HeightBound lt t.m_root key (Outcome.ok t.end) t.m_nodeCount t.m_root h
      obtain ⟨o, ho⟩ := erase_of_eraseImpl hE em
      simp only [step, ho, Option.map_some', Option.some.injEq] at e
      subst e
      exact HeightBound_setParentIfPresent none hm
  | clear =>
    simp only [step, Option.some.injEq] at e
    subst e
    trivial

theorem run_HeightBound (lt : K → K → Bool) (ops : List (Op K V)) :
    ∀ {t t1 : AvlTree K V}, HeightBound t.m_root → run lt t ops = some t1 →
      HeightBound t1.m_root := by
  induction ops with
  | nil =>
    intro t t1 h e
    simp only [run, Option.some.injEq] at e
    subst e
    exact h
  | cons op ops ih =>
    intro t t1 h e
    cases es : step lt t op with
    | none => simp [run, es] at e
    | some t2 =>
      simp only [run, es, Option.some_bind] at e
      exact ih (step_HeightBound lt op h es) e

end Lemmas

section Claims
variable {K V : Type}

/-- Claim C40: in every tree reachable from the empty tree by a sequence of insert,
insert_or_assign, erase and clear, every node's cached height is at least 1 and at least the
true height of the subtree rooted at the node: a cached height may be stale, it never
underestimates. -/
theorem C40_cached_height_never_underestimates (lt : K → K → Bool) (t : AvlTree K V)
    (h : Reachable lt t) :
    HPos t.m_root ∧ HeightBound t.m_root ∧
    ∀ a n, nodeAt a t.m_root = some n →
      1 ≤ heightOf n ∧ (trueHeight n : Int) ≤ heightOf n := by
  obtain ⟨top, ops, e⟩ := h
  have hb : HeightBound t.m_root := run_HeightBound lt ops (t := AvlTree.empty top) trivial e
  refine ⟨hb.bound_pos, hb, ?_⟩
  intro a n hn
  have h1 := hb.of_nodeAt hn
  obtain ⟨k, v, hm, _⟩ := nodeAt_some hn
  refine ⟨?_, h1.le⟩
  cases n with
  | nil => simp [keyValuePair] at hm
  | node b kb vb pb lb rb hb1 => exact h1.1

/-- A concrete instance of C40: after insert 2, 1, 4, 3 and erase 2 the root's cached height
is 3 on a tree of true height 2: stale, and not an underestimate. -/
theorem C40_witness :
    ∃ t, run ltNat (AvlTree.empty 0)
        [Op.insert 2 20, Op.insert 1 10, Op.insert 4 40, Op.insert 3 30, Op.erase 2]
        = some t ∧
      heightOf t.m_root = 3 ∧ trueHeight t.m_root = 2 ∧
      Reachable ltNat t ∧
      (HPos t.m_root ∧ HeightBound t.m_root ∧
        ∀ a n, nodeAt a t.m_root = some n →
          1 ≤ heightOf n ∧ (trueHeight n : Int) ≤ heightOf n) :=
  ⟨_, rfl, rfl, rfl,
    ⟨0, [Op.insert 2 20, Op.insert 1 10, Op.insert 4 40, Op.insert 3 30, Op.erase 2], rfl⟩,
    C40_cached_height_never_underestimates ltNat _
      ⟨0, [Op.insert 2 20, Op.insert 1 10, Op.insert 4 40, Op.insert 3 30, Op.erase 2], rfl⟩⟩

end Claims
end Avl

namespace Avl
section Lemmas
variable {K V : Type}

/-! ## `erase` on a tree with coherent parent links -/

theorem Erased.next_defined {lt : K → K → Bool} {key : K} {heap : Node K V}
    {xs ys : List (Nat × K × V)} {next next1 : Outcome iterator} {cnt cnt1 : Nat}
    (h : Erased lt key heap xs ys next cnt next1 cnt1) (hx : xs = inorder heap)
    (hn : (addrs heap).Nodup) (hp : ParentOK none heap) (it0 : iterator)
    (h0 : next = Outcome.ok it0) : ∃ it, next1 = Outcome.ok it := by
  cases h with
  | absent hy hn1 => exact ⟨it0, h0⟩
  | removed L R a k0 v0 hx1 hy he =>
    cases R with
    | nil =>
      exact ⟨_, preIncrement_of_last hn hp (A := L) (y := (a, k0, v0))
        (by rw [← hx, hx1]) _⟩
    | cons y B =>
      exact ⟨_, preIncrement_of_next hn hp (A := L) (x := (a, k0, v0)) (y := y) (B := B)
        (by rw [← hx, hx1]) _⟩

/-- Where the parent links are coherent the successor step of `erase` reads no dangling
link: the call returns an iterator, `find(key)` is `end` afterwards, and the in-order
sequence of (key, value) pairs is the one before without the entry equivalent to `key`. -/
theorem erase_of_coherent_parents {lt : K → K → Bool} (hlt : StrictWeakOrder lt)
    (t : AvlTree K V) (key : K) (hi : Inv lt t) (hp : ParentOK none t.m_root) :
    ∃ t1 it, t.erase lt key = some (t1, Outcome.ok it) ∧ t1.find lt key = t1.end ∧
      toList t1.m_root
        = (toList t.m_root).filter (fun kv => !(!lt key kv.1 && !lt kv.1 key)) := by
  obtain ⟨t1, next1, e, her, _, _⟩ := erase_spec hlt t key hi
  obtain ⟨it, hit⟩ := her.next_defined rfl hi.nodup hp t.end rfl
  subst hit
  refine ⟨t1, _, e, (find_of_absent (her.absent_after hlt (sorted_of_BST hlt hi.bst))).1, ?_⟩
  have hf := her.eq_filter hlt (sorted_of_BST hlt hi.bst)
  simp only [toList]
  rw [hf, List.filter_map]
  rfl

end Lemmas
end Avl
